import Mathlib

/-!
# Trampoline alarm kernel (`os/tpl_os_alarm_kernel.c`)

A shallow embedding of the time-object queue of a counter and of the three
operations of the file: `tpl_insert_time_obj`, `tpl_remove_time_obj` and
`tpl_counter_tick`.

Memory model.  Time objects live in a heap `Nat → tpl_time_obj`; a pointer to
a time object is an `Option Nat` (`none` is `NULL`).  All objects belong to the
one counter of the state (`time_obj->stat_part->counter`).  Values of type
`tpl_tick` are natural numbers; the increments of `tpl_counter_tick` and the
rearming addition wrap modulo `2 ^ width`.

Loops.  The scan of `tpl_insert_time_obj` and the expiry loop of
`tpl_counter_tick` take a fuel argument and return `none` when it runs out;
dereferencing `NULL` (`counter->next_to->date` with `next_to == NULL`) also
returns `none`.

The `expire` hook is an external function; it is modelled as a pure function
from the object to the returned status, and the calls made by one
`tpl_counter_tick` are recorded, in order, in the field `fired` of the result.
-/

namespace Trampoline

/-! ## Data model -/

/-- Dynamic part of a time object (`tpl_time_obj`). -/
structure tpl_time_obj where
  date : Nat
  cycle : Nat
  state : Nat
  prev_to : Option Nat
  next_to : Option Nat
deriving DecidableEq, Repr

/-- Counter descriptor (`tpl_counter`). -/
structure tpl_counter where
  current_tick : Nat
  ticks_per_base : Nat
  current_date : Nat
  first_to : Option Nat
  next_to : Option Nat
deriving DecidableEq, Repr

/-- Memory of the kernel: the counter and the heap of its time objects. -/
structure Kernel where
  counter : tpl_counter
  objs : Nat → tpl_time_obj

/-- Modelled from the spec: the constant `ALARM_SLEEP` of the header
`tpl_os_definitions.h` (state of an object that is not linked). -/
def ALARM_SLEEP : Nat := 0

/-- Modelled from the spec: the constant `ALARM_ACTIVE` of the header
`tpl_os_definitions.h` (state bit of an object linked in a queue). -/
def ALARM_ACTIVE : Nat := 1

/-- Constants and external functions the file takes from its headers and from
the static configuration: the bit width of `tpl_tick`, `NO_SPECIAL_CODE`,
`TRAMPOLINE_STATUS_MASK` and the `expire` hook of every object. -/
structure Config where
  width : Nat
  NO_SPECIAL_CODE : Nat
  TRAMPOLINE_STATUS_MASK : Nat
  expire : Nat → Nat

/-! ## Heap writes -/

/-- Write `o->next_to = v`. -/
def set_next_to (objs : Nat → tpl_time_obj) (o : Nat) (v : Option Nat) : Nat → tpl_time_obj :=
  fun j => if j = o then { objs j with next_to := v } else objs j

/-- Write `o->prev_to = v`. -/
def set_prev_to (objs : Nat → tpl_time_obj) (o : Nat) (v : Option Nat) : Nat → tpl_time_obj :=
  fun j => if j = o then { objs j with prev_to := v } else objs j

/-- Write `o->state = v`. -/
def set_state (objs : Nat → tpl_time_obj) (o : Nat) (v : Nat) : Nat → tpl_time_obj :=
  fun j => if j = o then { objs j with state := v } else objs j

/-- Write `o->date = v`. -/
def set_date (objs : Nat → tpl_time_obj) (o : Nat) (v : Nat) : Nat → tpl_time_obj :=
  fun j => if j = o then { objs j with date := v } else objs j

/-- Write `o->cycle = v`. -/
def set_cycle (objs : Nat → tpl_time_obj) (o : Nat) (v : Nat) : Nat → tpl_time_obj :=
  fun j => if j = o then { objs j with cycle := v } else objs j

/-- Conditional write `if (c != NULL) c->prev_to = v`. -/
def link_prev (objs : Nat → tpl_time_obj) (c : Option Nat) (v : Option Nat) : Nat → tpl_time_obj :=
  match c with
  | some c => set_prev_to objs c v
  | none => objs

/-- Conditional write `if (p != NULL) p->next_to = v`. -/
def link_next (objs : Nat → tpl_time_obj) (p : Option Nat) (v : Option Nat) : Nat → tpl_time_obj :=
  match p with
  | some p => set_next_to objs p v
  | none => objs

/-! ## tpl_insert_time_obj -/

/-- The `while` loop of `tpl_insert_time_obj` (lines 62-67): returns the final
`(current_to, prev_to)`. -/
def insertScan (objs : Nat → tpl_time_obj) (date : Nat) :
    Nat → Option Nat → Option Nat → Option (Option Nat × Option Nat)
  | 0, _, _ => none
  | _ + 1, none, prev_to => some (none, prev_to)
  | fuel + 1, some c, prev_to =>
    if (objs c).date ≤ date then insertScan objs date fuel (objs c).next_to (some c)
    else some (some c, prev_to)

/-- The update of `counter->next_to` at the end of `tpl_insert_time_obj`
(lines 94-109), given the date `nd` of the current `next_to` object `n`. -/
def insertCursor (current_date nd td : Nat) (n time_obj : Nat) : Nat :=
  if nd < current_date then
    if td > current_date ∨ td < nd then time_obj else n
  else
    if td > current_date ∧ td < nd then time_obj else n

/-- Function `tpl_insert_time_obj` (lines 41-114). -/
def tpl_insert_time_obj (fuel : Nat) (s : Kernel) (time_obj : Nat) : Option Kernel :=
  match s.counter.first_to with
  | none =>
    let objs1 := set_prev_to (set_next_to s.objs time_obj none) time_obj none
    some { counter := { s.counter with first_to := some time_obj, next_to := some time_obj },
           objs := set_state objs1 time_obj ((objs1 time_obj).state ||| ALARM_ACTIVE) }
  | some first =>
    match insertScan s.objs (s.objs time_obj).date fuel (some first) none with
    | none => none
    | some (current_to, prev_to) =>
      let objs1 := set_prev_to (set_next_to s.objs time_obj current_to) time_obj prev_to
      let objs2 := link_prev objs1 current_to (some time_obj)
      let objs3 := link_next objs2 prev_to (some time_obj)
      let first_to := match prev_to with
        | some _ => s.counter.first_to
        | none => some time_obj
      match s.counter.next_to with
      | none => none
      | some n =>
        some { counter := { s.counter with
                 first_to := first_to,
                 next_to := some (insertCursor s.counter.current_date (objs3 n).date
                                    (objs3 time_obj).date n time_obj) },
               objs := set_state objs3 time_obj ((objs3 time_obj).state ||| ALARM_ACTIVE) }

/-! ## tpl_remove_time_obj -/

/-- Function `tpl_remove_time_obj` (lines 121-158). -/
def tpl_remove_time_obj (s : Kernel) (time_obj : Nat) : Kernel :=
  let first1 := if some time_obj = s.counter.first_to then (s.objs time_obj).next_to
                else s.counter.first_to
  let next1 := if some time_obj = s.counter.next_to then (s.objs time_obj).next_to
               else s.counter.next_to
  let objs1 := link_prev s.objs (s.objs time_obj).next_to (s.objs time_obj).prev_to
  let objs2 := link_next objs1 (objs1 time_obj).prev_to (objs1 time_obj).next_to
  let next2 := if next1 = none then first1 else next1
  { counter := { s.counter with first_to := first1, next_to := next2 },
    objs := set_state objs2 time_obj ALARM_SLEEP }

/-! ## tpl_counter_tick -/

/-- Result of `tpl_counter_tick`: the memory after the call, the returned
status, and the objects whose `expire` hook was called, in call order. -/
structure TickResult where
  kernel : Kernel
  need_resched : Nat
  fired : List Nat

/-- The statement `t_obj->date += t_obj->cycle` (line 234), on `tpl_tick`. -/
def rearm (cfg : Config) (s : Kernel) (t_obj : Nat) : Kernel :=
  let date := ((s.objs t_obj).date + (s.objs t_obj).cycle) % 2 ^ cfg.width
  { s with objs := set_date s.objs t_obj date }

/-- The `while` loop of `tpl_counter_tick` (lines 215-242).  `scan` is the fuel
handed to every `tpl_insert_time_obj`. -/
def tickLoop (cfg : Config) (scan : Nat) (date : Nat) :
    Nat → Kernel → Nat → Option TickResult
  | 0, _, _ => none
  | fuel + 1, s, need_resched =>
    match s.counter.next_to with
    | none => some ⟨s, need_resched, []⟩
    | some t_obj =>
      if (s.objs t_obj).date = date then
        let s1 := tpl_remove_time_obj s t_obj
        let need1 := need_resched ||| (cfg.TRAMPOLINE_STATUS_MASK &&& cfg.expire t_obj)
        if (s1.objs t_obj).cycle ≠ 0 then
          match tpl_insert_time_obj scan (rearm cfg s1 t_obj) t_obj with
          | none => none
          | some s3 =>
            (tickLoop cfg scan date fuel s3 need1).map
              (fun r => { r with fired := t_obj :: r.fired })
        else
          (tickLoop cfg scan date fuel s1 need1).map
            (fun r => { r with fired := t_obj :: r.fired })
      else some ⟨s, need_resched, []⟩

/-- The statements `counter->current_tick = 0; counter->current_date++;`
(lines 208-209), on `tpl_tick`. -/
def rollover (cfg : Config) (s : Kernel) : Kernel :=
  let date := (s.counter.current_date + 1) % 2 ^ cfg.width
  { s with counter := { s.counter with current_tick := 0, current_date := date } }

/-- Function `tpl_counter_tick` (lines 196-245). -/
def tpl_counter_tick (cfg : Config) (fuel : Nat) (s : Kernel) : Option TickResult :=
  let tick1 := (s.counter.current_tick + 1) % 2 ^ cfg.width
  if tick1 = s.counter.ticks_per_base then
    let s1 := rollover cfg s
    let date := s1.counter.current_date
    tickLoop cfg fuel date fuel s1 cfg.NO_SPECIAL_CODE
  else
    some ⟨{ s with counter := { s.counter with current_tick := tick1 } }, cfg.NO_SPECIAL_CODE, []⟩

/-! ## The queue as a list -/

/-- Pointer to the first element of `l`, or `d` when `l` is empty. -/
def headOr (l : List Nat) (d : Option Nat) : Option Nat :=
  match l with
  | [] => d
  | a :: _ => some a

/-- Pointer to the last element of `l`, or `d` when `l` is empty. -/
def lastOr : List Nat → Option Nat → Option Nat
  | [], d => d
  | a :: l, _ => lastOr l (some a)

/-- The objects of `l` are doubly linked in this order: the first one has
`prev_to = prev`, the last one has `next_to = nxt`, and every `next_to` is the
following object, every `prev_to` the preceding one. -/
def Seg (objs : Nat → tpl_time_obj) : Option Nat → List Nat → Option Nat → Prop
  | _, [], _ => True
  | prev, a :: l, nxt =>
    (objs a).prev_to = prev ∧ (objs a).next_to = headOr l nxt ∧ Seg objs (some a) l nxt

/-- The queue of the counter is the valid doubly linked list `q`:
`first_to` is its head (`NULL` when empty), `first_to->prev_to` is `NULL`, the
last member has `next_to == NULL`, the links are symmetric and no object
occurs twice. -/
structure IsQueue (s : Kernel) (q : List Nat) : Prop where
  first : s.counter.first_to = headOr q none
  links : Seg s.objs none q none
  nodup : q.Nodup

/-- The cursor `counter->next_to` is `NULL` when the queue `q` is empty and a
member of `q` otherwise. -/
def CursorOK (s : Kernel) (q : List Nat) : Prop :=
  match s.counter.next_to with
  | none => q = []
  | some n => n ∈ q

/-- Walk from `p` via the `next_to` links until `NULL`. -/
def walk (objs : Nat → tpl_time_obj) : Nat → Option Nat → Option (List Nat)
  | 0, _ => none
  | _ + 1, none => some []
  | fuel + 1, some a => (walk objs fuel (objs a).next_to).map (fun l => a :: l)

/-- List view of the splice of `tpl_insert_time_obj`: `t` goes after every
leading object whose date is at most `d`, before the first one with a greater
date. -/
def insertByDate (objs : Nat → tpl_time_obj) (t d : Nat) : List Nat → List Nat
  | [] => [t]
  | a :: l => if (objs a).date ≤ d then a :: insertByDate objs t d l else t :: a :: l

/-- Number of members of `q` whose date is `date`. -/
def dueCount (objs : Nat → tpl_time_obj) (date : Nat) (q : List Nat) : Nat :=
  q.countP (fun a => decide ((objs a).date = date))

/-- Well-formed counter state with queue `q`: the queue is a valid doubly
linked list, the cursor is a member (or `NULL` when the queue is empty), every
member is ACTIVE and has a cycle of type `tpl_tick`. -/
structure WF (cfg : Config) (s : Kernel) (q : List Nat) : Prop where
  queue : IsQueue s q
  cursor : CursorOK s q
  active : ∀ x ∈ q, (s.objs x).state = ALARM_ACTIVE
  cycles : ∀ x ∈ q, (s.objs x).cycle < 2 ^ cfg.width

/-- The cursor rule in the words of the specification (section 4.1): the
inserted object, of date `td`, becomes `next_to` when either the date `nd` of
the current `next_to` is below `current_date` and `td` is above `current_date`
or below `nd`, or `nd` is not below `current_date` and `td` lies strictly
between `current_date` and `nd`. -/
def specCursorMoves (current_date nd td : Nat) : Prop :=
  (nd < current_date ∧ (td > current_date ∨ td < nd)) ∨
  (nd ≥ current_date ∧ current_date < td ∧ td < nd)

/-- One iteration of the expiry loop on the cursor `t` of the queue
`pre ++ t :: post`, leading from `s` to `s1` with queue `q1`: `t` is removed
and, when its cycle is not 0, re-dated and inserted again. -/
structure IterStep (cfg : Config) (s : Kernel) (pre : List Nat) (t : Nat) (post : List Nat)
    (s1 : Kernel) (q1 : List Nat) : Prop where
  queue : IsQueue s1 q1
  cursor : CursorOK s1 q1
  shape :
    ((s.objs t).cycle = 0 ∧ q1 = pre ++ post ∧ (s1.objs t).state = ALARM_SLEEP ∧
      (s1.objs t).date = (s.objs t).date ∧
      s1.counter.next_to = headOr post (headOr pre none)) ∨
    ((s.objs t).cycle ≠ 0 ∧ q1 = insertByDate s.objs t (s1.objs t).date (pre ++ post) ∧
      (s1.objs t).state = ALARM_ACTIVE ∧
      (s1.objs t).date = ((s.objs t).date + (s.objs t).cycle) % 2 ^ cfg.width ∧
      (s1.objs t).date ≠ (s.objs t).date ∧
      s1.counter.next_to =
        if pre ++ post = [] then some t
        else (headOr post (headOr pre none)).map (fun n =>
          insertCursor s.counter.current_date (s.objs n).date (s1.objs t).date n t))
  others : ∀ i, i ≠ t →
    (s1.objs i).date = (s.objs i).date ∧ (s1.objs i).state = (s.objs i).state
  cycles : ∀ i, (s1.objs i).cycle = (s.objs i).cycle
  frame : ∀ i, i ∉ pre ++ t :: post → s1.objs i = s.objs i
  tick : s1.counter.current_tick = s.counter.current_tick
  base : s1.counter.ticks_per_base = s.counter.ticks_per_base
  date : s1.counter.current_date = s.counter.current_date

/-- The walk `q` has non-decreasing dates. -/
def DateSorted (objs : Nat → tpl_time_obj) (q : List Nat) : Prop :=
  q.Pairwise (fun a b => (objs a).date ≤ (objs b).date)

/-- Effect of the expiry loop for the date `D`, started on the heap `objs`
with queue `q`, ending in the result `r` with queue `q1`. -/
structure TickPost (cfg : Config) (D : Nat) (objs : Nat → tpl_time_obj) (q : List Nat)
    (r : TickResult) (q1 : List Nat) : Prop where
  queue : IsQueue r.kernel q1
  cursor : CursorOK r.kernel q1
  fired_nodup : r.fired.Nodup
  fired_due : ∀ x ∈ r.fired, x ∈ q ∧ (objs x).date = D
  keep : ∀ i, i ∉ r.fired →
    (r.kernel.objs i).date = (objs i).date ∧ (r.kernel.objs i).state = (objs i).state
  cycle : ∀ i, (r.kernel.objs i).cycle = (objs i).cycle
  oneshot : ∀ x ∈ r.fired, (objs x).cycle = 0 →
    (r.kernel.objs x).state = ALARM_SLEEP ∧ (r.kernel.objs x).date = D ∧ x ∉ q1
  cyclic : ∀ x ∈ r.fired, (objs x).cycle ≠ 0 →
    (r.kernel.objs x).state = ALARM_ACTIVE ∧
    (r.kernel.objs x).date = (D + (objs x).cycle) % 2 ^ cfg.width ∧ x ∈ q1
  members : ∀ x, x ∈ q1 ↔ x ∈ q ∧ ¬ (x ∈ r.fired ∧ (objs x).cycle = 0)
  order : q1.filter (fun x => decide (x ∉ r.fired)) = q.filter (fun x => decide (x ∉ r.fired))
  sorted : DateSorted objs q → DateSorted r.kernel.objs q1
  fifo : DateSorted objs q → ∀ x ∈ r.fired, (objs x).cycle ≠ 0 → ∀ y ∈ q1, y ∉ r.fired →
    (r.kernel.objs y).date ≤ (r.kernel.objs x).date → List.Sublist [y, x] q1
  frame : ∀ i, i ∉ q → r.kernel.objs i = objs i

/-- First member of `q`, in list order, that satisfies `p`; the head of `q`
when no member satisfies `p`; `NULL` when `q` is empty. -/
def firstWith (p : Nat → Bool) (q : List Nat) : Option Nat :=
  match q.find? p with
  | some a => some a
  | none => headOr q none

/-- The cursor in the words of the specification: the first member of `q` in
list order with `date > current_date`, or `first_to` (the head of `q`) if no
member has `date > current_date`. -/
def firstAfter (objs : Nat → tpl_time_obj) (current_date : Nat) (q : List Nat) : Option Nat :=
  firstWith (fun a => decide (current_date < (objs a).date)) q

/-- Well-formed counter state with queue `q` in which no member is dated at
`current_date`: the dates along `q` are non-decreasing and of type `tpl_tick`,
none equals `current_date`, and `next_to` is the first member with
`date > current_date`, or `first_to` if there is none. -/
structure OffDate (cfg : Config) (s : Kernel) (q : List Nat) : Prop where
  wf : WF cfg s q
  sorted : DateSorted s.objs q
  now : s.counter.current_date < 2 ^ cfg.width
  dates : ∀ x ∈ q, (s.objs x).date < 2 ^ cfg.width
  off : ∀ x ∈ q, (s.objs x).date ≠ s.counter.current_date
  cursor : s.counter.next_to = firstAfter s.objs s.counter.current_date q

/-! ## Callers and reachable states -/

/-- Caller side of an insertion (the alarm-set services): the caller writes the
date and the cycle of the object, then calls `tpl_insert_time_obj`. -/
def activate (fuel : Nat) (s : Kernel) (t date cycle : Nat) : Option Kernel :=
  tpl_insert_time_obj fuel { s with objs := set_cycle (set_date s.objs t date) t cycle } t

/-- Counter states reachable from an empty queue by `tpl_insert_time_obj` of a
SLEEP object (with any date and cycle of type `tpl_tick`), by
`tpl_remove_time_obj` of a queue member, and by `tpl_counter_tick`. -/
inductive Reachable (cfg : Config) : Kernel → Prop
  | init (s : Kernel) : s.counter.first_to = none → s.counter.next_to = none → Reachable cfg s
  | insert (s s1 : Kernel) (t date cycle fuel : Nat) : Reachable cfg s →
      (s.objs t).state = ALARM_SLEEP → date < 2 ^ cfg.width → cycle < 2 ^ cfg.width →
      activate fuel s t date cycle = some s1 → Reachable cfg s1
  | remove (s : Kernel) (t fuel : Nat) (q : List Nat) : Reachable cfg s →
      walk s.objs fuel s.counter.first_to = some q → t ∈ q →
      Reachable cfg (tpl_remove_time_obj s t)
  | tick (s : Kernel) (r : TickResult) (fuel : Nat) : Reachable cfg s →
      tpl_counter_tick cfg fuel s = some r → Reachable cfg r.kernel

/-- Successive `tpl_insert_time_obj` calls on the objects of `ts`, in order. -/
def insertAll (fuel : Nat) : Kernel → List Nat → Option Kernel
  | s, [] => some s
  | s, t :: ts => (tpl_insert_time_obj fuel s t).bind (fun s1 => insertAll fuel s1 ts)

/-- Number of date units before an object of date `d` comes due, seen from
`current_date = cur`: `(d - cur - 1) mod 2 ^ w`. -/
def dueIn (w cur d : Nat) : Int :=
  ((d : Int) - (cur : Int) - 1) % (2 ^ w : Int)

/-- Successive `tpl_counter_tick` calls: the state after `n` calls, with the
`expire` calls of all of them in order. -/
def tickN (cfg : Config) (fuel : Nat) : Nat → Kernel → Option (Kernel × List Nat)
  | 0, s => some (s, [])
  | n + 1, s =>
    (tickN cfg fuel n s).bind (fun p =>
      (tpl_counter_tick cfg fuel p.1).map (fun r => (r.kernel, p.2 ++ r.fired)))

/-- The state `s` with `counter->current_tick` set to `i` and nothing else
changed. -/
def withTick (s : Kernel) (i : Nat) : Kernel :=
  { s with counter := { s.counter with current_tick := i } }

/-- The state `s` with `counter->current_date` set to `k`,
`counter->current_tick` set to `m`, and nothing else changed. -/
def withClock (s : Kernel) (k m : Nat) : Kernel :=
  { s with counter := { s.counter with current_tick := m, current_date := k } }

/-- Counter states reachable as `Reachable`, from a counter with an empty
queue all of whose objects are in state SLEEP. -/
inductive ReachableAsleep (cfg : Config) : Kernel → Prop
  | init (s : Kernel) : s.counter.first_to = none → s.counter.next_to = none →
      (∀ i, (s.objs i).state = ALARM_SLEEP) → ReachableAsleep cfg s
  | insert (s s1 : Kernel) (t date cycle fuel : Nat) : ReachableAsleep cfg s →
      (s.objs t).state = ALARM_SLEEP → date < 2 ^ cfg.width → cycle < 2 ^ cfg.width →
      activate fuel s t date cycle = some s1 → ReachableAsleep cfg s1
  | remove (s : Kernel) (t fuel : Nat) (q : List Nat) : ReachableAsleep cfg s →
      walk s.objs fuel s.counter.first_to = some q → t ∈ q →
      ReachableAsleep cfg (tpl_remove_time_obj s t)
  | tick (s : Kernel) (r : TickResult) (fuel : Nat) : ReachableAsleep cfg s →
      tpl_counter_tick cfg fuel s = some r → ReachableAsleep cfg r.kernel

/-- Counter states reachable from an empty queue (with `current_date` of type
`tpl_tick`) by `tpl_insert_time_obj` of a SLEEP object whose date differs from
`counter->current_date` at the time of the call, by `tpl_remove_time_obj` of a
queue member, and by `tpl_counter_tick`. -/
inductive ReachableOffDate (cfg : Config) : Kernel → Prop
  | init (s : Kernel) : s.counter.first_to = none → s.counter.next_to = none →
      s.counter.current_date < 2 ^ cfg.width → ReachableOffDate cfg s
  | insert (s s1 : Kernel) (t date cycle fuel : Nat) : ReachableOffDate cfg s →
      (s.objs t).state = ALARM_SLEEP → date ≠ s.counter.current_date →
      date < 2 ^ cfg.width → cycle < 2 ^ cfg.width →
      activate fuel s t date cycle = some s1 → ReachableOffDate cfg s1
  | remove (s : Kernel) (t fuel : Nat) (q : List Nat) : ReachableOffDate cfg s →
      walk s.objs fuel s.counter.first_to = some q → t ∈ q →
      ReachableOffDate cfg (tpl_remove_time_obj s t)
  | tick (s : Kernel) (r : TickResult) (fuel : Nat) : ReachableOffDate cfg s →
      tpl_counter_tick cfg fuel s = some r → ReachableOffDate cfg r.kernel

/-! ## Concrete scenarios -/

/-- Configuration of the scenarios: 8-bit ticks, `NO_SPECIAL_CODE = 0`, status
mask `0x60`, and an `expire` hook that returns `E_OK`. -/
def cfg8 : Config := ⟨8, 0, 96, fun _ => 0⟩

/-- A counter with an empty queue, `ticks_per_base = 1`,
`current_tick = 0` and `current_date = D`; every object is SLEEP with date 0,
cycle 0 and `NULL` links. -/
def emptyAt (D : Nat) : Kernel :=
  ⟨⟨0, 1, D, none, none⟩, fun _ => ⟨0, 0, ALARM_SLEEP, none, none⟩⟩

/-- Scenario of the stuck cursor: at `current_date = 5`, object 0 is inserted
with date 5 and then object 1 with date 6. -/
def stuckCursor : Option Kernel :=
  (activate 8 (emptyAt 5) 0 5 0).bind (fun s => activate 8 s 1 6 0)

/-- A counter with an empty queue at `current_date = 0` whose objects
`0, 1, 2, ...` carry the dates `3, 0, 2, 4, 1, 3, ...` (`(7 i + 3) mod 5`). -/
def mixedDates : Kernel :=
  ⟨⟨0, 1, 0, none, none⟩, fun i => ⟨(7 * i + 3) % 5, 0, ALARM_SLEEP, none, none⟩⟩

/-- A counter at `current_date = 5` (`ticks_per_base = 1`, `current_tick = 0`)
whose queue is the valid list `[2, 1]` (dates 3 and 7), while `next_to` points
to object 0, which is not linked: it is SLEEP, has date 6 and still holds the
link `next_to = 1` of an earlier stay in the queue. -/
def staleCursor : Kernel :=
  ⟨⟨0, 1, 5, some 2, some 0⟩, fun i =>
    if i = 2 then ⟨3, 0, ALARM_ACTIVE, none, some 1⟩
    else if i = 1 then ⟨7, 0, ALARM_ACTIVE, some 2, none⟩
    else ⟨6, 0, ALARM_SLEEP, none, some 1⟩⟩

/-- A counter at `current_date = 5` (`ticks_per_base = 1`, `current_tick = 0`)
whose queue is the valid list `[0, 1]`, both objects with date 6, object 0
one-shot and object 1 of cycle 4; `next_to` is object 0. -/
def twoQueue : Kernel :=
  ⟨⟨0, 1, 5, some 0, some 0⟩, fun i =>
    if i = 0 then ⟨6, 0, ALARM_ACTIVE, none, some 1⟩
    else if i = 1 then ⟨6, 4, ALARM_ACTIVE, some 0, none⟩
    else ⟨0, 0, ALARM_SLEEP, none, none⟩⟩

/-- The state of the stuck-cursor scenario (queue `[0, 1]`, `next_to` on
object 0). -/
def stuckState : Kernel := stuckCursor.getD (emptyAt 5)

/-- Round-trip scenario, step 1: at `current_date = 5`, object 0 is inserted
with date 5. -/
def tripA : Kernel := (activate 8 (emptyAt 5) 0 5 0).getD (emptyAt 5)

/-- Round-trip scenario, step 2: object 1 is inserted with date 8. -/
def tripB : Kernel := (activate 8 tripA 1 8 0).getD tripA

/-- Round-trip scenario, step 3: one `tpl_counter_tick` (to `current_date = 6`). -/
def tripTick : TickResult := (tpl_counter_tick cfg8 8 tripB).getD ⟨tripB, 0, []⟩

/-- Round-trip scenario: the state before the insertion of object 2. -/
def tripC : Kernel := tripTick.kernel

/-- Round-trip scenario: the state after the insertion of object 2 with date 7. -/
def tripD : Kernel := (activate 8 tripC 2 7 0).getD tripC

/-- Stale-link scenario, step 1: at `current_date = 5`, object 0 is inserted
with date 1. -/
def staleA : Kernel := (activate 8 (emptyAt 5) 0 1 0).getD (emptyAt 5)

/-- Stale-link scenario, step 2: object 1 is inserted with date 2 (queue
`[0, 1]`). -/
def staleB : Kernel := (activate 8 staleA 1 2 0).getD staleA

/-- Stale-link scenario, step 3: object 0 is removed (queue `[1]`); its field
`next_to` still points to object 1. -/
def staleC : Kernel := tpl_remove_time_obj staleB 0

/-- Stale-link scenario, step 4: object 2 is inserted with date 1 (queue
`[2, 1]`). -/
def staleD : Kernel := (activate 8 staleC 2 1 0).getD staleC

/-- A counter with an empty queue at `current_date = 5` (`ticks_per_base = 1`,
`current_tick = 0`) whose objects all have date 6; object 1 has cycle 4,
object 2 has cycle 253 (its next date wraps to 3), the others are one-shot. -/
def sameDate : Kernel :=
  ⟨⟨0, 1, 5, none, none⟩, fun i =>
    ⟨6, if i = 1 then 4 else if i = 2 then 253 else 0, ALARM_SLEEP, none, none⟩⟩

/-- A counter with an empty queue at `current_date = 5` (`ticks_per_base = 1`,
`current_tick = 0`) whose objects all have date 6 and cycle 4. -/
def twins : Kernel :=
  ⟨⟨0, 1, 5, none, none⟩, fun _ => ⟨6, 4, ALARM_SLEEP, none, none⟩⟩

/-- Twin scenario: objects 0 and 1 of `twins` inserted in this order (queue
`[0, 1]`, both of date 6 and cycle 4). -/
def twinState : Kernel := (insertAll 3 twins [0, 1]).getD twins

/-- Twin scenario: the result of the tick that rolls `current_date` to 6. -/
def twinTick : TickResult := (tpl_counter_tick cfg8 3 twinState).getD ⟨twinState, 0, []⟩

/-- A counter with an empty queue, `ticks_per_base = 4`, `current_tick = 0`
and `current_date = 0`; every object is SLEEP with `NULL` links. -/
def quadBase : Kernel :=
  ⟨⟨0, 4, 0, none, none⟩, fun _ => ⟨0, 0, ALARM_SLEEP, none, none⟩⟩

/-- Configuration with an `expire` hook whose status depends on the object:
object `i` returns `33 + 32 * i` (8-bit ticks, `NO_SPECIAL_CODE = 0`, status
mask `0x60`). -/
def cfgStatus : Config := ⟨8, 0, 96, fun i => 33 + 32 * i⟩

/-- A counter at `current_date = 5` (`ticks_per_base = 1`, `current_tick = 0`)
whose queue is the valid list `[0, 1]` with dates 6 and 9; object 0 has cycle
253 (its next date, `6 + 253`, wraps to 3), object 1 is one-shot; `next_to` is
object 0. -/
def wrapQueue : Kernel :=
  ⟨⟨0, 1, 5, some 0, some 0⟩, fun i =>
    if i = 0 then ⟨6, 253, ALARM_ACTIVE, none, some 1⟩
    else if i = 1 then ⟨9, 0, ALARM_ACTIVE, some 0, none⟩
    else ⟨0, 0, ALARM_SLEEP, none, none⟩⟩

/-- Due-pair scenario, step 1: at `current_date = 5`, object 0 is inserted
with date 6 (one-shot). -/
def dueA : Kernel := (activate 8 (emptyAt 5) 0 6 0).getD (emptyAt 5)

/-- Due-pair scenario, step 2: object 1 is inserted with date 6 and cycle 4
(queue `[0, 1]`). -/
def dueB : Kernel := (activate 8 dueA 1 6 4).getD dueA

/-! ## Reading a field after a heap write -/

@[simp] theorem set_next_to_next_to (objs : Nat → tpl_time_obj) (o : Nat) (v : Option Nat) (j : Nat) :
    (set_next_to objs o v j).next_to = if j = o then v else (objs j).next_to := by
  unfold set_next_to; split <;> rfl

@[simp] theorem set_next_to_prev_to (objs : Nat → tpl_time_obj) (o : Nat) (v : Option Nat) (j : Nat) :
    (set_next_to objs o v j).prev_to = (objs j).prev_to := by
  unfold set_next_to; split <;> rfl

@[simp] theorem set_next_to_state (objs : Nat → tpl_time_obj) (o : Nat) (v : Option Nat) (j : Nat) :
    (set_next_to objs o v j).state = (objs j).state := by
  unfold set_next_to; split <;> rfl

@[simp] theorem set_next_to_date (objs : Nat → tpl_time_obj) (o : Nat) (v : Option Nat) (j : Nat) :
    (set_next_to objs o v j).date = (objs j).date := by
  unfold set_next_to; split <;> rfl

@[simp] theorem set_next_to_cycle (objs : Nat → tpl_time_obj) (o : Nat) (v : Option Nat) (j : Nat) :
    (set_next_to objs o v j).cycle = (objs j).cycle := by
  unfold set_next_to; split <;> rfl

theorem set_next_to_other (objs : Nat → tpl_time_obj) (o : Nat) (v : Option Nat) (j : Nat) (h : j ≠ o) :
    set_next_to objs o v j = objs j := by
  unfold set_next_to; rw [if_neg h]

@[simp] theorem set_prev_to_next_to (objs : Nat → tpl_time_obj) (o : Nat) (v : Option Nat) (j : Nat) :
    (set_prev_to objs o v j).next_to = (objs j).next_to := by
  unfold set_prev_to; split <;> rfl

@[simp] theorem set_prev_to_prev_to (objs : Nat → tpl_time_obj) (o : Nat) (v : Option Nat) (j : Nat) :
    (set_prev_to objs o v j).prev_to = if j = o then v else (objs j).prev_to := by
  unfold set_prev_to; split <;> rfl

@[simp] theorem set_prev_to_state (objs : Nat → tpl_time_obj) (o : Nat) (v : Option Nat) (j : Nat) :
    (set_prev_to objs o v j).state = (objs j).state := by
  unfold set_prev_to; split <;> rfl

@[simp] theorem set_prev_to_date (objs : Nat → tpl_time_obj) (o : Nat) (v : Option Nat) (j : Nat) :
    (set_prev_to objs o v j).date = (objs j).date := by
  unfold set_prev_to; split <;> rfl

@[simp] theorem set_prev_to_cycle (objs : Nat → tpl_time_obj) (o : Nat) (v : Option Nat) (j : Nat) :
    (set_prev_to objs o v j).cycle = (objs j).cycle := by
  unfold set_prev_to; split <;> rfl

theorem set_prev_to_other (objs : Nat → tpl_time_obj) (o : Nat) (v : Option Nat) (j : Nat) (h : j ≠ o) :
    set_prev_to objs o v j = objs j := by
  unfold set_prev_to; rw [if_neg h]

@[simp] theorem set_state_next_to (objs : Nat → tpl_time_obj) (o : Nat) (v : Nat) (j : Nat) :
    (set_state objs o v j).next_to = (objs j).next_to := by
  unfold set_state; split <;> rfl

@[simp] theorem set_state_prev_to (objs : Nat → tpl_time_obj) (o : Nat) (v : Nat) (j : Nat) :
    (set_state objs o v j).prev_to = (objs j).prev_to := by
  unfold set_state; split <;> rfl

@[simp] theorem set_state_state (objs : Nat → tpl_time_obj) (o : Nat) (v : Nat) (j : Nat) :
    (set_state objs o v j).state = if j = o then v else (objs j).state := by
  unfold set_state; split <;> rfl

@[simp] theorem set_state_date (objs : Nat → tpl_time_obj) (o : Nat) (v : Nat) (j : Nat) :
    (set_state objs o v j).date = (objs j).date := by
  unfold set_state; split <;> rfl

@[simp] theorem set_state_cycle (objs : Nat → tpl_time_obj) (o : Nat) (v : Nat) (j : Nat) :
    (set_state objs o v j).cycle = (objs j).cycle := by
  unfold set_state; split <;> rfl

theorem set_state_other (objs : Nat → tpl_time_obj) (o : Nat) (v : Nat) (j : Nat) (h : j ≠ o) :
    set_state objs o v j = objs j := by
  unfold set_state; rw [if_neg h]

@[simp] theorem set_date_next_to (objs : Nat → tpl_time_obj) (o : Nat) (v : Nat) (j : Nat) :
    (set_date objs o v j).next_to = (objs j).next_to := by
  unfold set_date; split <;> rfl

@[simp] theorem set_date_prev_to (objs : Nat → tpl_time_obj) (o : Nat) (v : Nat) (j : Nat) :
    (set_date objs o v j).prev_to = (objs j).prev_to := by
  unfold set_date; split <;> rfl

@[simp] theorem set_date_state (objs : Nat → tpl_time_obj) (o : Nat) (v : Nat) (j : Nat) :
    (set_date objs o v j).state = (objs j).state := by
  unfold set_date; split <;> rfl

@[simp] theorem set_date_date (objs : Nat → tpl_time_obj) (o : Nat) (v : Nat) (j : Nat) :
    (set_date objs o v j).date = if j = o then v else (objs j).date := by
  unfold set_date; split <;> rfl

@[simp] theorem set_date_cycle (objs : Nat → tpl_time_obj) (o : Nat) (v : Nat) (j : Nat) :
    (set_date objs o v j).cycle = (objs j).cycle := by
  unfold set_date; split <;> rfl

theorem set_date_other (objs : Nat → tpl_time_obj) (o : Nat) (v : Nat) (j : Nat) (h : j ≠ o) :
    set_date objs o v j = objs j := by
  unfold set_date; rw [if_neg h]

@[simp] theorem set_cycle_next_to (objs : Nat → tpl_time_obj) (o : Nat) (v : Nat) (j : Nat) :
    (set_cycle objs o v j).next_to = (objs j).next_to := by
  unfold set_cycle; split <;> rfl

@[simp] theorem set_cycle_prev_to (objs : Nat → tpl_time_obj) (o : Nat) (v : Nat) (j : Nat) :
    (set_cycle objs o v j).prev_to = (objs j).prev_to := by
  unfold set_cycle; split <;> rfl

@[simp] theorem set_cycle_state (objs : Nat → tpl_time_obj) (o : Nat) (v : Nat) (j : Nat) :
    (set_cycle objs o v j).state = (objs j).state := by
  unfold set_cycle; split <;> rfl

@[simp] theorem set_cycle_date (objs : Nat → tpl_time_obj) (o : Nat) (v : Nat) (j : Nat) :
    (set_cycle objs o v j).date = (objs j).date := by
  unfold set_cycle; split <;> rfl

@[simp] theorem set_cycle_cycle (objs : Nat → tpl_time_obj) (o : Nat) (v : Nat) (j : Nat) :
    (set_cycle objs o v j).cycle = if j = o then v else (objs j).cycle := by
  unfold set_cycle; split <;> rfl

theorem set_cycle_other (objs : Nat → tpl_time_obj) (o : Nat) (v : Nat) (j : Nat) (h : j ≠ o) :
    set_cycle objs o v j = objs j := by
  unfold set_cycle; rw [if_neg h]


/-! ## Lists and segments -/

theorem headOr_append (l1 l2 : List Nat) (d : Option Nat) :
    headOr (l1 ++ l2) d = headOr l1 (headOr l2 d) := by
  cases l1 <;> rfl

theorem lastOr_append (l1 l2 : List Nat) (d : Option Nat) :
    lastOr (l1 ++ l2) d = lastOr l2 (lastOr l1 d) := by
  induction l1 generalizing d with
  | nil => rfl
  | cons a l ih => simp [lastOr, ih]

theorem headOr_mem {l : List Nat} {d : Option Nat} {c : Nat} (hd : ∀ x, d = some x → x ∈ l)
    (h : headOr l d = some c) : c ∈ l := by
  cases l with
  | nil => exact hd c h
  | cons a l => simp [headOr] at h; simp [h]

theorem lastOr_mem {l : List Nat} {d : Option Nat} {c : Nat} (hd : ∀ x, d = some x → x ∈ l)
    (h : lastOr l d = some c) : c ∈ l := by
  induction l generalizing d with
  | nil => exact hd c h
  | cons a l ih =>
    simp only [lastOr] at h
    by_cases hc : c ∈ l
    · exact List.mem_cons_of_mem _ hc
    · cases l with
      | nil => simp [lastOr] at h; simp [h]
      | cons b l => exact absurd (ih (d := some a) (fun x hx => by
          simp only [lastOr] at h
          exact absurd (ih (d := some b) (fun _ _ => by simp_all) (by simpa [lastOr] using h)) hc) h) hc

theorem seg_cons (objs : Nat → tpl_time_obj) (a : Nat) (l : List Nat) (prev nxt : Option Nat) :
    Seg objs prev (a :: l) nxt ↔
      (objs a).prev_to = prev ∧ (objs a).next_to = headOr l nxt ∧ Seg objs (some a) l nxt :=
  Iff.rfl

theorem seg_append (objs : Nat → tpl_time_obj) (l1 l2 : List Nat) (prev nxt : Option Nat) :
    Seg objs prev (l1 ++ l2) nxt ↔
      Seg objs prev l1 (headOr l2 nxt) ∧ Seg objs (lastOr l1 prev) l2 nxt := by
  induction l1 generalizing prev with
  | nil => simp [Seg, lastOr, headOr]
  | cons a l ih =>
    rw [List.cons_append, seg_cons, seg_cons, ih, headOr_append]
    simp only [lastOr]
    tauto

theorem seg_frame {objs objs1 : Nat → tpl_time_obj} {l : List Nat} {prev nxt : Option Nat}
    (h : ∀ a ∈ l, (objs1 a).prev_to = (objs a).prev_to ∧ (objs1 a).next_to = (objs a).next_to)
    (hs : Seg objs prev l nxt) : Seg objs1 prev l nxt := by
  induction l generalizing prev with
  | nil => trivial
  | cons a l ih =>
    obtain ⟨h1, h2, h3⟩ := hs
    have ha := h a (List.mem_cons_self _ _)
    exact ⟨ha.1.trans h1, ha.2.trans h2, ih (fun b hb => h b (List.mem_cons_of_mem _ hb)) h3⟩

theorem seg_set_head {objs : Nat → tpl_time_obj} {c : Nat} {l : List Nat} {prev nxt : Option Nat}
    (v : Option Nat) (hs : Seg objs prev (c :: l) nxt) (hc : c ∉ l) :
    Seg (set_prev_to objs c v) v (c :: l) nxt := by
  obtain ⟨_, h2, h3⟩ := hs
  refine ⟨by simp, by simpa using h2, seg_frame (fun a ha => ?_) h3⟩
  have : a ≠ c := fun h => hc (h ▸ ha)
  simp [this]

theorem seg_set_last {objs : Nat → tpl_time_obj} {p : Nat} {l : List Nat} {prev nxt : Option Nat}
    (v : Option Nat) (hs : Seg objs prev (l ++ [p]) nxt) (hp : p ∉ l) :
    Seg (set_next_to objs p v) prev (l ++ [p]) v := by
  rw [seg_append] at hs ⊢
  obtain ⟨h1, h2, _, _⟩ := hs
  refine ⟨seg_frame (fun a ha => ?_) h1, by simpa using h2, by simp [headOr], trivial⟩
  have : a ≠ p := fun h => hp (h ▸ ha)
  simp [this]

theorem seg_link_head {objs : Nat → tpl_time_obj} {l : List Nat} {prev nxt : Option Nat}
    (v : Option Nat) (hs : Seg objs prev l nxt) (hn : l.Nodup) :
    Seg (link_prev objs (headOr l none) v) v l nxt := by
  cases l with
  | nil => trivial
  | cons c l => exact seg_set_head v hs (List.nodup_cons.1 hn).1

theorem seg_link_last {objs : Nat → tpl_time_obj} {l : List Nat} {prev nxt : Option Nat}
    (v : Option Nat) (hs : Seg objs prev l nxt) (hn : l.Nodup) :
    Seg (link_next objs (lastOr l none) v) prev l v := by
  rcases List.eq_nil_or_concat l with rfl | ⟨l1, p, rfl⟩
  · trivial
  · rw [List.concat_eq_append] at hs hn ⊢
    have hp : p ∉ l1 := by
      intro h
      have := List.nodup_append.1 hn
      exact this.2.2 h (List.mem_singleton_self p)
    have : lastOr (l1 ++ [p]) none = some p := by simp [lastOr_append, lastOr]
    rw [this]
    exact seg_set_last v hs hp

theorem link_prev_other (objs : Nat → tpl_time_obj) (l : List Nat) (v : Option Nat) (a : Nat)
    (ha : a ∉ l) : link_prev objs (headOr l none) v a = objs a := by
  cases l with
  | nil => rfl
  | cons c l =>
    have : a ≠ c := fun h => ha (h ▸ List.mem_cons_self _ _)
    simp [headOr, link_prev, set_prev_to_other _ _ _ _ this]

theorem link_next_other (objs : Nat → tpl_time_obj) (l : List Nat) (v : Option Nat) (a : Nat)
    (ha : a ∉ l) : link_next objs (lastOr l none) v a = objs a := by
  rcases h : lastOr l none with _ | p
  · rfl
  · have hp : p ∈ l := lastOr_mem (fun x hx => by simp at hx) h
    have : a ≠ p := fun h => ha (h ▸ hp)
    simp [link_next, set_next_to_other _ _ _ _ this]

@[simp] theorem link_prev_next_to (objs : Nat → tpl_time_obj) (c v : Option Nat) (a : Nat) :
    (link_prev objs c v a).next_to = (objs a).next_to := by
  cases c <;> simp [link_prev]

@[simp] theorem link_prev_date (objs : Nat → tpl_time_obj) (c v : Option Nat) (a : Nat) :
    (link_prev objs c v a).date = (objs a).date := by
  cases c <;> simp [link_prev]

@[simp] theorem link_prev_cycle (objs : Nat → tpl_time_obj) (c v : Option Nat) (a : Nat) :
    (link_prev objs c v a).cycle = (objs a).cycle := by
  cases c <;> simp [link_prev]

@[simp] theorem link_prev_state (objs : Nat → tpl_time_obj) (c v : Option Nat) (a : Nat) :
    (link_prev objs c v a).state = (objs a).state := by
  cases c <;> simp [link_prev]

@[simp] theorem link_next_prev_to (objs : Nat → tpl_time_obj) (c v : Option Nat) (a : Nat) :
    (link_next objs c v a).prev_to = (objs a).prev_to := by
  cases c <;> simp [link_next]

@[simp] theorem link_next_date (objs : Nat → tpl_time_obj) (c v : Option Nat) (a : Nat) :
    (link_next objs c v a).date = (objs a).date := by
  cases c <;> simp [link_next]

@[simp] theorem link_next_cycle (objs : Nat → tpl_time_obj) (c v : Option Nat) (a : Nat) :
    (link_next objs c v a).cycle = (objs a).cycle := by
  cases c <;> simp [link_next]

@[simp] theorem link_next_state (objs : Nat → tpl_time_obj) (c v : Option Nat) (a : Nat) :
    (link_next objs c v a).state = (objs a).state := by
  cases c <;> simp [link_next]

/-! ## The scan of tpl_insert_time_obj -/

theorem insertScan_seg (objs : Nat → tpl_time_obj) (d : Nat) (l : List Nat) (prev : Option Nat)
    (fuel : Nat) (hs : Seg objs prev l none) (hf : l.length < fuel) :
    insertScan objs d fuel (headOr l none) prev =
      some (headOr (l.dropWhile (fun a => decide ((objs a).date ≤ d))) none,
            lastOr (l.takeWhile (fun a => decide ((objs a).date ≤ d))) prev) := by
  induction l generalizing prev fuel with
  | nil =>
    cases fuel with
    | zero => simp at hf
    | succ f => rfl
  | cons a l ih =>
    cases fuel with
    | zero => simp at hf
    | succ f =>
      obtain ⟨_, h2, h3⟩ := hs
      simp only [headOr, insertScan]
      by_cases hd : (objs a).date ≤ d
      · simp only [hd, if_true, List.dropWhile_cons, List.takeWhile_cons, decide_True, lastOr]
        rw [h2]
        exact ih (some a) f h3 (by simpa using hf)
      · simp [hd, List.dropWhile_cons, List.takeWhile_cons, lastOr, headOr]

theorem insertByDate_eq (objs : Nat → tpl_time_obj) (t d : Nat) (l : List Nat) :
    insertByDate objs t d l =
      l.takeWhile (fun a => decide ((objs a).date ≤ d)) ++
        t :: l.dropWhile (fun a => decide ((objs a).date ≤ d)) := by
  induction l with
  | nil => rfl
  | cons a l ih =>
    by_cases hd : (objs a).date ≤ d
    · simp [insertByDate, hd, ih, List.takeWhile_cons, List.dropWhile_cons]
    · simp [insertByDate, hd, List.takeWhile_cons, List.dropWhile_cons]

/-! ## Refinement: tpl_insert_time_obj inserts in the list -/

theorem insert_spec {s : Kernel} {q : List Nat} {t fuel : Nat} (hq : IsQueue s q) (ht : t ∉ q)
    (hf : q.length < fuel) (hc : q ≠ [] → ∃ n, s.counter.next_to = some n) :
    ∃ s1, tpl_insert_time_obj fuel s t = some s1 ∧
      IsQueue s1 (insertByDate s.objs t (s.objs t).date q) ∧
      s1.counter.next_to =
        (if q = [] then some t
         else s.counter.next_to.map (fun n =>
           insertCursor s.counter.current_date (s.objs n).date (s.objs t).date n t)) ∧
      s1.counter.current_tick = s.counter.current_tick ∧
      s1.counter.ticks_per_base = s.counter.ticks_per_base ∧
      s1.counter.current_date = s.counter.current_date ∧
      (∀ i, (s1.objs i).date = (s.objs i).date ∧ (s1.objs i).cycle = (s.objs i).cycle) ∧
      (∀ i, i ≠ t → (s1.objs i).state = (s.objs i).state) ∧
      (s1.objs t).state = (s.objs t).state ||| ALARM_ACTIVE ∧
      (∀ i, i ∉ q → i ≠ t → s1.objs i = s.objs i) := by
  cases q with
  | nil =>
    have h1 : s.counter.first_to = none := hq.first
    simp only [tpl_insert_time_obj, h1]
    refine ⟨_, rfl, ⟨rfl, ?_, by simp [insertByDate]⟩, rfl,
      rfl, rfl, rfl, by intro i; simp, by intro i hi; simp [hi], by simp, ?_⟩
    · simp [insertByDate, Seg, headOr]
    · intro i _ hi
      simp [set_state_other _ _ _ _ hi, set_prev_to_other _ _ _ _ hi, set_next_to_other _ _ _ _ hi]
  | cons a l =>
    have h1 : s.counter.first_to = some a := hq.first
    obtain ⟨n, hn⟩ := hc (by simp)
    have hscan : insertScan s.objs (s.objs t).date fuel (some a) none = _ :=
      insertScan_seg s.objs (s.objs t).date (a :: l) none fuel hq.links hf
    generalize hpre : (a :: l).takeWhile (fun a => decide ((s.objs a).date ≤ (s.objs t).date)) = pre
      at hscan
    generalize hpost : (a :: l).dropWhile (fun a => decide ((s.objs a).date ≤ (s.objs t).date)) = post
      at hscan
    have hqq : a :: l = pre ++ post := by rw [← hpre, ← hpost, List.takeWhile_append_dropWhile]
    have hnd := hq.nodup
    rw [hqq] at hnd ht
    have hlinks := hq.links
    rw [hqq, seg_append] at hlinks
    obtain ⟨hl1, hl2⟩ := hlinks
    have hndpre : pre.Nodup := (List.nodup_append.1 hnd).1
    have hndpost : post.Nodup := (List.nodup_append.1 hnd).2.1
    have hdisj : ∀ x, x ∈ pre → x ∉ post := fun x h1 h2 => (List.nodup_append.1 hnd).2.2 h1 h2
    have htpre : t ∉ pre := fun h => ht (List.mem_append_left _ h)
    have htpost : t ∉ post := fun h => ht (List.mem_append_right _ h)
    simp only [tpl_insert_time_obj, h1, hscan, hn]
    refine ⟨_, rfl, ⟨?_, ?_, ?_⟩, ?_, rfl,
      rfl, rfl, by intro i; simp, by intro i hi; simp [hi], by simp, ?_⟩
    · -- first_to
      rw [insertByDate_eq, hpre, hpost, headOr_append]
      cases pre with
      | nil => simp [lastOr, headOr]
      | cons b pre =>
        have hb : a = b := by simp at hqq; exact hqq.1
        subst hb
        have : ∃ p, lastOr (a :: pre) none = some p := by
          rcases h : lastOr (a :: pre) none with _ | p
          · simp only [lastOr] at h
            rcases List.eq_nil_or_concat pre with rfl | ⟨l1, p, rfl⟩
            · simp [lastOr] at h
            · simp [lastOr_append, lastOr] at h
          · exact ⟨p, rfl⟩
        obtain ⟨p, hp⟩ := this
        simp [hp, h1, headOr]
    · -- links
      rw [insertByDate_eq, hpre, hpost, seg_append, seg_cons]
      have e1 : Seg (set_prev_to (set_next_to s.objs t (headOr post none)) t (lastOr pre none))
          none pre (headOr post none) := by
        refine seg_frame (fun x hx => ?_) hl1
        have hxt : x ≠ t := fun h => htpre (h ▸ hx)
        simp [hxt]
      have e2 : Seg (link_prev (set_prev_to (set_next_to s.objs t (headOr post none)) t
          (lastOr pre none)) (headOr post none) (some t)) none pre (headOr post none) := by
        refine seg_frame (fun x hx => ?_) e1
        rw [link_prev_other _ _ _ _ (hdisj x hx)]
        exact ⟨rfl, rfl⟩
      have e3 := seg_link_last (some t) e2 hndpre
      have f1 : Seg (set_prev_to (set_next_to s.objs t (headOr post none)) t (lastOr pre none))
          (lastOr pre none) post none := by
        refine seg_frame (fun x hx => ?_) hl2
        have hxt : x ≠ t := fun h => htpost (h ▸ hx)
        simp [hxt]
      have f2 := seg_link_head (some t) f1 hndpost
      have f3 : Seg (link_next (link_prev (set_prev_to (set_next_to s.objs t (headOr post none)) t
          (lastOr pre none)) (headOr post none) (some t)) (lastOr pre none) (some t))
          (some t) post none := by
        refine seg_frame (fun x hx => ?_) f2
        have hxp : x ∉ pre := fun h => hdisj x h hx
        rw [link_next_other _ _ _ _ hxp]
        exact ⟨rfl, rfl⟩
      refine ⟨seg_frame (fun x _ => by simp) e3, ?_, ?_, seg_frame (fun x _ => by simp) f3⟩
      · rw [set_state_prev_to, link_next_prev_to, link_prev_other _ _ _ _ htpost]
        simp
      · rw [set_state_next_to, link_next_other _ _ _ _ htpre, link_prev_next_to]
        simp
    · -- nodup
      rw [insertByDate_eq, hpre, hpost]
      have := List.nodup_append.1 hnd
      refine List.nodup_append.2 ⟨hndpre, List.nodup_cons.2 ⟨htpost, hndpost⟩, ?_⟩
      intro x hx1 hx2
      rcases List.mem_cons.1 hx2 with h | h
      · exact htpre (h ▸ hx1)
      · exact hdisj x hx1 h
    · simp [hn]
    · intro i hi hit
      rw [hqq] at hi
      have hi1 : i ∉ pre := fun h => hi (List.mem_append_left _ h)
      have hi2 : i ∉ post := fun h => hi (List.mem_append_right _ h)
      show set_state _ t _ i = s.objs i
      rw [set_state_other _ _ _ _ hit, link_next_other _ _ _ _ hi1, link_prev_other _ _ _ _ hi2,
        set_prev_to_other _ _ _ _ hit, set_next_to_other _ _ _ _ hit]

/-! ## Refinement: tpl_remove_time_obj erases from the list -/

theorem remove_spec {s : Kernel} {pre post : List Nat} {x : Nat}
    (hq : IsQueue s (pre ++ x :: post)) :
    IsQueue (tpl_remove_time_obj s x) (pre ++ post) ∧
      (s.counter.next_to = some x →
        (tpl_remove_time_obj s x).counter.next_to = headOr post (headOr pre none)) ∧
      (s.counter.next_to = none →
        (tpl_remove_time_obj s x).counter.next_to = headOr (pre ++ post) none) ∧
      (∀ n, n ≠ x → s.counter.next_to = some n →
        (tpl_remove_time_obj s x).counter.next_to = some n) ∧
      (tpl_remove_time_obj s x).counter.current_tick = s.counter.current_tick ∧
      (tpl_remove_time_obj s x).counter.ticks_per_base = s.counter.ticks_per_base ∧
      (tpl_remove_time_obj s x).counter.current_date = s.counter.current_date ∧
      (∀ i, ((tpl_remove_time_obj s x).objs i).date = (s.objs i).date ∧
        ((tpl_remove_time_obj s x).objs i).cycle = (s.objs i).cycle) ∧
      (∀ i, i ≠ x → ((tpl_remove_time_obj s x).objs i).state = (s.objs i).state) ∧
      ((tpl_remove_time_obj s x).objs x).state = ALARM_SLEEP ∧
      (∀ i, i ∉ pre ++ x :: post → (tpl_remove_time_obj s x).objs i = s.objs i) := by
  have hnd := hq.nodup
  have hlinks := hq.links
  rw [seg_append, seg_cons] at hlinks
  obtain ⟨hl1, hxp, hxn, hl2⟩ := hlinks
  have hnd1 := List.nodup_append.1 hnd
  have hndpre : pre.Nodup := hnd1.1
  have hnd2 := List.nodup_cons.1 hnd1.2.1
  have hndpost : post.Nodup := hnd2.2
  have hxpost : x ∉ post := hnd2.1
  have hxpre : x ∉ pre := fun h => hnd1.2.2 h (List.mem_cons_self _ _)
  have hdisj : ∀ y, y ∈ pre → y ∉ post := fun y h1 h2 => hnd1.2.2 h1 (List.mem_cons_of_mem _ h2)
  have hfirst : s.counter.first_to = headOr (pre ++ x :: post) none := hq.first
  have hx1 : (link_prev s.objs (headOr post none) (lastOr pre none) x).prev_to = lastOr pre none := by
    rw [link_prev_other _ _ _ _ hxpost, hxp]
  have hfirst1 : (if some x = s.counter.first_to then headOr post none else s.counter.first_to) =
      headOr (pre ++ post) none := by
    rw [hfirst]
    cases pre with
    | nil => simp [headOr]
    | cons a pre =>
      have : x ≠ a := fun h => hxpre (h ▸ List.mem_cons_self _ _)
      simp [headOr, this]
  replace hl1 : Seg s.objs none pre (some x) := hl1
  have hobjs : (tpl_remove_time_obj s x).objs =
      set_state (link_next (link_prev s.objs (headOr post none) (lastOr pre none))
        (lastOr pre none) (headOr post none)) x ALARM_SLEEP := by
    simp only [tpl_remove_time_obj, hxn, hxp, hx1, link_prev_next_to]
  have hfst : (tpl_remove_time_obj s x).counter.first_to = headOr (pre ++ post) none := by
    simp only [tpl_remove_time_obj, hxn]
    exact hfirst1
  have hnx : (tpl_remove_time_obj s x).counter.next_to =
      if (if some x = s.counter.next_to then headOr post none else s.counter.next_to) = none
      then headOr (pre ++ post) none
      else (if some x = s.counter.next_to then headOr post none else s.counter.next_to) := by
    simp only [tpl_remove_time_obj, hxn, hfirst1]
  refine ⟨⟨hfst, ?_, ?_⟩, ?_, ?_, ?_, rfl, rfl, rfl, ?_, ?_, ?_, ?_⟩
  · rw [hobjs, seg_append]
    have e1 : Seg (link_prev s.objs (headOr post none) (lastOr pre none)) none pre (some x) := by
      refine seg_frame (fun y hy => ?_) hl1
      rw [link_prev_other _ _ _ _ (hdisj y hy)]
      exact ⟨rfl, rfl⟩
    have e2 := seg_link_last (headOr post none) e1 hndpre
    have f1 := seg_link_head (lastOr pre none) hl2 hndpost
    have f2 : Seg (link_next (link_prev s.objs (headOr post none) (lastOr pre none))
        (lastOr pre none) (headOr post none)) (lastOr pre none) post none := by
      refine seg_frame (fun y hy => ?_) f1
      have : y ∉ pre := fun h => hdisj y h hy
      rw [link_next_other _ _ _ _ this]
      exact ⟨rfl, rfl⟩
    exact ⟨seg_frame (fun y _ => by simp) e2, seg_frame (fun y _ => by simp) f2⟩
  · exact List.nodup_append.2 ⟨hndpre, hndpost, fun y h1 h2 => hdisj y h1 h2⟩
  · intro h
    rw [hnx, h, headOr_append]
    cases post <;> simp [headOr]
  · intro h
    rw [hnx, h]
    simp
  · intro n hn h
    rw [hnx, h]
    have : x ≠ n := fun e => hn e.symm
    simp [this]
  · intro i
    rw [hobjs]
    simp
  · intro i hi
    rw [hobjs]
    simp [hi]
  · rw [hobjs]
    simp
  · intro i hi
    have hi1 : i ∉ pre := fun h => hi (List.mem_append_left _ h)
    have hi2 : i ∉ post := fun h => hi (List.mem_append_right _ (List.mem_cons_of_mem _ h))
    have hi3 : i ≠ x := fun h => hi (List.mem_append_right _ (h ▸ List.mem_cons_self _ _))
    rw [hobjs, set_state_other _ _ _ _ hi3, link_next_other _ _ _ _ hi1,
      link_prev_other _ _ _ _ hi2]

/-! ## Walking the queue -/

theorem walk_seg (objs : Nat → tpl_time_obj) (l : List Nat) (prev : Option Nat) (fuel : Nat)
    (hs : Seg objs prev l none) (hf : l.length < fuel) :
    walk objs fuel (headOr l none) = some l := by
  induction l generalizing prev fuel with
  | nil =>
    cases fuel with
    | zero => simp at hf
    | succ f => rfl
  | cons a l ih =>
    cases fuel with
    | zero => simp at hf
    | succ f =>
      obtain ⟨_, h2, h3⟩ := hs
      rw [show headOr (a :: l) none = some a from rfl]
      simp only [walk, h2]
      rw [ih (some a) f h3 (by simpa using hf)]
      rfl

theorem walk_seg_unique (objs : Nat → tpl_time_obj) (l l1 : List Nat) (prev : Option Nat)
    (fuel : Nat) (hs : Seg objs prev l none) (hw : walk objs fuel (headOr l none) = some l1) :
    l1 = l := by
  induction l generalizing prev fuel l1 with
  | nil =>
    cases fuel with
    | zero => simp [walk] at hw
    | succ f => simpa [headOr, walk] using hw.symm
  | cons a l ih =>
    cases fuel with
    | zero => simp [walk] at hw
    | succ f =>
      obtain ⟨_, h2, h3⟩ := hs
      rw [show headOr (a :: l) none = some a from rfl] at hw
      simp only [walk, h2, Option.map_eq_some'] at hw
      obtain ⟨l2, hl2, rfl⟩ := hw
      rw [ih l2 (some a) f h3 hl2]

theorem IsQueue.walk_eq {s : Kernel} {q : List Nat} (hq : IsQueue s q) {fuel : Nat}
    (hf : q.length < fuel) : walk s.objs fuel s.counter.first_to = some q := by
  rw [hq.first]
  exact walk_seg s.objs q none fuel hq.links hf

theorem IsQueue.walk_unique {s : Kernel} {q q1 : List Nat} (hq : IsQueue s q) {fuel : Nat}
    (hw : walk s.objs fuel s.counter.first_to = some q1) : q1 = q := by
  rw [hq.first] at hw
  exact walk_seg_unique s.objs q q1 none fuel hq.links hw

/-! ## More fuel does not change a result -/

theorem insertScan_mono (objs : Nat → tpl_time_obj) (d : Nat) {f f1 : Nat} {c p : Option Nat}
    {r : Option Nat × Option Nat} (h : insertScan objs d f c p = some r) (hf : f ≤ f1) :
    insertScan objs d f1 c p = some r := by
  induction f generalizing f1 c p with
  | zero => simp [insertScan] at h
  | succ f ih =>
    obtain ⟨f2, rfl⟩ : ∃ f2, f1 = f2 + 1 := ⟨f1 - 1, by omega⟩
    cases c with
    | none => simpa [insertScan] using h
    | some c =>
      simp only [insertScan] at h ⊢
      split
      · rename_i hd
        rw [if_pos hd] at h
        exact ih h (by omega)
      · rename_i hd
        rw [if_neg hd] at h
        exact h

theorem tpl_insert_time_obj_mono {f f1 : Nat} {s s1 : Kernel} {t : Nat}
    (h : tpl_insert_time_obj f s t = some s1) (hf : f ≤ f1) :
    tpl_insert_time_obj f1 s t = some s1 := by
  unfold tpl_insert_time_obj at h ⊢
  cases hfirst : s.counter.first_to with
  | none => simpa [hfirst] using h
  | some a =>
    simp only [hfirst] at h ⊢
    cases hsc : insertScan s.objs (s.objs t).date f (some a) none with
    | none => simp [hsc] at h
    | some r =>
      rw [insertScan_mono _ _ hsc hf]
      simpa [hsc] using h

theorem tickLoop_mono (cfg : Config) (date : Nat) {scan scan1 fuel fuel1 : Nat} {s : Kernel}
    {need : Nat} {r : TickResult} (h : tickLoop cfg scan date fuel s need = some r)
    (hs : scan ≤ scan1) (hf : fuel ≤ fuel1) :
    tickLoop cfg scan1 date fuel1 s need = some r := by
  induction fuel generalizing fuel1 s need r with
  | zero => simp [tickLoop] at h
  | succ f ih =>
    obtain ⟨f2, rfl⟩ : ∃ f2, fuel1 = f2 + 1 := ⟨fuel1 - 1, by omega⟩
    simp only [tickLoop] at h ⊢
    cases hn : s.counter.next_to with
    | none => simpa [hn] using h
    | some t =>
      simp only [hn] at h ⊢
      by_cases hd : (s.objs t).date = date
      · simp only [hd, if_true] at h ⊢
        by_cases hc : ((tpl_remove_time_obj s t).objs t).cycle = 0
        · simp only [hc, ne_eq, not_true_eq_false, if_false] at h ⊢
          simp only [Option.map_eq_some'] at h ⊢
          obtain ⟨r1, hr1, hr⟩ := h
          exact ⟨r1, ih hr1 (by omega), hr⟩
        · simp only [hc, ne_eq, not_false_eq_true, if_true] at h ⊢
          cases hi : tpl_insert_time_obj scan (rearm cfg (tpl_remove_time_obj s t) t) t with
          | none => simp [hi] at h
          | some s3 =>
            rw [tpl_insert_time_obj_mono hi hs]
            simp only [hi, Option.map_eq_some'] at h ⊢
            obtain ⟨r1, hr1, hr⟩ := h
            exact ⟨r1, ih hr1 (by omega), hr⟩
      · simpa [hd] using h

theorem tpl_counter_tick_mono (cfg : Config) {fuel fuel1 : Nat} {s : Kernel} {r : TickResult}
    (h : tpl_counter_tick cfg fuel s = some r) (hf : fuel ≤ fuel1) :
    tpl_counter_tick cfg fuel1 s = some r := by
  unfold tpl_counter_tick at h ⊢
  by_cases ht : (s.counter.current_tick + 1) % 2 ^ cfg.width = s.counter.ticks_per_base
  · simp only [ht, if_true] at h ⊢
    exact tickLoop_mono cfg _ h hf hf
  · simpa [ht] using h

/-! ## List view of the insertion -/

theorem length_insertByDate (objs : Nat → tpl_time_obj) (t d : Nat) (l : List Nat) :
    (insertByDate objs t d l).length = l.length + 1 := by
  induction l with
  | nil => rfl
  | cons a l ih =>
    simp only [insertByDate]
    split <;> simp [ih]

theorem insertByDate_perm (objs : Nat → tpl_time_obj) (t d : Nat) (l : List Nat) :
    (insertByDate objs t d l).Perm (t :: l) := by
  induction l with
  | nil => exact List.Perm.refl _
  | cons a l ih =>
    simp only [insertByDate]
    split
    · exact (List.Perm.cons a ih).trans (List.Perm.swap t a l)
    · exact List.Perm.refl _

theorem mem_insertByDate (objs : Nat → tpl_time_obj) (t d : Nat) (l : List Nat) (x : Nat) :
    x ∈ insertByDate objs t d l ↔ x = t ∨ x ∈ l := by
  rw [(insertByDate_perm objs t d l).mem_iff, List.mem_cons]

theorem insertByDate_congr {objs objs1 : Nat → tpl_time_obj} (t d : Nat) {l : List Nat}
    (h : ∀ a ∈ l, (objs1 a).date = (objs a).date) :
    insertByDate objs1 t d l = insertByDate objs t d l := by
  induction l with
  | nil => rfl
  | cons a l ih =>
    simp only [insertByDate, h a (List.mem_cons_self _ _),
      ih (fun b hb => h b (List.mem_cons_of_mem _ hb))]

theorem rearm_ne {D c M : Nat} (hD : D < M) (hc : c ≠ 0) (hcM : c < M) : (D + c) % M ≠ D := by
  by_cases h : D + c < M
  · rw [Nat.mod_eq_of_lt h]; omega
  · rw [Nat.mod_eq_sub_mod (by omega), Nat.mod_eq_of_lt (by omega)]; omega

theorem isQueue_congr {s s1 : Kernel} {q : List Nat} (hf : s1.counter.first_to = s.counter.first_to)
    (h : ∀ a ∈ q, (s1.objs a).prev_to = (s.objs a).prev_to ∧ (s1.objs a).next_to = (s.objs a).next_to)
    (hq : IsQueue s q) : IsQueue s1 q :=
  ⟨hf.trans hq.first, seg_frame h hq.links, hq.nodup⟩

theorem cursorOK_of_headOr {s : Kernel} {pre post : List Nat}
    (h : s.counter.next_to = headOr post (headOr pre none)) : CursorOK s (pre ++ post) := by
  unfold CursorOK
  rw [h]
  cases post with
  | nil =>
    cases pre with
    | nil => simp [headOr]
    | cons a pre => simp [headOr]
  | cons b post => simp [headOr]

theorem insertCursor_mem (cd nd td n t : Nat) :
    insertCursor cd nd td n t = n ∨ insertCursor cd nd td n t = t := by
  unfold insertCursor
  split <;> split <;> simp

theorem insertCursor_same (D d1 n t : Nat) : insertCursor D D d1 n t = n := by
  unfold insertCursor
  rw [if_neg (lt_irrefl D), if_neg (by omega)]

/-! ## One iteration of the expiry loop -/

theorem active_of_sleep : ALARM_SLEEP ||| ALARM_ACTIVE = ALARM_ACTIVE := by decide

theorem tick_iter (cfg : Config) {s : Kernel} {pre post : List Nat} {t scan : Nat} (fuel need : Nat)
    (hq : IsQueue s (pre ++ t :: post)) (hn : s.counter.next_to = some t)
    (hcyc : (s.objs t).cycle < 2 ^ cfg.width) (hd : (s.objs t).date < 2 ^ cfg.width)
    (hs : (pre ++ post).length < scan) :
    ∃ s1 q1,
      tickLoop cfg scan (s.objs t).date (fuel + 1) s need =
        (tickLoop cfg scan (s.objs t).date fuel s1
          (need ||| (cfg.TRAMPOLINE_STATUS_MASK &&& cfg.expire t))).map
          (fun r => { r with fired := t :: r.fired }) ∧
      IsQueue s1 q1 ∧ CursorOK s1 q1 ∧
      (((s.objs t).cycle = 0 ∧ q1 = pre ++ post ∧ (s1.objs t).state = ALARM_SLEEP ∧
          (s1.objs t).date = (s.objs t).date) ∨
       ((s.objs t).cycle ≠ 0 ∧ q1 = insertByDate s.objs t (s1.objs t).date (pre ++ post) ∧
          (s1.objs t).state = ALARM_ACTIVE ∧
          (s1.objs t).date = ((s.objs t).date + (s.objs t).cycle) % 2 ^ cfg.width ∧
          (s1.objs t).date ≠ (s.objs t).date)) ∧
      (s.counter.current_date = (s.objs t).date → ∀ n, headOr post none = some n →
          (s.objs n).date = (s.objs t).date → s1.counter.next_to = some n) ∧
      (∀ i, i ≠ t → (s1.objs i).date = (s.objs i).date ∧ (s1.objs i).state = (s.objs i).state) ∧
      (∀ i, (s1.objs i).cycle = (s.objs i).cycle) ∧
      (∀ i, i ∉ pre ++ t :: post → s1.objs i = s.objs i) ∧
      s1.counter.current_tick = s.counter.current_tick ∧
      s1.counter.ticks_per_base = s.counter.ticks_per_base ∧
      s1.counter.current_date = s.counter.current_date := by
  obtain ⟨hq1, hcx, -, -, hct, htpb, hcd, hdc, hst, hsl, hfr⟩ := remove_spec hq
  have hcur1 := hcx hn
  have hcok1 : CursorOK (tpl_remove_time_obj s t) (pre ++ post) := cursorOK_of_headOr hcur1
  have hnd := hq.nodup
  have htq : t ∉ pre ++ post := by
    have h1 := List.nodup_append.1 hnd
    intro h
    rcases List.mem_append.1 h with h | h
    · exact h1.2.2 h (List.mem_cons_self _ _)
    · exact (List.nodup_cons.1 h1.2.1).1 h
  by_cases hc : (s.objs t).cycle = 0
  · refine ⟨tpl_remove_time_obj s t, pre ++ post, ?_, hq1, hcok1,
      Or.inl ⟨hc, rfl, hsl, (hdc t).1⟩, ?_, fun i hi => ⟨(hdc i).1, hst i hi⟩,
      fun i => (hdc i).2, hfr, hct, htpb, hcd⟩
    · simp only [tickLoop, hn, if_true, (hdc t).2, hc, ne_eq, not_true_eq_false, if_false]
    · intro _ n hn1 _
      rw [hcur1]
      cases post with
      | nil => simp [headOr] at hn1
      | cons b post => simpa [headOr] using hn1
  · have hq2 : IsQueue (rearm cfg (tpl_remove_time_obj s t) t) (pre ++ post) :=
      isQueue_congr (s := tpl_remove_time_obj s t) rfl (fun a _ => by simp [rearm]) hq1
    have hne : pre ++ post ≠ [] →
        ∃ n, (rearm cfg (tpl_remove_time_obj s t) t).counter.next_to = some n := by
      intro h
      have := hcok1
      unfold CursorOK at this
      cases hx : (tpl_remove_time_obj s t).counter.next_to with
      | none => rw [hx] at this; exact absurd this h
      | some n => exact ⟨n, hx⟩
    obtain ⟨s3, hins, hq3, hcur3, hct3, htpb3, hcd3, hdc3, hst3, hstt3, hfr3⟩ :=
      insert_spec hq2 htq hs hne
    have hdate2 : ((rearm cfg (tpl_remove_time_obj s t) t).objs t).date =
        ((s.objs t).date + (s.objs t).cycle) % 2 ^ cfg.width := by
      simp [rearm, (hdc t).1, (hdc t).2]
    have hdateo : ∀ i, i ≠ t → ((rearm cfg (tpl_remove_time_obj s t) t).objs i).date =
        (s.objs i).date := by
      intro i hi
      simp [rearm, hi, (hdc i).1]
    have hq3eq : insertByDate (rearm cfg (tpl_remove_time_obj s t) t).objs t
        ((rearm cfg (tpl_remove_time_obj s t) t).objs t).date (pre ++ post) =
        insertByDate s.objs t (s3.objs t).date (pre ++ post) := by
      rw [(hdc3 t).1]
      exact insertByDate_congr _ _ (fun a ha => hdateo a (fun h => htq (h ▸ ha)))
    rw [hq3eq] at hq3
    refine ⟨s3, _, ?_, hq3, ?_, Or.inr ⟨hc, rfl, ?_, ?_, ?_⟩, ?_, ?_, ?_, ?_, ?_, ?_, ?_⟩
    · simp only [tickLoop, hn, if_true, (hdc t).2, hc, ne_eq, not_false_eq_true, hins]
    · unfold CursorOK
      rw [hcur3]
      by_cases he : pre ++ post = []
      · rw [if_pos he]
        exact (mem_insertByDate _ _ _ _ _).2 (Or.inl rfl)
      · rw [if_neg he]
        obtain ⟨n, hn2⟩ := hne he
        rw [hn2]
        have hnm : n ∈ pre ++ post := by
          have := hcok1
          unfold CursorOK at this
          have hn3 : (tpl_remove_time_obj s t).counter.next_to = some n := hn2
          rw [hn3] at this
          exact this
        simp only [Option.map_some']
        rcases insertCursor_mem (rearm cfg (tpl_remove_time_obj s t) t).counter.current_date
          ((rearm cfg (tpl_remove_time_obj s t) t).objs n).date
          ((rearm cfg (tpl_remove_time_obj s t) t).objs t).date n t with h | h
        · rw [h]; exact (mem_insertByDate _ _ _ _ _).2 (Or.inr hnm)
        · rw [h]; exact (mem_insertByDate _ _ _ _ _).2 (Or.inl rfl)
    · rw [hstt3]
      have : ((rearm cfg (tpl_remove_time_obj s t) t).objs t).state = ALARM_SLEEP := by
        simp [rearm, hsl]
      rw [this, active_of_sleep]
    · rw [(hdc3 t).1, hdate2]
    · rw [(hdc3 t).1, hdate2]
      exact rearm_ne hd hc hcyc
    · intro hcur n hn1 hnd1
      have hpost : post ≠ [] := by
        intro h
        rw [h] at hn1
        simp [headOr] at hn1
      have hnpost : n ∈ post := headOr_mem (fun x hx => by simp at hx) hn1
      have hnt : n ≠ t := fun h => htq (h ▸ List.mem_append_right _ hnpost)
      have hn2 : (rearm cfg (tpl_remove_time_obj s t) t).counter.next_to = some n := by
        show (tpl_remove_time_obj s t).counter.next_to = some n
        rw [hcur1]
        cases post with
        | nil => exact absurd rfl hpost
        | cons b post => simpa [headOr] using hn1
      rw [hcur3, if_neg (by simp [hpost]), hn2]
      simp only [Option.map_some']
      have h1 : (rearm cfg (tpl_remove_time_obj s t) t).counter.current_date = (s.objs t).date := by
        show (tpl_remove_time_obj s t).counter.current_date = _
        rw [hcd, hcur]
      rw [h1, hdateo n hnt, hnd1, insertCursor_same]
    · intro i hi
      refine ⟨by rw [(hdc3 i).1, hdateo i hi], ?_⟩
      rw [hst3 i hi]
      simp [rearm, hst i hi]
    · intro i
      rw [(hdc3 i).2]
      simp [rearm, (hdc i).2]
    · intro i hi
      have hit : i ≠ t := fun h => hi (List.mem_append_right _ (h ▸ List.mem_cons_self _ _))
      have hi2 : i ∉ pre ++ post := by
        intro h
        rcases List.mem_append.1 h with h | h
        · exact hi (List.mem_append_left _ h)
        · exact hi (List.mem_append_right _ (List.mem_cons_of_mem _ h))
      rw [hfr3 i hi2 hit]
      show set_date _ t _ i = _
      rw [set_date_other _ _ _ _ hit, hfr i hi]
    · rw [hct3]; exact hct
    · rw [htpb3]; exact htpb
    · rw [hcd3]; exact hcd

/-! ## The expiry loop terminates and keeps the queue well formed -/

theorem dueCount_congr {objs objs1 : Nat → tpl_time_obj} (D : Nat) {l : List Nat}
    (h : ∀ a ∈ l, (objs1 a).date = (objs a).date) : dueCount objs1 D l = dueCount objs D l := by
  unfold dueCount
  exact List.countP_congr (fun a ha => by simp [h a ha])

theorem dueCount_split (objs : Nat → tpl_time_obj) (D : Nat) (pre post : List Nat) (t : Nat)
    (ht : (objs t).date = D) :
    dueCount objs D (pre ++ t :: post) = dueCount objs D (pre ++ post) + 1 := by
  unfold dueCount
  simp [List.countP_append, List.countP_cons, ht]
  omega

theorem dueCount_le_length (objs : Nat → tpl_time_obj) (D : Nat) (l : List Nat) :
    dueCount objs D l ≤ l.length := List.countP_le_length _

theorem dueCount_insert (objs objs1 : Nat → tpl_time_obj) (D : Nat) (l : List Nat) (t d : Nat)
    (ht : (objs1 t).date ≠ D) :
    dueCount objs1 D (insertByDate objs t d l) = dueCount objs1 D l := by
  unfold dueCount
  rw [(insertByDate_perm objs t d l).countP_eq]
  simp [List.countP_cons, ht]

theorem tickLoop_total (cfg : Config) (D : Nat) (hD : D < 2 ^ cfg.width) (scan : Nat) :
    ∀ (k : Nat) (s : Kernel) (q : List Nat) (need fuel : Nat),
      IsQueue s q → CursorOK s q → (∀ x ∈ q, (s.objs x).cycle < 2 ^ cfg.width) →
      dueCount s.objs D q ≤ k → q.length < scan → k < fuel →
      ∃ r q1, tickLoop cfg scan D fuel s need = some r ∧
        IsQueue r.kernel q1 ∧ CursorOK r.kernel q1 ∧
        (∀ x, x ∈ q1 → x ∈ q) ∧
        (∀ i, (r.kernel.objs i).cycle = (s.objs i).cycle) ∧
        (∀ x ∈ q1, (r.kernel.objs x).state = (s.objs x).state ∨
          (r.kernel.objs x).state = ALARM_ACTIVE) ∧
        (∀ i, i ∉ q → r.kernel.objs i = s.objs i) ∧
        r.kernel.counter.current_tick = s.counter.current_tick ∧
        r.kernel.counter.ticks_per_base = s.counter.ticks_per_base ∧
        r.kernel.counter.current_date = s.counter.current_date := by
  intro k
  induction k with
  | zero =>
    intro s q need fuel hq hc _ hk _ hf
    obtain ⟨f, rfl⟩ : ∃ f, fuel = f + 1 := ⟨fuel - 1, by omega⟩
    refine ⟨⟨s, need, []⟩, q, ?_, hq, hc, fun x hx => hx, fun i => rfl, fun x _ => Or.inl rfl,
      fun i _ => rfl, rfl, rfl, rfl⟩
    simp only [tickLoop]
    cases hn : s.counter.next_to with
    | none => rfl
    | some t =>
      have htq : t ∈ q := by unfold CursorOK at hc; rw [hn] at hc; exact hc
      have : (s.objs t).date ≠ D := by
        intro h
        obtain ⟨pre, post, rfl⟩ := List.append_of_mem htq
        rw [dueCount_split _ _ _ _ _ h] at hk
        omega
      simp [this]
  | succ k ih =>
    intro s q need fuel hq hc hcyc hk hsc hf
    obtain ⟨f, rfl⟩ : ∃ f, fuel = f + 1 := ⟨fuel - 1, by omega⟩
    cases hn : s.counter.next_to with
    | none =>
      exact ⟨⟨s, need, []⟩, q, by simp only [tickLoop, hn], hq, hc, fun x hx => hx, fun i => rfl,
        fun x _ => Or.inl rfl, fun i _ => rfl, rfl, rfl, rfl⟩
    | some t =>
      have htq : t ∈ q := by unfold CursorOK at hc; rw [hn] at hc; exact hc
      by_cases hdt : (s.objs t).date = D
      · obtain ⟨pre, post, rfl⟩ := List.append_of_mem htq
        have hlen : (pre ++ post).length < scan := by
          simp only [List.length_append, List.length_cons] at hsc ⊢; omega
        obtain ⟨s1, q1, hloop, hq1, hc1, hcase, -, hoth, hcy1, hfr1, hct1, htpb1, hcd1⟩ :=
          tick_iter cfg f need hq hn (hcyc t htq) (hdt ▸ hD) hlen
        rw [hdt] at hloop
        rw [dueCount_split _ _ _ _ _ hdt] at hk
        have hdates : ∀ a ∈ pre ++ post, (s1.objs a).date = (s.objs a).date := by
          intro a ha
          have hat : a ≠ t := by
            intro h
            have h1 := List.nodup_append.1 hq.nodup
            rcases List.mem_append.1 ha with ha | ha
            · exact h1.2.2 ha (h ▸ List.mem_cons_self _ _)
            · exact (List.nodup_cons.1 h1.2.1).1 (h ▸ ha)
          exact (hoth a hat).1
        have hsub : ∀ x, x ∈ q1 → x ∈ pre ++ t :: post := by
          intro x hx
          rcases hcase with ⟨_, rfl, _⟩ | ⟨_, rfl, _⟩
          · rcases List.mem_append.1 hx with h | h
            · exact List.mem_append_left _ h
            · exact List.mem_append_right _ (List.mem_cons_of_mem _ h)
          · rcases (mem_insertByDate _ _ _ _ _).1 hx with h | h
            · exact List.mem_append_right _ (h ▸ List.mem_cons_self _ _)
            · rcases List.mem_append.1 h with h | h
              · exact List.mem_append_left _ h
              · exact List.mem_append_right _ (List.mem_cons_of_mem _ h)
        have hdue : dueCount s1.objs D q1 ≤ k := by
          rcases hcase with ⟨_, rfl, _⟩ | ⟨_, rfl, _, _, hne⟩
          · rw [dueCount_congr D hdates]; omega
          · rw [dueCount_insert _ _ _ _ _ _ (hdt ▸ hne), dueCount_congr D hdates]; omega
        have hlen1 : q1.length < scan := by
          rcases hcase with ⟨_, rfl, _⟩ | ⟨_, rfl, _⟩
          · exact hlen
          · rw [length_insertByDate]
            simp only [List.length_append, List.length_cons] at hsc ⊢; omega
        have hcyc1 : ∀ x ∈ q1, (s1.objs x).cycle < 2 ^ cfg.width := by
          intro x hx
          rw [hcy1 x]
          exact hcyc x (hsub x hx)
        obtain ⟨r, q2, hr, hq2, hc2, hsub2, hcy2, hst2, hfr2, hct2, htpb2, hcd2⟩ :=
          ih s1 q1 (need ||| (cfg.TRAMPOLINE_STATUS_MASK &&& cfg.expire t)) f hq1 hc1 hcyc1 hdue
            hlen1 (by omega)
        refine ⟨{ r with fired := t :: r.fired }, q2, by rw [hloop, hr]; rfl, hq2, hc2,
          fun x hx => hsub x (hsub2 x hx), fun i => by rw [← hcy1 i]; exact hcy2 i, ?_, ?_,
          hct2.trans hct1, htpb2.trans htpb1, hcd2.trans hcd1⟩
        · intro x hx
          by_cases hxt : x = t
          · subst hxt
            rcases hst2 x hx with h | h
            · rcases hcase with ⟨_, rfl, _⟩ | ⟨_, _, hact, _⟩
              · exfalso
                have h1 := List.nodup_append.1 hq.nodup
                rcases List.mem_append.1 (hsub2 x hx) with h2 | h2
                · exact h1.2.2 h2 (List.mem_cons_self _ _)
                · exact (List.nodup_cons.1 h1.2.1).1 h2
              · exact Or.inr (h.trans hact)
            · exact Or.inr h
          · rcases hst2 x hx with h | h
            · exact Or.inl (h.trans (hoth x hxt).2)
            · exact Or.inr h
        · intro i hi
          have : i ∉ q1 := fun h => hi (hsub i h)
          exact (hfr2 i this).trans (hfr1 i hi)
      · exact ⟨⟨s, need, []⟩, _, by simp only [tickLoop, hn, hdt, if_false], hq, hc,
          fun x hx => hx, fun i => rfl, fun x _ => Or.inl rfl, fun i _ => rfl, rfl, rfl, rfl⟩

/-! ## tpl_counter_tick on a well-formed queue -/

theorem tick_total (cfg : Config) {s : Kernel} {q : List Nat} {fuel : Nat}
    (hq : IsQueue s q) (hc : CursorOK s q) (hcyc : ∀ x ∈ q, (s.objs x).cycle < 2 ^ cfg.width)
    (hf : q.length < fuel) :
    ∃ r q1, tpl_counter_tick cfg fuel s = some r ∧
      IsQueue r.kernel q1 ∧ CursorOK r.kernel q1 ∧
      (∀ x, x ∈ q1 → x ∈ q) ∧
      (∀ i, (r.kernel.objs i).cycle = (s.objs i).cycle) ∧
      (∀ x ∈ q1, (r.kernel.objs x).state = (s.objs x).state ∨
        (r.kernel.objs x).state = ALARM_ACTIVE) ∧
      (∀ i, i ∉ q → r.kernel.objs i = s.objs i) ∧
      r.kernel.counter.ticks_per_base = s.counter.ticks_per_base := by
  unfold tpl_counter_tick
  by_cases ht : (s.counter.current_tick + 1) % 2 ^ cfg.width = s.counter.ticks_per_base
  · simp only [ht, if_true]
    have hD : (s.counter.current_date + 1) % 2 ^ cfg.width < 2 ^ cfg.width :=
      Nat.mod_lt _ (by positivity)
    obtain ⟨r, q1, hr, h1, h2, h3, h4, h5, h6, _, h8, _⟩ :=
      tickLoop_total cfg _ hD fuel q.length (rollover cfg s)
        q cfg.NO_SPECIAL_CODE fuel (isQueue_congr (s := s) rfl (fun _ _ => ⟨rfl, rfl⟩) hq) hc hcyc
        (dueCount_le_length _ _ _) hf hf
    exact ⟨r, q1, hr, h1, h2, h3, h4, h5, h6, h8⟩
  · simp only [ht, if_false]
    exact ⟨_, q, rfl, isQueue_congr (s := s) rfl (fun _ _ => ⟨rfl, rfl⟩) hq, hc, fun x hx => hx,
      fun i => rfl, fun x _ => Or.inl rfl, fun i _ => rfl, rfl⟩

/-! ## C1: an object due at the next date can be missed -/

theorem stuckCursor_reachable {s : Kernel} (h : stuckCursor = some s) : Reachable cfg8 s := by
  unfold stuckCursor at h
  cases h1 : activate 8 (emptyAt 5) 0 5 0 with
  | none => rw [h1] at h; simp at h
  | some s1 =>
    rw [h1] at h
    have hs1 : (activate 8 (emptyAt 5) 0 5 0).map (fun s => (s.objs 1).state) = some ALARM_SLEEP := by
      decide
    rw [h1] at hs1
    have r1 : Reachable cfg8 s1 :=
      Reachable.insert (emptyAt 5) s1 0 5 0 8 (Reachable.init _ rfl rfl) rfl (by decide) (by decide) h1
    exact Reachable.insert s1 s 1 6 0 8 r1 (by simpa using hs1) (by decide) (by decide) h

/-- C1, failing input.  Counter at `current_date = 5`, `ticks_per_base = 1`,
`current_tick = 0`; object 0 is inserted with date 5, then object 1 with
date 6.  The state is reachable, object 1 is a queue member with date
`5 + 1`, and the next `tpl_counter_tick` calls no `expire` hook at all. -/
theorem c1_due_object_not_fired :
    ∃ s r, stuckCursor = some s ∧ Reachable cfg8 s ∧
      s.counter.current_date = 5 ∧
      s.counter.current_tick = s.counter.ticks_per_base - 1 ∧
      walk s.objs 8 s.counter.first_to = some [0, 1] ∧
      (s.objs 1).date = (5 + 1) % 2 ^ cfg8.width ∧
      tpl_counter_tick cfg8 8 s = some r ∧ r.fired.count 1 = 0 := by
  cases h : stuckCursor with
  | none =>
    have : stuckCursor.isSome = true := by decide
    rw [h] at this
    exact absurd this (by decide)
  | some s =>
    have e1 : stuckCursor.map (fun s => s.counter.current_date) = some 5 := by decide
    have e2 : stuckCursor.map (fun s => decide (s.counter.current_tick = s.counter.ticks_per_base - 1))
        = some true := by decide
    have e3 : stuckCursor.map (fun s => walk s.objs 8 s.counter.first_to) = some (some [0, 1]) := by
      decide
    have e4 : stuckCursor.map (fun s => (s.objs 1).date) = some ((5 + 1) % 2 ^ cfg8.width) := by
      decide
    have e5 : (stuckCursor.bind (fun s => tpl_counter_tick cfg8 8 s)).map (fun r => r.fired)
        = some [] := by decide
    rw [h] at e1 e2 e3 e4 e5
    simp only [Option.map_some', Option.some.injEq, decide_eq_true_eq, Option.some_bind] at e1 e2 e3 e4 e5
    cases ht : tpl_counter_tick cfg8 8 s with
    | none => rw [ht] at e5; simp at e5
    | some r =>
      rw [ht] at e5
      simp only [Option.map_some', Option.some.injEq] at e5
      exact ⟨s, r, rfl, stuckCursor_reachable h, e1, e2, e3, e4, ht, by rw [e5]; rfl⟩

/-! ## C2: the cursor can denote an object that is not the next one due -/

/-- C2, failing input.  In the reachable state of the stuck-cursor scenario
(`current_date = 5`, object 0 with date 5 inserted first, then object 1 with
date 6) the queue is `[0, 1]` and `counter->next_to` is object 0, although
object 1 comes due strictly earlier: `(6 - 5 - 1) mod 2^8 = 0` against
`(5 - 5 - 1) mod 2^8 = 255`. -/
theorem c2_cursor_not_minimal :
    ∃ s, stuckCursor = some s ∧ Reachable cfg8 s ∧
      walk s.objs 8 s.counter.first_to = some [0, 1] ∧
      s.counter.next_to = some 0 ∧
      dueIn cfg8.width s.counter.current_date (s.objs 1).date <
        dueIn cfg8.width s.counter.current_date (s.objs 0).date := by
  cases h : stuckCursor with
  | none =>
    have : stuckCursor.isSome = true := by decide
    rw [h] at this
    exact absurd this (by decide)
  | some s =>
    have e1 : stuckCursor.map (fun s => walk s.objs 8 s.counter.first_to) = some (some [0, 1]) := by
      decide
    have e2 : stuckCursor.map (fun s => s.counter.next_to) = some (some 0) := by decide
    have e3 : stuckCursor.map (fun s =>
        decide (dueIn cfg8.width s.counter.current_date (s.objs 1).date <
          dueIn cfg8.width s.counter.current_date (s.objs 0).date)) = some true := by decide
    rw [h] at e1 e2 e3
    simp only [Option.map_some', Option.some.injEq, decide_eq_true_eq] at e1 e2 e3
    exact ⟨s, rfl, stuckCursor_reachable h, e1, e2, e3⟩

/-! ## C3: successive insertions sort the queue stably -/

theorem insertByDate_sorted (objs : Nat → tpl_time_obj) (t : Nat) (l : List Nat)
    (h : l.Pairwise (fun a b => (objs a).date ≤ (objs b).date)) :
    (insertByDate objs t (objs t).date l).Pairwise (fun a b => (objs a).date ≤ (objs b).date) := by
  induction l with
  | nil => simp [insertByDate]
  | cons a l ih =>
    rw [List.pairwise_cons] at h
    simp only [insertByDate]
    split
    · rename_i hd
      rw [List.pairwise_cons]
      refine ⟨fun b hb => ?_, ih h.2⟩
      rcases (mem_insertByDate _ _ _ _ _).1 hb with rfl | hb
      · exact hd
      · exact h.1 b hb
    · rename_i hd
      rw [List.pairwise_cons, List.pairwise_cons]
      refine ⟨fun b hb => ?_, h⟩
      rcases List.mem_cons.1 hb with rfl | hb
      · omega
      · have := h.1 b hb
        omega

theorem insertByDate_filter (objs : Nat → tpl_time_obj) (t e : Nat) (l : List Nat)
    (h : l.Pairwise (fun a b => (objs a).date ≤ (objs b).date)) :
    (insertByDate objs t (objs t).date l).filter (fun a => decide ((objs a).date = e)) =
      l.filter (fun a => decide ((objs a).date = e)) ++
        [t].filter (fun a => decide ((objs a).date = e)) := by
  induction l with
  | nil => simp [insertByDate]
  | cons a l ih =>
    rw [List.pairwise_cons] at h
    simp only [insertByDate]
    split
    · rw [List.filter_cons, ih h.2, List.filter_cons]
      by_cases hae : (objs a).date = e <;> simp [hae]
    · rename_i hd
      by_cases hte : (objs t).date = e
      · have hnil : (a :: l).filter (fun a => decide ((objs a).date = e)) = [] := by
          rw [List.filter_eq_nil_iff]
          intro b hb
          rcases List.mem_cons.1 hb with rfl | hb
          · simp; omega
          · have := h.1 b hb
            simp; omega
        rw [List.filter_cons, hnil]
        simp [hte]
      · rw [List.filter_cons]
        simp [hte]

theorem insertFold_sorted (objs : Nat → tpl_time_obj) (ts q : List Nat)
    (h : q.Pairwise (fun a b => (objs a).date ≤ (objs b).date)) :
    (ts.foldl (fun q t => insertByDate objs t (objs t).date q) q).Pairwise
        (fun a b => (objs a).date ≤ (objs b).date) ∧
      (ts.foldl (fun q t => insertByDate objs t (objs t).date q) q).Perm (q ++ ts) ∧
      ∀ e, (ts.foldl (fun q t => insertByDate objs t (objs t).date q) q).filter
          (fun a => decide ((objs a).date = e)) =
        (q ++ ts).filter (fun a => decide ((objs a).date = e)) := by
  induction ts generalizing q with
  | nil => simp [h]
  | cons t ts ih =>
    obtain ⟨h1, h2, h3⟩ := ih (insertByDate objs t (objs t).date q) (insertByDate_sorted objs t q h)
    refine ⟨h1, ?_, fun e => ?_⟩
    · refine h2.trans ?_
      have := insertByDate_perm objs t (objs t).date q
      refine (List.Perm.append_right ts this).trans ?_
      simpa using (List.perm_middle : List.Perm (q ++ t :: ts) (t :: (q ++ ts))).symm
    · rw [List.foldl_cons, h3 e, List.filter_append, insertByDate_filter objs t e q h]
      by_cases hte : (objs t).date = e <;> simp [List.filter_cons, hte]

theorem insertAll_spec (fuel : Nat) (ts : List Nat) :
    ∀ (s : Kernel) (q : List Nat), IsQueue s q → (q ≠ [] → ∃ n, s.counter.next_to = some n) →
      (∀ t ∈ ts, t ∉ q) → ts.Nodup → q.length + ts.length < fuel →
      ∃ s1, insertAll fuel s ts = some s1 ∧
        IsQueue s1 (ts.foldl (fun q t => insertByDate s.objs t (s.objs t).date q) q) ∧
        (∀ i, (s1.objs i).date = (s.objs i).date) := by
  induction ts with
  | nil =>
    intro s q hq _ _ _ _
    exact ⟨s, rfl, hq, fun _ => rfl⟩
  | cons t ts ih =>
    intro s q hq hc hdisj hnd hf
    rw [List.nodup_cons] at hnd
    have htq : t ∉ q := hdisj t (List.mem_cons_self _ _)
    obtain ⟨s1, hins, hq1, hcur1, -, -, -, hdc1, -⟩ :=
      insert_spec hq htq (by simp only [List.length_cons] at hf; omega : q.length < fuel) hc
    have hc1 : insertByDate s.objs t (s.objs t).date q ≠ [] →
        ∃ n, s1.counter.next_to = some n := by
      intro _
      rw [hcur1]
      by_cases he : q = []
      · exact ⟨t, by rw [if_pos he]⟩
      · obtain ⟨n, hn⟩ := hc he
        exact ⟨_, by rw [if_neg he, hn]; rfl⟩
    have hdisj1 : ∀ u ∈ ts, u ∉ insertByDate s.objs t (s.objs t).date q := by
      intro u hu h
      rcases (mem_insertByDate _ _ _ _ _).1 h with rfl | h
      · exact hnd.1 hu
      · exact hdisj u (List.mem_cons_of_mem _ hu) h
    obtain ⟨s2, hall, hq2, hd2⟩ := ih s1 _ hq1 hc1 hdisj1 hnd.2
      (by rw [length_insertByDate]; simp only [List.length_cons] at hf; omega)
    have hfun : (fun q t => insertByDate s1.objs t (s1.objs t).date q) =
        (fun q t => insertByDate s.objs t (s.objs t).date q) := by
      funext q u
      rw [(hdc1 u).1]
      exact insertByDate_congr _ _ (fun a _ => (hdc1 a).1)
    rw [hfun] at hq2
    refine ⟨s2, ?_, hq2, fun i => (hd2 i).trans (hdc1 i).1⟩
    simp only [insertAll, hins, Option.some_bind, hall]

/-- C3.  Starting from an empty queue, `tpl_insert_time_obj` calls on the
pairwise distinct objects `ts` (in this order) all return, and the walk from
`first_to` via the `next_to` links then visits exactly the objects of `ts`,
each once, with non-decreasing dates, the objects of any one date in the
order of their insertion: the walk is the stable sort by date of `ts`. -/
theorem c3_insert_sorted_stable (s0 : Kernel) (ts : List Nat)
    (h0 : s0.counter.first_to = none) (hnd : ts.Nodup) :
    ∃ s q, insertAll (ts.length + 1) s0 ts = some s ∧
      walk s.objs (ts.length + 1) s.counter.first_to = some q ∧
      q.Perm ts ∧ q.Nodup ∧
      q.Pairwise (fun a b => (s.objs a).date ≤ (s.objs b).date) ∧
      (∀ d, q.filter (fun a => decide ((s.objs a).date = d)) =
        ts.filter (fun a => decide ((s.objs a).date = d))) ∧
      (∀ i, (s.objs i).date = (s0.objs i).date) := by
  have hq0 : IsQueue s0 [] := ⟨h0, trivial, List.nodup_nil⟩
  obtain ⟨s, hall, hq, hd⟩ := insertAll_spec (ts.length + 1) ts s0 [] hq0 (fun h => absurd rfl h)
    (fun _ _ => by simp) hnd (by simp)
  obtain ⟨h1, h2, h3⟩ := insertFold_sorted s0.objs ts [] List.Pairwise.nil
  have hlen : (ts.foldl (fun q t => insertByDate s0.objs t (s0.objs t).date q) []).length
      < ts.length + 1 := by
    rw [h2.length_eq]; simp
  have hdfun : (fun a b => (s.objs a).date ≤ (s.objs b).date) =
      (fun a b => (s0.objs a).date ≤ (s0.objs b).date) := by
    funext a b; rw [hd a, hd b]
  have hffun : ∀ d, (fun a => decide ((s.objs a).date = d)) =
      (fun a => decide ((s0.objs a).date = d)) := by
    intro d; funext a; rw [hd a]
  refine ⟨s, _, hall, hq.walk_eq hlen, by simpa using h2, hq.nodup, by rw [hdfun]; exact h1, ?_, hd⟩
  intro d
  rw [hffun d]
  simpa using h3 d

/-- C3, witness: objects 0, 1, 2, 3 with dates 3, 0, 2, 4. -/
theorem c3_insert_sorted_stable_witness :
    mixedDates.counter.first_to = none ∧ [0, 1, 2, 3].Nodup ∧
    ∃ s q, insertAll ([0, 1, 2, 3].length + 1) mixedDates [0, 1, 2, 3] = some s ∧
      walk s.objs ([0, 1, 2, 3].length + 1) s.counter.first_to = some q ∧
      q.Perm [0, 1, 2, 3] ∧ q.Nodup ∧
      q.Pairwise (fun a b => (s.objs a).date ≤ (s.objs b).date) ∧
      (∀ d, q.filter (fun a => decide ((s.objs a).date = d)) =
        [0, 1, 2, 3].filter (fun a => decide ((s.objs a).date = d))) ∧
      (∀ i, (s.objs i).date = (mixedDates.objs i).date) :=
  ⟨rfl, by decide, c3_insert_sorted_stable mixedDates [0, 1, 2, 3] rfl (by decide)⟩

/-! ## C4: the links stay symmetric -/

theorem erase_split {pre post : List Nat} {x : Nat} (h : (pre ++ x :: post).Nodup) :
    (pre ++ x :: post).erase x = pre ++ post := by
  have hx : x ∉ pre := fun hm => (List.nodup_append.1 h).2.2 hm (List.mem_cons_self _ _)
  rw [List.erase_append_right _ hx, List.erase_cons_head]

/-- Remark on the cursor hypothesis of the tick: outside the reachable states
the links alone do not suffice.  The queue `[2, 1]` of `staleCursor` is a valid
doubly linked list, but `next_to` is the unlinked object 0, whose date is the
next date.  `tpl_counter_tick` removes object 0 and, through its stale
`next_to`, writes `NULL` into `prev_to` of member 1: afterwards `first_to` is 2
and `2->next_to` is 1 but `1->prev_to` is not 2, and no list is a valid queue.
No sequence of calls leads to this state (`staleCursor_unreachable`). -/
theorem stale_cursor_breaks_links :
    IsQueue staleCursor [2, 1] ∧
    ∃ r, tpl_counter_tick cfg8 8 staleCursor = some r ∧
      r.kernel.counter.first_to = some 2 ∧
      (r.kernel.objs 2).next_to = some 1 ∧ (r.kernel.objs 1).prev_to ≠ some 2 ∧
      ¬ ∃ q, IsQueue r.kernel q := by
  refine ⟨⟨rfl, ⟨rfl, rfl, rfl, rfl, trivial⟩, by decide⟩, ?_⟩
  have e1 : (tpl_counter_tick cfg8 8 staleCursor).map (fun r => r.kernel.counter.first_to)
      = some (some 2) := by decide
  have e2 : (tpl_counter_tick cfg8 8 staleCursor).map (fun r => (r.kernel.objs 2).next_to)
      = some (some 1) := by decide
  have e3 : (tpl_counter_tick cfg8 8 staleCursor).map (fun r => (r.kernel.objs 1).prev_to)
      = some none := by decide
  cases h : tpl_counter_tick cfg8 8 staleCursor with
  | none => rw [h] at e1; simp at e1
  | some r =>
    rw [h] at e1 e2 e3
    simp only [Option.map_some', Option.some.injEq] at e1 e2 e3
    refine ⟨r, rfl, e1, e2, by rw [e3]; simp, ?_⟩
    rintro ⟨q, hq⟩
    have hf := hq.first
    have hl := hq.links
    rw [e1] at hf
    cases q with
    | nil => simp [headOr] at hf
    | cons a l =>
      have ha : a = 2 := by simpa [headOr] using hf.symm
      subst ha
      obtain ⟨_, h2, h3⟩ := hl
      rw [e2] at h2
      cases l with
      | nil => simp [headOr] at h2
      | cons b l =>
        have hb : b = 1 := by simpa [headOr] using h2.symm
        subst hb
        have := h3.1
        rw [e3] at this
        simp at this

/-- C4.  Let the queue of a counter be the valid doubly linked list `q`, with
the cursor invariant of the kernel (`counter->next_to` is `NULL` when `q` is
empty and a member of `q` otherwise; for the insertion only its part "not
`NULL` when `q` is non-empty" is used).  The queue is again a valid doubly
linked list after `tpl_insert_time_obj` of an object that is not in the queue,
after `tpl_remove_time_obj` of a member, and after `tpl_counter_tick` (the
cycles of the members being of type `tpl_tick`).  Each of the calls returns.
Every reachable state satisfies the hypotheses (`reachable_wf`,
`reachable_links_preserved`). -/
theorem c4_links_preserved (cfg : Config) (s : Kernel) (q : List Nat) (hq : IsQueue s q) :
    (∀ t fuel, t ∉ q → q.length < fuel → (q ≠ [] → s.counter.next_to ≠ none) →
      ∃ s1, tpl_insert_time_obj fuel s t = some s1 ∧
        IsQueue s1 (insertByDate s.objs t (s.objs t).date q)) ∧
    (∀ x, x ∈ q → IsQueue (tpl_remove_time_obj s x) (q.erase x)) ∧
    (∀ fuel, q.length < fuel → CursorOK s q →
      (∀ x ∈ q, (s.objs x).cycle < 2 ^ cfg.width) →
      ∃ r q1, tpl_counter_tick cfg fuel s = some r ∧ IsQueue r.kernel q1) := by
  refine ⟨fun t fuel ht hf hc => ?_, fun x hx => ?_, fun fuel hf hc hcyc => ?_⟩
  · have hne : q ≠ [] → ∃ n, s.counter.next_to = some n := by
      intro h
      cases hn : s.counter.next_to with
      | none => exact absurd hn (hc h)
      | some n => exact ⟨n, rfl⟩
    obtain ⟨s1, h1, h2, _⟩ := insert_spec hq ht hf hne
    exact ⟨s1, h1, h2⟩
  · obtain ⟨pre, post, rfl⟩ := List.append_of_mem hx
    rw [erase_split hq.nodup]
    exact (remove_spec hq).1
  · obtain ⟨r, q1, h1, h2, _⟩ := tick_total cfg hq hc hcyc hf
    exact ⟨r, q1, h1, h2⟩

/-- C4, witness: the queue `[0, 1]` of `twoQueue`, with the insertion of
object 2, the removal of object 0 and one tick. -/
theorem c4_links_preserved_witness :
    IsQueue twoQueue [0, 1] ∧
    (∃ s1, tpl_insert_time_obj 3 twoQueue 2 = some s1 ∧
      IsQueue s1 (insertByDate twoQueue.objs 2 (twoQueue.objs 2).date [0, 1])) ∧
    IsQueue (tpl_remove_time_obj twoQueue 0) ([0, 1].erase 0) ∧
    (∃ r q1, tpl_counter_tick cfg8 3 twoQueue = some r ∧ IsQueue r.kernel q1) :=
  have hq : IsQueue twoQueue [0, 1] := ⟨rfl, ⟨rfl, rfl, rfl, rfl, trivial⟩, by decide⟩
  have hc : CursorOK twoQueue [0, 1] := by
    show 0 ∈ [0, 1]
    decide
  have hcyc : ∀ x ∈ [0, 1], (twoQueue.objs x).cycle < 2 ^ cfg8.width := by decide
  have h := c4_links_preserved cfg8 twoQueue [0, 1] hq
  ⟨hq, h.1 2 3 (by decide) (by decide) (fun _ => by decide), h.2.1 0 (by decide),
    h.2.2 3 (by decide) hc hcyc⟩

/-! ## Reachable states are well formed -/

theorem CursorOK.exists_of_ne {s : Kernel} {q : List Nat} (hc : CursorOK s q) (h : q ≠ []) :
    ∃ n, s.counter.next_to = some n ∧ n ∈ q := by
  unfold CursorOK at hc
  cases hn : s.counter.next_to with
  | none => rw [hn] at hc; exact absurd hc h
  | some n => rw [hn] at hc; exact ⟨n, rfl, hc⟩

theorem CursorOK.mem {s : Kernel} {q : List Nat} (hc : CursorOK s q) {n : Nat}
    (hn : s.counter.next_to = some n) : n ∈ q := by
  unfold CursorOK at hc
  rw [hn] at hc
  exact hc

theorem CursorOK.none_iff {s : Kernel} {q : List Nat} (hc : CursorOK s q) :
    s.counter.next_to = none ↔ q = [] := by
  unfold CursorOK at hc
  cases hn : s.counter.next_to with
  | none => rw [hn] at hc; simp [hc]
  | some n =>
    rw [hn] at hc
    constructor
    · intro h; exact absurd h (by simp)
    · rintro rfl
      simp at hc

theorem sleep_ne_active : ALARM_SLEEP ≠ ALARM_ACTIVE := by decide

theorem wf_insert (cfg : Config) {s s1 : Kernel} {q : List Nat} {t date cycle fuel : Nat}
    (hw : WF cfg s q) (hst : (s.objs t).state = ALARM_SLEEP) (hcy : cycle < 2 ^ cfg.width)
    (hi : activate fuel s t date cycle = some s1) :
    WF cfg s1 (insertByDate s.objs t date q) ∧ t ∉ q := by
  have htq : t ∉ q := by
    intro h
    have := hw.active t h
    rw [hst] at this
    exact sleep_ne_active this
  have hq2 : IsQueue { s with objs := set_cycle (set_date s.objs t date) t cycle } q :=
    isQueue_congr (s := s) rfl (fun a _ => by simp) hw.queue
  have hne : q ≠ [] → ∃ n,
      ({ s with objs := set_cycle (set_date s.objs t date) t cycle } : Kernel).counter.next_to
        = some n := by
    intro h
    obtain ⟨n, hn, _⟩ := hw.cursor.exists_of_ne h
    exact ⟨n, hn⟩
  have hlt : q.length < max fuel (q.length + 1) := by omega
  have hle : fuel ≤ max fuel (q.length + 1) := by omega
  obtain ⟨s2, hins, hq3, hcur, -, -, -, hdc, hsto, hstt, -⟩ := insert_spec hq2 htq hlt hne
  have heq : s2 = s1 := by
    have := tpl_insert_time_obj_mono hi hle
    rw [hins] at this
    exact Option.some.inj this
  subst heq
  have hl : insertByDate (set_cycle (set_date s.objs t date) t cycle) t
      ((set_cycle (set_date s.objs t date) t cycle) t).date q = insertByDate s.objs t date q := by
    have : ((set_cycle (set_date s.objs t date) t cycle) t).date = date := by simp
    rw [this]
    exact insertByDate_congr _ _ (fun a ha => by
      have : a ≠ t := fun h => htq (h ▸ ha)
      simp [this])
  rw [hl] at hq3
  refine ⟨⟨hq3, ?_, ?_, ?_⟩, htq⟩
  · unfold CursorOK
    rw [hcur]
    by_cases he : q = []
    · rw [if_pos he]
      exact (mem_insertByDate _ _ _ _ _).2 (Or.inl rfl)
    · rw [if_neg he]
      obtain ⟨n, hn, hnq⟩ := hw.cursor.exists_of_ne he
      have hn2 : ({ s with objs := set_cycle (set_date s.objs t date) t cycle } :
          Kernel).counter.next_to = some n := hn
      rw [hn2]
      simp only [Option.map_some']
      rcases insertCursor_mem
        ({ s with objs := set_cycle (set_date s.objs t date) t cycle } : Kernel).counter.current_date
        ((set_cycle (set_date s.objs t date) t cycle) n).date
        ((set_cycle (set_date s.objs t date) t cycle) t).date n t with h | h
      · rw [h]; exact (mem_insertByDate _ _ _ _ _).2 (Or.inr hnq)
      · rw [h]; exact (mem_insertByDate _ _ _ _ _).2 (Or.inl rfl)
  · intro x hx
    rcases (mem_insertByDate _ _ _ _ _).1 hx with rfl | hx
    · rw [hstt]
      have : ((set_cycle (set_date s.objs x date) x cycle) x).state = ALARM_SLEEP := by
        simp [hst]
      rw [this, active_of_sleep]
    · have hxt : x ≠ t := fun h => htq (h ▸ hx)
      rw [hsto x hxt]
      simpa using hw.active x hx
  · intro x hx
    rw [(hdc x).2]
    rcases (mem_insertByDate _ _ _ _ _).1 hx with rfl | hx
    · simpa using hcy
    · have hxt : x ≠ t := fun h => htq (h ▸ hx)
      simpa [hxt] using hw.cycles x hx

theorem mem_split_ne {pre post : List Nat} {x n : Nat} (h : n ∈ pre ++ x :: post) (hn : n ≠ x) :
    n ∈ pre ++ post := by
  rcases List.mem_append.1 h with h | h
  · exact List.mem_append_left _ h
  · rcases List.mem_cons.1 h with h | h
    · exact absurd h hn
    · exact List.mem_append_right _ h

theorem mem_of_mem_split {pre post : List Nat} {x n : Nat} (h : n ∈ pre ++ post) :
    n ∈ pre ++ x :: post := by
  rcases List.mem_append.1 h with h | h
  · exact List.mem_append_left _ h
  · exact List.mem_append_right _ (List.mem_cons_of_mem _ h)

theorem not_mem_split {pre post : List Nat} {x : Nat} (h : (pre ++ x :: post).Nodup) :
    x ∉ pre ++ post := by
  have h1 := List.nodup_append.1 h
  intro hm
  rcases List.mem_append.1 hm with hm | hm
  · exact h1.2.2 hm (List.mem_cons_self _ _)
  · exact (List.nodup_cons.1 h1.2.1).1 hm

theorem wf_remove (cfg : Config) {s : Kernel} {pre post : List Nat} {x : Nat}
    (hw : WF cfg s (pre ++ x :: post)) : WF cfg (tpl_remove_time_obj s x) (pre ++ post) := by
  obtain ⟨hq1, hcx, hcn, hco, -, -, -, hdc, hst, -, -⟩ := remove_spec hw.queue
  have hxq := not_mem_split hw.queue.nodup
  refine ⟨hq1, ?_, ?_, ?_⟩
  · obtain ⟨n, hn, hnq⟩ := hw.cursor.exists_of_ne (by simp)
    by_cases hnx : n = x
    · subst hnx
      exact cursorOK_of_headOr (hcx hn)
    · unfold CursorOK
      rw [hco n hnx hn]
      exact mem_split_ne hnq hnx
  · intro y hy
    have hyx : y ≠ x := fun h => hxq (h ▸ hy)
    rw [hst y hyx]
    exact hw.active y (mem_of_mem_split hy)
  · intro y hy
    rw [(hdc y).2]
    exact hw.cycles y (mem_of_mem_split hy)

theorem wf_tick (cfg : Config) {s : Kernel} {q : List Nat} {fuel : Nat} {r : TickResult}
    (hw : WF cfg s q) (ht : tpl_counter_tick cfg fuel s = some r) :
    ∃ q1, WF cfg r.kernel q1 ∧ ∀ x, x ∈ q1 → x ∈ q := by
  have hlt : q.length < max fuel (q.length + 1) := by omega
  have hle : fuel ≤ max fuel (q.length + 1) := by omega
  obtain ⟨r1, q1, hr, h1, h2, h3, h4, h5, -, -⟩ :=
    tick_total cfg hw.queue hw.cursor hw.cycles hlt
  have heq : r1 = r := by
    have := tpl_counter_tick_mono cfg ht hle
    rw [hr] at this
    exact Option.some.inj this
  subst heq
  refine ⟨q1, ⟨h1, h2, ?_, ?_⟩, h3⟩
  · intro x hx
    rcases h5 x hx with h | h
    · rw [h]; exact hw.active x (h3 x hx)
    · exact h
  · intro x hx
    rw [h4 x]
    exact hw.cycles x (h3 x hx)

theorem reachable_wf (cfg : Config) {s : Kernel} (h : Reachable cfg s) : ∃ q, WF cfg s q := by
  induction h with
  | init s h1 h2 =>
    refine ⟨[], ⟨h1, trivial, List.nodup_nil⟩, ?_, by simp, by simp⟩
    unfold CursorOK
    rw [h2]
  | insert s s1 t date cycle fuel _ hst _ hcy hi ih =>
    obtain ⟨q, hw⟩ := ih
    exact ⟨_, (wf_insert cfg hw hst hcy hi).1⟩
  | remove s t fuel q1 _ hwalk ht ih =>
    obtain ⟨q, hw⟩ := ih
    have := hw.queue.walk_unique hwalk
    subst this
    obtain ⟨pre, post, rfl⟩ := List.append_of_mem ht
    exact ⟨_, wf_remove cfg hw⟩
  | tick s r fuel _ ht ih =>
    obtain ⟨q, hw⟩ := ih
    obtain ⟨q1, hw1, _⟩ := wf_tick cfg hw ht
    exact ⟨q1, hw1⟩

/-- The state `staleCursor` is not reachable: its cursor is not a member of
its queue. -/
theorem staleCursor_unreachable (cfg : Config) : ¬ Reachable cfg staleCursor := by
  intro h
  obtain ⟨q, hw⟩ := reachable_wf cfg h
  have hq : IsQueue staleCursor [2, 1] := ⟨rfl, ⟨rfl, rfl, rfl, rfl, trivial⟩, by decide⟩
  have he : [2, 1] = q := hw.queue.walk_unique (hq.walk_eq (Nat.lt_succ_self _))
  have hc : (0 : Nat) ∈ q := hw.cursor.mem (n := 0) rfl
  rw [← he] at hc
  exact absurd hc (by decide)

/-- At every reachable state the queue is a valid doubly linked list, and it
is one again after `tpl_insert_time_obj` of a SLEEP object, after
`tpl_remove_time_obj` of a member and after `tpl_counter_tick`; the calls
return. -/
theorem reachable_links_preserved (cfg : Config) {s : Kernel} (h : Reachable cfg s) :
    ∃ q, IsQueue s q ∧
      (∀ t fuel, (s.objs t).state = ALARM_SLEEP → q.length < fuel →
        ∃ s1, tpl_insert_time_obj fuel s t = some s1 ∧
          IsQueue s1 (insertByDate s.objs t (s.objs t).date q)) ∧
      (∀ x, x ∈ q → IsQueue (tpl_remove_time_obj s x) (q.erase x)) ∧
      (∀ fuel, q.length < fuel →
        ∃ r q1, tpl_counter_tick cfg fuel s = some r ∧ IsQueue r.kernel q1) := by
  obtain ⟨q, hw⟩ := reachable_wf cfg h
  refine ⟨q, hw.queue, fun t fuel hst hf => ?_, fun x hx => ?_, fun fuel hf => ?_⟩
  · have htq : t ∉ q := by
      intro hm
      have := hw.active t hm
      rw [hst] at this
      exact sleep_ne_active this
    have hne : q ≠ [] → ∃ n, s.counter.next_to = some n := by
      intro he
      obtain ⟨n, hn, _⟩ := hw.cursor.exists_of_ne he
      exact ⟨n, hn⟩
    obtain ⟨s1, h1, h2, _⟩ := insert_spec hw.queue htq hf hne
    exact ⟨s1, h1, h2⟩
  · obtain ⟨pre, post, rfl⟩ := List.append_of_mem hx
    rw [erase_split hw.queue.nodup]
    exact (remove_spec hw.queue).1
  · obtain ⟨r, q1, h1, h2, _⟩ := tick_total cfg hw.queue hw.cursor hw.cycles hf
    exact ⟨r, q1, h1, h2⟩

/-! ## C5: the cursor is a member of the queue -/

/-- C5.  In every counter state reachable from an empty queue by
`tpl_insert_time_obj` of SLEEP objects, `tpl_remove_time_obj` of queue members
and `tpl_counter_tick`, the walk from `first_to` via the `next_to` links ends
and yields a list `q`; `counter->next_to` is `NULL` exactly when the queue is
empty (`first_to == NULL`, `q = []`), and otherwise it is one of the objects
of `q`. -/
theorem c5_cursor_member (cfg : Config) (s : Kernel) (h : Reachable cfg s) :
    ∃ q, walk s.objs (q.length + 1) s.counter.first_to = some q ∧
      (s.counter.next_to = none ↔ q = []) ∧
      (s.counter.next_to = none ↔ s.counter.first_to = none) ∧
      (∀ n, s.counter.next_to = some n → n ∈ q) := by
  obtain ⟨q, hw⟩ := reachable_wf cfg h
  refine ⟨q, hw.queue.walk_eq (by omega), hw.cursor.none_iff, ?_, fun n hn => hw.cursor.mem hn⟩
  rw [hw.cursor.none_iff, hw.queue.first]
  cases q <;> simp [headOr]

/-- C5, witness: the state reached by inserting object 0 with date 5 and then
object 1 with date 6 at `current_date = 5`. -/
theorem c5_cursor_member_witness :
    Reachable cfg8 stuckState ∧
    ∃ q, walk stuckState.objs (q.length + 1) stuckState.counter.first_to = some q ∧
      (stuckState.counter.next_to = none ↔ q = []) ∧
      (stuckState.counter.next_to = none ↔ stuckState.counter.first_to = none) ∧
      (∀ n, stuckState.counter.next_to = some n → n ∈ q) :=
  have hr : Reachable cfg8 stuckState := stuckCursor_reachable rfl
  ⟨hr, c5_cursor_member cfg8 stuckState hr⟩

/-! ## C6: insert followed by remove can move the cursor -/

theorem tripC_reachable : Reachable cfg8 tripC := by
  have hA : activate 8 (emptyAt 5) 0 5 0 = some tripA := rfl
  have hB : activate 8 tripA 1 8 0 = some tripB := rfl
  have hT : tpl_counter_tick cfg8 8 tripB = some tripTick := rfl
  have rA : Reachable cfg8 tripA :=
    Reachable.insert (emptyAt 5) tripA 0 5 0 8 (Reachable.init _ rfl rfl) rfl (by decide)
      (by decide) hA
  have rB : Reachable cfg8 tripB :=
    Reachable.insert tripA tripB 1 8 0 8 rA (by decide) (by decide) (by decide) hB
  exact Reachable.tick tripB tripTick 8 rB hT

/-- C6, failing input.  At `current_date = 5` object 0 is inserted with date 5
and object 1 with date 8, then one tick moves the date to 6: the reachable
state `tripC` has queue `[0, 1]` and `next_to` on object 0.  Inserting the
SLEEP object 2 with date 7 gives the queue `[0, 2, 1]` with `next_to` on
object 2; removing it at once restores the queue `[0, 1]` and `first_to`, but
leaves `next_to` on object 1, not on object 0. -/
theorem c6_round_trip_moves_cursor :
    Reachable cfg8 tripC ∧ (tripC.objs 2).state = ALARM_SLEEP ∧
    walk tripC.objs 8 tripC.counter.first_to = some [0, 1] ∧
    tripC.counter.next_to = some 0 ∧
    activate 8 tripC 2 7 0 = some tripD ∧
    walk tripD.objs 8 tripD.counter.first_to = some [0, 2, 1] ∧
    walk (tpl_remove_time_obj tripD 2).objs 8 (tpl_remove_time_obj tripD 2).counter.first_to
      = some [0, 1] ∧
    (tpl_remove_time_obj tripD 2).counter.next_to = some 1 :=
  ⟨tripC_reachable, by decide, by decide, by decide, rfl, by decide, by decide, by decide⟩

/-! ## C7: the cursor update rule of tpl_insert_time_obj -/

theorem insertCursor_eq_iff (cd nd td n t : Nat) (h : n ≠ t) :
    insertCursor cd nd td n t = t ↔ specCursorMoves cd nd td := by
  unfold insertCursor specCursorMoves
  by_cases h1 : nd < cd
  · by_cases h2 : td > cd ∨ td < nd
    · rw [if_pos h1, if_pos h2]
      exact ⟨fun _ => Or.inl ⟨h1, h2⟩, fun _ => rfl⟩
    · rw [if_pos h1, if_neg h2]
      constructor
      · intro e; exact absurd e h
      · rintro (⟨_, h3⟩ | ⟨h3, _⟩)
        · exact absurd h3 h2
        · omega
  · by_cases h2 : td > cd ∧ td < nd
    · rw [if_neg h1, if_pos h2]
      exact ⟨fun _ => Or.inr ⟨by omega, h2.1, h2.2⟩, fun _ => rfl⟩
    · rw [if_neg h1, if_neg h2]
      constructor
      · intro e; exact absurd e h
      · rintro (⟨h3, _⟩ | ⟨_, h3, h4⟩)
        · exact absurd h3 h1
        · exact absurd ⟨h3, h4⟩ h2

theorem insert_cursor_of_some {s s1 : Kernel} {t fuel a n : Nat}
    (hfirst : s.counter.first_to = some a) (hn : s.counter.next_to = some n)
    (h : tpl_insert_time_obj fuel s t = some s1) :
    s1.counter.next_to =
      some (insertCursor s.counter.current_date (s.objs n).date (s.objs t).date n t) := by
  unfold tpl_insert_time_obj at h
  simp only [hfirst] at h
  cases hsc : insertScan s.objs (s.objs t).date fuel (some a) none with
  | none => simp [hsc] at h
  | some r =>
    simp only [hsc, hn, Option.some.injEq] at h
    rw [← h]
    simp

/-- C7.  For `tpl_insert_time_obj` of an object `t`:
* if the queue was empty, the call returns with `first_to = next_to = t`;
* if the queue was non-empty with cursor `n = next_to` (`n` is not `t`) and the
  call returns, then afterwards `next_to = t` exactly when either
  `n.date < current_date` and (`t.date > current_date` or `t.date < n.date`),
  or `n.date >= current_date` and `current_date < t.date < n.date`; in every
  other case `next_to` is still `n`.  The dates and the cursor are those
  before the call;
* the call does return when the queue is a valid doubly linked list that does
  not contain `t` and the cursor is not `NULL`. -/
theorem c7_insert_cursor_rule (s : Kernel) (t fuel : Nat) :
    (s.counter.first_to = none →
      ∃ s1, tpl_insert_time_obj fuel s t = some s1 ∧
        s1.counter.first_to = some t ∧ s1.counter.next_to = some t) ∧
    (∀ s1 n, s.counter.first_to ≠ none → s.counter.next_to = some n → n ≠ t →
      tpl_insert_time_obj fuel s t = some s1 →
      (s1.counter.next_to = some t ↔
        specCursorMoves s.counter.current_date (s.objs n).date (s.objs t).date) ∧
      (¬ specCursorMoves s.counter.current_date (s.objs n).date (s.objs t).date →
        s1.counter.next_to = some n)) ∧
    (∀ q, IsQueue s q → t ∉ q → q.length < fuel → s.counter.next_to ≠ none →
      ∃ s1, tpl_insert_time_obj fuel s t = some s1) := by
  refine ⟨fun h => ?_, fun s1 n hfirst hn hnt h => ?_, fun q hq ht hf hc => ?_⟩
  · simp only [tpl_insert_time_obj, h]
    exact ⟨_, rfl, rfl, rfl⟩
  · obtain ⟨a, ha⟩ : ∃ a, s.counter.first_to = some a := by
      cases hx : s.counter.first_to with
      | none => exact absurd hx hfirst
      | some a => exact ⟨a, rfl⟩
    rw [insert_cursor_of_some ha hn h]
    refine ⟨?_, fun hnot => ?_⟩
    · rw [← insertCursor_eq_iff _ _ _ _ _ hnt]
      simp
    · rcases insertCursor_mem s.counter.current_date (s.objs n).date (s.objs t).date n t
        with e | e
      · rw [e]
      · exact absurd ((insertCursor_eq_iff _ _ _ _ _ hnt).1 e) hnot
  · obtain ⟨n, hn⟩ : ∃ n, s.counter.next_to = some n := by
      cases hx : s.counter.next_to with
      | none => exact absurd hx hc
      | some n => exact ⟨n, rfl⟩
    obtain ⟨s1, h1, _⟩ := insert_spec hq ht hf (fun _ => ⟨n, hn⟩)
    exact ⟨s1, h1⟩

/-- C7, witness.  Into the empty queue of `emptyAt 5` object 0 is inserted; in
`tripC` (queue `[0, 1]`, cursor 0 with date 5, `current_date = 6`) object 2 is
inserted, whose date in the heap is 0: the cursor moves to it. -/
theorem c7_insert_cursor_rule_witness :
    (∃ s1, tpl_insert_time_obj 8 (emptyAt 5) 0 = some s1 ∧
        s1.counter.first_to = some 0 ∧ s1.counter.next_to = some 0) ∧
    (∃ s1, tpl_insert_time_obj 8 tripC 2 = some s1 ∧
      (s1.counter.next_to = some 2 ↔
        specCursorMoves tripC.counter.current_date (tripC.objs 0).date (tripC.objs 2).date) ∧
      (¬ specCursorMoves tripC.counter.current_date (tripC.objs 0).date (tripC.objs 2).date →
        s1.counter.next_to = some 0)) := by
  have hq : IsQueue tripC [0, 1] := ⟨rfl, ⟨rfl, rfl, rfl, rfl, trivial⟩, by decide⟩
  refine ⟨(c7_insert_cursor_rule (emptyAt 5) 0 8).1 rfl, ?_⟩
  obtain ⟨s1, h1⟩ := (c7_insert_cursor_rule tripC 2 8).2.2 [0, 1] hq (by decide) (by decide)
    (by decide)
  exact ⟨s1, h1, (c7_insert_cursor_rule tripC 2 8).2.1 s1 0 (by decide) (by decide) (by decide) h1⟩

/-! ## C8: effect of tpl_remove_time_obj on a member -/

/-- C8.  Let the queue be the valid doubly linked list `q`, let `next_to` be
the member `n` and let `x` be a member.  After `tpl_remove_time_obj(x)` the
walk from `first_to` is `q` with `x` erased (the other members in the same
order) and the queue is again a valid list; `next_to` is unchanged if it was
not `x`; if it was `x`, it is the successor of `x` in `q`, or the new
`first_to` when `x` was the last member, which is `NULL` when `x` was the only
member; and `x->state` is `ALARM_SLEEP`. -/
theorem c8_remove_member (s : Kernel) (q : List Nat) (x n : Nat) (hq : IsQueue s q)
    (hn : s.counter.next_to = some n) (hnq : n ∈ q) (hx : x ∈ q) :
    walk s.objs (q.length + 1) s.counter.first_to = some q ∧
    walk (tpl_remove_time_obj s x).objs (q.length + 1) (tpl_remove_time_obj s x).counter.first_to
      = some (q.erase x) ∧
    IsQueue (tpl_remove_time_obj s x) (q.erase x) ∧
    (n ≠ x → (tpl_remove_time_obj s x).counter.next_to = some n) ∧
    (n = x → ∀ pre post, q = pre ++ x :: post →
      (tpl_remove_time_obj s x).counter.next_to =
        headOr post (tpl_remove_time_obj s x).counter.first_to) ∧
    (n = x → q = [x] → (tpl_remove_time_obj s x).counter.next_to = none) ∧
    ((tpl_remove_time_obj s x).objs x).state = ALARM_SLEEP := by
  obtain ⟨pre, post, rfl⟩ := List.append_of_mem hx
  obtain ⟨hq1, hcx, -, hco, -, -, -, -, -, hsl, -⟩ := remove_spec hq
  have he := erase_split hq.nodup
  rw [he]
  have hlen : (pre ++ post).length < (pre ++ x :: post).length + 1 := by
    simp only [List.length_append, List.length_cons]; omega
  refine ⟨hq.walk_eq (by omega), hq1.walk_eq hlen, hq1, fun hne => hco n hne hn, ?_, ?_, hsl⟩
  · rintro rfl pre1 post1 hsplit
    have hx1 : n ∉ pre1 := by
      intro h
      have := hq.nodup
      rw [hsplit] at this
      exact (List.nodup_append.1 this).2.2 h (List.mem_cons_self _ _)
    have hx2 : n ∉ pre := fun h =>
      (List.nodup_append.1 hq.nodup).2.2 h (List.mem_cons_self _ _)
    obtain ⟨e1, e2⟩ : pre = pre1 ∧ post = post1 := by
      have := List.append_inj' hsplit (by
        have h3 := congrArg (List.dropWhile (fun a => decide (a ≠ n))) hsplit
        have d1 : ∀ l : List Nat, n ∉ l → ∀ r, (l ++ n :: r).dropWhile (fun a => decide (a ≠ n))
            = n :: r := by
          intro l hl r
          induction l with
          | nil => simp [List.dropWhile_cons]
          | cons b l ih =>
            have hb : b ≠ n := fun h => hl (h ▸ List.mem_cons_self _ _)
            simp only [List.cons_append, List.dropWhile_cons, hb, ne_eq, not_false_eq_true,
              decide_True, if_true]
            exact ih (fun h => hl (List.mem_cons_of_mem _ h))
        rw [d1 pre hx2, d1 pre1 hx1] at h3
        simpa using congrArg List.length h3)
      exact ⟨this.1, by simpa using this.2⟩
    subst e1 e2
    rw [hcx hn, hq1.first, headOr_append]
    cases post <;> rfl
  · rintro rfl hone
    have hp : pre = [] ∧ post = [] := by
      cases pre with
      | nil => simpa using hone
      | cons a pre =>
        have := congrArg List.length hone
        simp at this
    rw [hcx hn, hp.1, hp.2]
    rfl

/-- C8, witness: the head of the queue `[0, 1]` of `twoQueue`, which is also
the cursor, is removed. -/
theorem c8_remove_member_witness :
    IsQueue twoQueue [0, 1] ∧ twoQueue.counter.next_to = some 0 ∧ 0 ∈ [0, 1] ∧
    walk twoQueue.objs ([0, 1].length + 1) twoQueue.counter.first_to = some [0, 1] ∧
    walk (tpl_remove_time_obj twoQueue 0).objs ([0, 1].length + 1)
      (tpl_remove_time_obj twoQueue 0).counter.first_to = some ([0, 1].erase 0) ∧
    IsQueue (tpl_remove_time_obj twoQueue 0) ([0, 1].erase 0) ∧
    (0 ≠ 0 → (tpl_remove_time_obj twoQueue 0).counter.next_to = some 0) ∧
    (0 = 0 → ∀ pre post, [0, 1] = pre ++ 0 :: post →
      (tpl_remove_time_obj twoQueue 0).counter.next_to =
        headOr post (tpl_remove_time_obj twoQueue 0).counter.first_to) ∧
    (0 = 0 → [0, 1] = [0] → (tpl_remove_time_obj twoQueue 0).counter.next_to = none) ∧
    ((tpl_remove_time_obj twoQueue 0).objs 0).state = ALARM_SLEEP :=
  have hq : IsQueue twoQueue [0, 1] := ⟨rfl, ⟨rfl, rfl, rfl, rfl, trivial⟩, by decide⟩
  ⟨hq, rfl, by decide, c8_remove_member twoQueue [0, 1] 0 0 hq rfl (by decide) (by decide)⟩

/-! ## C9: tpl_remove_time_obj on an object that is not linked -/

theorem staleD_reachable : Reachable cfg8 staleD := by
  have hA : activate 8 (emptyAt 5) 0 1 0 = some staleA := rfl
  have hB : activate 8 staleA 1 2 0 = some staleB := rfl
  have hD : activate 8 staleC 2 1 0 = some staleD := rfl
  have rA : Reachable cfg8 staleA :=
    Reachable.insert (emptyAt 5) staleA 0 1 0 8 (Reachable.init _ rfl rfl) rfl (by decide)
      (by decide) hA
  have rB : Reachable cfg8 staleB :=
    Reachable.insert staleA staleB 1 2 0 8 rA (by decide) (by decide) (by decide) hB
  have rC : Reachable cfg8 staleC :=
    Reachable.remove staleB 0 8 [0, 1] rB (by decide) (by decide)
  exact Reachable.insert staleC staleD 2 1 0 8 rC (by decide) (by decide) (by decide) hD

/-- C9, counterexample.  Insert object 0 (date 1) and object 1 (date 2),
remove object 0, insert object 2 (date 1): the state `staleD` is reachable,
its queue is `[2, 1]` and object 0 is SLEEP, with its old link
`next_to = 1`.  `tpl_remove_time_obj` of object 0 then overwrites `prev_to`
of the queue member 1, which was 2, with `NULL`. -/
theorem c9_counterexample :
    Reachable cfg8 staleD ∧ (staleD.objs 0).state = ALARM_SLEEP ∧
    (staleD.objs 0).state ≠ ALARM_ACTIVE ∧
    walk staleD.objs 8 staleD.counter.first_to = some [2, 1] ∧
    (staleD.objs 1).prev_to = some 2 ∧
    ((tpl_remove_time_obj staleD 0).objs 1).prev_to = none :=
  ⟨staleD_reachable, by decide, by decide, by decide, by decide, by decide⟩

theorem remove_other (s : Kernel) (x m : Nat) (hm : m ≠ x)
    (hn : (s.objs x).next_to ≠ some m) (hp : (s.objs x).prev_to ≠ some m) :
    (tpl_remove_time_obj s x).objs m = s.objs m := by
  have h1 : ∀ v, link_prev s.objs (s.objs x).next_to v m = s.objs m := by
    intro v
    cases hx : (s.objs x).next_to with
    | none => rfl
    | some c =>
      have : m ≠ c := fun h => hn (by rw [hx, h])
      simp [link_prev, set_prev_to_other _ _ _ _ this]
  have h2 : (link_prev s.objs (s.objs x).next_to (s.objs x).prev_to x).prev_to
      = (s.objs x).prev_to := by
    cases hx : (s.objs x).next_to with
    | none => rfl
    | some c =>
      simp only [link_prev, set_prev_to_prev_to]
      split <;> rfl
  show set_state (link_next _ _ _) x ALARM_SLEEP m = s.objs m
  rw [set_state_other _ _ _ _ hm, h2]
  cases hx : (s.objs x).prev_to with
  | none => exact h1 _
  | some p =>
    have : m ≠ p := fun h => hp (by rw [hx, h])
    simp only [link_next]
    rw [set_next_to_other _ _ _ _ this]
    exact h1 _

/-- C9, amended.  In every reachable counter state, for every object `x` whose
state is not ACTIVE: `x` is not in the queue, and `tpl_remove_time_obj(x)`
leaves the counter (`first_to`, `next_to`, the date and the ticks) unchanged,
keeps the date and the cycle of `x`, sets `x->state = ALARM_SLEEP`, and leaves
unchanged every queue member that neither `x->next_to` nor `x->prev_to` points
to.  (The links of `x` may be stale: the object `x->next_to` points to gets its
`prev_to` overwritten, the one `x->prev_to` points to its `next_to`.) -/
theorem c9_remove_not_active (cfg : Config) (s : Kernel) (x : Nat) (h : Reachable cfg s)
    (hx : (s.objs x).state ≠ ALARM_ACTIVE) :
    ∃ q, walk s.objs (q.length + 1) s.counter.first_to = some q ∧ x ∉ q ∧
      (tpl_remove_time_obj s x).counter = s.counter ∧
      ((tpl_remove_time_obj s x).objs x).state = ALARM_SLEEP ∧
      ((tpl_remove_time_obj s x).objs x).date = (s.objs x).date ∧
      ((tpl_remove_time_obj s x).objs x).cycle = (s.objs x).cycle ∧
      (∀ m ∈ q, (s.objs x).next_to ≠ some m → (s.objs x).prev_to ≠ some m →
        (tpl_remove_time_obj s x).objs m = s.objs m) := by
  obtain ⟨q, hw⟩ := reachable_wf cfg h
  have hxq : x ∉ q := fun hm => hx (hw.active x hm)
  have hfirst : s.counter.first_to ≠ some x := by
    rw [hw.queue.first]
    intro e
    exact hxq (headOr_mem (fun y hy => by simp at hy) e)
  have hnext : s.counter.next_to ≠ some x := fun e => hxq (hw.cursor.mem e)
  refine ⟨q, hw.queue.walk_eq (by omega), hxq, ?_, by simp [tpl_remove_time_obj],
    by simp [tpl_remove_time_obj], by simp [tpl_remove_time_obj],
    fun m hm hn hp => remove_other s x m (fun e => hxq (e ▸ hm)) hn hp⟩
  have e1 : (if some x = s.counter.first_to then (s.objs x).next_to else s.counter.first_to)
      = s.counter.first_to := if_neg (fun e => hfirst e.symm)
  have e2 : (if some x = s.counter.next_to then (s.objs x).next_to else s.counter.next_to)
      = s.counter.next_to := if_neg (fun e => hnext e.symm)
  have e3 : (if s.counter.next_to = none then s.counter.first_to else s.counter.next_to)
      = s.counter.next_to := by
    by_cases hn : s.counter.next_to = none
    · rw [if_pos hn, hw.queue.first, hw.cursor.none_iff.1 hn, hn]
      rfl
    · rw [if_neg hn]
  simp only [tpl_remove_time_obj, e1, e2, e3]

/-- C9, witness: object 0 of `staleD` (SLEEP, not linked, `next_to` still
pointing to member 1): the counter and member 2 are unchanged. -/
theorem c9_remove_not_active_witness :
    Reachable cfg8 staleD ∧ (staleD.objs 0).state ≠ ALARM_ACTIVE ∧
    ∃ q, walk staleD.objs (q.length + 1) staleD.counter.first_to = some q ∧ 0 ∉ q ∧
      (tpl_remove_time_obj staleD 0).counter = staleD.counter ∧
      ((tpl_remove_time_obj staleD 0).objs 0).state = ALARM_SLEEP ∧
      ((tpl_remove_time_obj staleD 0).objs 0).date = (staleD.objs 0).date ∧
      ((tpl_remove_time_obj staleD 0).objs 0).cycle = (staleD.objs 0).cycle ∧
      (∀ m ∈ q, (staleD.objs 0).next_to ≠ some m → (staleD.objs 0).prev_to ≠ some m →
        (tpl_remove_time_obj staleD 0).objs m = staleD.objs m) :=
  ⟨staleD_reachable, by decide, c9_remove_not_active cfg8 staleD 0 staleD_reachable (by decide)⟩

/-! ## The expiry loop fires a block of due objects in list order -/

theorem insertByDate_cons (objs : Nat → tpl_time_obj) (t d a : Nat) (l : List Nat) :
    insertByDate objs t d (a :: l) =
      if (objs a).date ≤ d then a :: insertByDate objs t d l else t :: a :: l := rfl

theorem insertByDate_append_le (objs : Nat → tpl_time_obj) (t d : Nat) (l1 l2 : List Nat)
    (h : ∀ x ∈ l1, (objs x).date ≤ d) :
    insertByDate objs t d (l1 ++ l2) = l1 ++ insertByDate objs t d l2 := by
  induction l1 with
  | nil => rfl
  | cons a l ih =>
    have ha := h a (List.mem_cons_self _ _)
    rw [List.cons_append, insertByDate_cons, if_pos ha,
      ih (fun x hx => h x (List.mem_cons_of_mem _ hx)), List.cons_append]

theorem insertByDate_append_gt (objs : Nat → tpl_time_obj) (t d : Nat) (l1 l2 : List Nat)
    (h : ∃ x ∈ l1, d < (objs x).date) :
    insertByDate objs t d (l1 ++ l2) = insertByDate objs t d l1 ++ l2 := by
  induction l1 with
  | nil => obtain ⟨x, hx, _⟩ := h; simp at hx
  | cons a l ih =>
    by_cases ha : (objs a).date ≤ d
    · rw [List.cons_append, insertByDate_cons, insertByDate_cons, if_pos ha, if_pos ha]
      obtain ⟨x, hx, hxd⟩ := h
      rcases List.mem_cons.1 hx with rfl | hx
      · omega
      · rw [ih ⟨x, hx, hxd⟩, List.cons_append]
    · rw [List.cons_append, insertByDate_cons, insertByDate_cons, if_neg ha, if_neg ha]
      rfl

theorem insert_partition (objs : Nat → tpl_time_obj) (b d D : Nat) (lo rest hi : List Nat)
    (hrest : ∀ x ∈ rest, (objs x).date = D) :
    ∃ lo1 hi1, insertByDate objs b d (lo ++ (rest ++ hi)) = lo1 ++ rest ++ hi1 ∧
      (∀ x ∈ lo1, x = b ∨ x ∈ lo) ∧ (∀ x ∈ hi1, x = b ∨ x ∈ hi) := by
  by_cases h1 : ∀ x ∈ lo, (objs x).date ≤ d
  · rw [insertByDate_append_le _ _ _ _ _ h1]
    by_cases h2 : d < D
    · cases rest with
      | nil =>
        refine ⟨lo, insertByDate objs b d hi, by simp, fun x hx => Or.inr hx, fun x hx => ?_⟩
        exact (mem_insertByDate _ _ _ _ _).1 hx
      | cons r rest =>
        have hr : ¬ (objs r).date ≤ d := by
          rw [hrest r (List.mem_cons_self _ _)]; omega
        refine ⟨lo ++ [b], hi, by simp [insertByDate, hr], fun x hx => ?_, fun x hx => Or.inr hx⟩
        rcases List.mem_append.1 hx with h | h
        · exact Or.inr h
        · exact Or.inl (by simpa using h)
    · rw [insertByDate_append_le _ _ _ _ _ (fun x hx => by rw [hrest x hx]; omega)]
      refine ⟨lo, insertByDate objs b d hi, by simp, fun x hx => Or.inr hx, fun x hx => ?_⟩
      exact (mem_insertByDate _ _ _ _ _).1 hx
  · have h3 : ∃ x ∈ lo, d < (objs x).date := by
      by_contra hcon
      exact h1 (fun x hx => by
        by_contra hlt
        exact hcon ⟨x, hx, by omega⟩)
    rw [insertByDate_append_gt _ _ _ _ _ h3]
    refine ⟨insertByDate objs b d lo, hi, by simp, fun x hx => ?_, fun x hx => Or.inr hx⟩
    exact (mem_insertByDate _ _ _ _ _).1 hx

theorem tickLoop_block (cfg : Config) (D : Nat) (hD : D < 2 ^ cfg.width) (scan : Nat) :
    ∀ (blk : List Nat) (s : Kernel) (lo hi : List Nat) (need fuel : Nat),
      IsQueue s (lo ++ blk ++ hi) → CursorOK s (lo ++ blk ++ hi) →
      s.counter.current_date = D →
      (∀ x ∈ lo, (s.objs x).date ≠ D) → (∀ x ∈ blk, (s.objs x).date = D) →
      (∀ x ∈ hi, (s.objs x).date ≠ D) →
      (blk ≠ [] → s.counter.next_to = headOr blk none) →
      (∀ x ∈ blk, (s.objs x).cycle < 2 ^ cfg.width) →
      (lo ++ blk ++ hi).length < scan → blk.length < fuel →
      ∃ r, tickLoop cfg scan D fuel s need = some r ∧ r.fired = blk := by
  intro blk
  induction blk with
  | nil =>
    intro s lo hi need fuel _ hc _ hlo _ hhi _ _ _ hf
    obtain ⟨f, rfl⟩ : ∃ f, fuel = f + 1 := ⟨fuel - 1, by simp at hf; omega⟩
    refine ⟨⟨s, need, []⟩, ?_, rfl⟩
    simp only [tickLoop]
    cases hn : s.counter.next_to with
    | none => rfl
    | some n =>
      have hm := hc.mem hn
      have : (s.objs n).date ≠ D := by
        simp only [List.append_nil] at hm
        rcases List.mem_append.1 hm with h | h
        · exact hlo n h
        · exact hhi n h
      simp [this]
  | cons b rest ih =>
    intro s lo hi need fuel hq hc hcd hlo hblk hhi hcur hcyc hsc hf
    obtain ⟨f, rfl⟩ : ∃ f, fuel = f + 1 := ⟨fuel - 1, by simp at hf; omega⟩
    have hshape : lo ++ b :: rest ++ hi = lo ++ b :: (rest ++ hi) := by simp
    rw [hshape] at hq hc hsc
    have hn : s.counter.next_to = some b := hcur (by simp)
    have hdb : (s.objs b).date = D := hblk b (List.mem_cons_self _ _)
    have hbq := not_mem_split hq.nodup
    have hlen : (lo ++ (rest ++ hi)).length < scan := by
      simp only [List.length_append, List.length_cons] at hsc ⊢; omega
    obtain ⟨s1, q1, hloop, hq1, hc1, hcase, hcurs, hoth, hcy1, -, -, -, hcd1⟩ :=
      tick_iter cfg f need hq hn (hcyc b (List.mem_cons_self _ _)) (hdb ▸ hD) hlen
    rw [hdb] at hloop hcurs
    have hrest_ne : ∀ x ∈ rest, x ≠ b := fun x hx e =>
      hbq (e ▸ List.mem_append_right _ (List.mem_append_left _ hx))
    have hlo_ne : ∀ x ∈ lo, x ≠ b := fun x hx e => hbq (e ▸ List.mem_append_left _ hx)
    have hhi_ne : ∀ x ∈ hi, x ≠ b := fun x hx e =>
      hbq (e ▸ List.mem_append_right _ (List.mem_append_right _ hx))
    have hrestD : ∀ x ∈ rest, (s.objs x).date = D := fun x hx =>
      hblk x (List.mem_cons_of_mem _ hx)
    obtain ⟨lo1, hi1, hq1eq, hlo1, hhi1⟩ :
        ∃ lo1 hi1, q1 = lo1 ++ rest ++ hi1 ∧ (∀ x ∈ lo1, (s1.objs x).date ≠ D) ∧
          (∀ x ∈ hi1, (s1.objs x).date ≠ D) := by
      rcases hcase with ⟨_, rfl, _⟩ | ⟨_, rfl, _, _, hne⟩
      · exact ⟨lo, hi, by simp, fun x hx => by rw [(hoth x (hlo_ne x hx)).1]; exact hlo x hx,
          fun x hx => by rw [(hoth x (hhi_ne x hx)).1]; exact hhi x hx⟩
      · rw [hdb] at hne
        obtain ⟨lo1, hi1, he, h1, h2⟩ :=
          insert_partition s.objs b (s1.objs b).date D lo rest hi hrestD
        refine ⟨lo1, hi1, he, fun x hx => ?_, fun x hx => ?_⟩
        · rcases h1 x hx with rfl | h
          · exact hne
          · rw [(hoth x (hlo_ne x h)).1]; exact hlo x h
        · rcases h2 x hx with rfl | h
          · exact hne
          · rw [(hoth x (hhi_ne x h)).1]; exact hhi x h
    subst hq1eq
    have hlen1 : (lo1 ++ rest ++ hi1).length < scan := by
      rcases hcase with ⟨_, he, _⟩ | ⟨_, he, _⟩
      · rw [he]; exact hlen
      · rw [he, length_insertByDate]
        simp only [List.length_append, List.length_cons] at hsc ⊢; omega
    obtain ⟨r, hr, hfired⟩ := ih s1 lo1 hi1 (need ||| (cfg.TRAMPOLINE_STATUS_MASK &&& cfg.expire b))
      f hq1 hc1 (hcd1.trans hcd) hlo1
      (fun x hx => by rw [(hoth x (hrest_ne x hx)).1]; exact hrestD x hx) hhi1
      (fun hne => by
        cases rest with
        | nil => exact absurd rfl hne
        | cons c rest =>
          exact hcurs (hcd.trans rfl) c rfl (hrestD c (List.mem_cons_self _ _)))
      (fun x hx => by rw [hcy1 x]; exact hcyc x (List.mem_cons_of_mem _ hx))
      hlen1 (by simp only [List.length_cons] at hf; omega)
    exact ⟨{ r with fired := b :: r.fired }, by rw [hloop, hr]; rfl, by rw [← hfired]⟩

/-! ## C10: objects of one date fire in insertion order -/

theorem insertCursor_same_date (cd d n t : Nat) : insertCursor cd d d n t = n := by
  unfold insertCursor
  split
  · rw [if_neg (by omega)]
  · rw [if_neg (by omega)]

theorem insertByDate_all_le (objs : Nat → tpl_time_obj) (t d : Nat) (q : List Nat)
    (h : ∀ x ∈ q, (objs x).date ≤ d) : insertByDate objs t d q = q ++ [t] := by
  have := insertByDate_append_le objs t d q [] h
  rw [List.append_nil] at this
  rw [this]
  rfl

theorem insertAll_same_date (fuel E : Nat) (ts : List Nat) :
    ∀ (s : Kernel) (q : List Nat) (n : Nat), IsQueue s q → q ≠ [] →
      s.counter.next_to = some n → (s.objs n).date = E → (∀ x ∈ q, (s.objs x).date = E) →
      (∀ t ∈ ts, (s.objs t).date = E ∧ t ∉ q) → ts.Nodup → q.length + ts.length < fuel →
      ∃ s1, insertAll fuel s ts = some s1 ∧ IsQueue s1 (q ++ ts) ∧
        s1.counter.next_to = some n ∧
        (∀ i, (s1.objs i).date = (s.objs i).date ∧ (s1.objs i).cycle = (s.objs i).cycle) ∧
        s1.counter.current_tick = s.counter.current_tick ∧
        s1.counter.ticks_per_base = s.counter.ticks_per_base ∧
        s1.counter.current_date = s.counter.current_date := by
  induction ts with
  | nil =>
    intro s q n hq _ hn _ _ _ _ _
    exact ⟨s, rfl, by simpa using hq, hn, fun _ => ⟨rfl, rfl⟩, rfl, rfl, rfl⟩
  | cons t ts ih =>
    intro s q n hq hne hn hnd hqd hts hnodup hf
    rw [List.nodup_cons] at hnodup
    obtain ⟨htd, htq⟩ := hts t (List.mem_cons_self _ _)
    obtain ⟨s1, hins, hq1, hcur1, hct1, htpb1, hcd1, hdc1, -⟩ :=
      insert_spec hq htq (by simp only [List.length_cons] at hf; omega : q.length < fuel)
        (fun _ => ⟨n, hn⟩)
    rw [htd, insertByDate_all_le _ _ _ _ (fun x hx => le_of_eq (hqd x hx))] at hq1
    rw [if_neg hne, hn] at hcur1
    simp only [Option.map_some'] at hcur1
    rw [hnd, htd, insertCursor_same_date] at hcur1
    obtain ⟨s2, hall, hq2, hcur2, hdc2, hct2, htpb2, hcd2⟩ := ih s1 (q ++ [t]) n hq1 (by simp) hcur1
      (by rw [(hdc1 n).1]; exact hnd)
      (fun x hx => by
        rw [(hdc1 x).1]
        rcases List.mem_append.1 hx with h | h
        · exact hqd x h
        · have : x = t := by simpa using h
          rw [this]; exact htd)
      (fun u hu => ⟨by rw [(hdc1 u).1]; exact (hts u (List.mem_cons_of_mem _ hu)).1, fun h => by
        rcases List.mem_append.1 h with h | h
        · exact (hts u (List.mem_cons_of_mem _ hu)).2 h
        · have : u = t := by simpa using h
          exact hnodup.1 (this ▸ hu)⟩)
      hnodup.2 (by simp only [List.length_append, List.length_cons, List.length_nil] at hf ⊢; omega)
    refine ⟨s2, by simp only [insertAll, hins, Option.some_bind, hall], by simpa using hq2, hcur2,
      fun i => ⟨(hdc2 i).1.trans (hdc1 i).1, (hdc2 i).2.trans (hdc1 i).2⟩, hct2.trans hct1,
      htpb2.trans htpb1, hcd2.trans hcd1⟩

/-- C10.  Let the queue be empty, `1 <= ticks_per_base`,
`current_tick = ticks_per_base - 1` and `current_date = D`, and let the
pairwise distinct objects `ts = [A1, ..., Ak]` (`k >= 1`, any cycles of type
`tpl_tick`) all have the date `(D + 1) mod 2 ^ width`.  After they are inserted
in this order, the next `tpl_counter_tick` returns and has called the `expire`
hook of every `Ai` exactly once, in the order `A1, ..., Ak`. -/
theorem c10_simultaneous_fifo (cfg : Config) (s0 : Kernel) (ts : List Nat)
    (h0 : s0.counter.first_to = none) (hts : ts ≠ []) (hnd : ts.Nodup)
    (htpb1 : 1 ≤ s0.counter.ticks_per_base)
    (htpb : s0.counter.ticks_per_base < 2 ^ cfg.width)
    (htick : s0.counter.current_tick = s0.counter.ticks_per_base - 1)
    (hdate : ∀ t ∈ ts, (s0.objs t).date = (s0.counter.current_date + 1) % 2 ^ cfg.width)
    (hcyc : ∀ t ∈ ts, (s0.objs t).cycle < 2 ^ cfg.width) :
    ∃ s r, insertAll (ts.length + 1) s0 ts = some s ∧
      tpl_counter_tick cfg (ts.length + 1) s = some r ∧
      r.fired = ts ∧ ∀ t ∈ ts, r.fired.count t = 1 := by
  cases ts with
  | nil => exact absurd rfl hts
  | cons a ts =>
    rw [List.nodup_cons] at hnd
    have hq0 : IsQueue s0 [] := ⟨h0, trivial, List.nodup_nil⟩
    have hta : a ∉ ([] : List Nat) := by simp
    have hlt : ([] : List Nat).length < (a :: ts).length + 1 := by simp
    obtain ⟨s1, hins, hq1, hcur1, hct1, htpb1', hcd1, hdc1, -⟩ :=
      insert_spec hq0 hta hlt (fun h => absurd rfl h)
    rw [if_pos rfl] at hcur1
    have hE := hdate a (List.mem_cons_self _ _)
    obtain ⟨s2, hall, hq2, hcur2, hdc2, hct2, htpb2, hcd2⟩ :=
      insertAll_same_date ((a :: ts).length + 1) ((s0.counter.current_date + 1) % 2 ^ cfg.width)
        ts s1 [a] a hq1 (by simp) hcur1 (by rw [(hdc1 a).1]; exact hE)
        (fun x hx => by
          have : x = a := by simpa using hx
          rw [this, (hdc1 a).1]; exact hE)
        (fun t ht => ⟨by rw [(hdc1 t).1]; exact hdate t (List.mem_cons_of_mem _ ht), fun h => by
          have : t = a := by simpa using h
          exact hnd.1 (this ▸ ht)⟩)
        hnd.2 (by simp only [List.length_cons, List.length_nil]; omega)
    have hq2' : IsQueue s2 (a :: ts) := by simpa using hq2
    have hdates : ∀ x ∈ a :: ts, (s2.objs x).date = (s0.counter.current_date + 1) % 2 ^ cfg.width :=
      fun x hx => by rw [(hdc2 x).1, (hdc1 x).1]; exact hdate x hx
    have hcycs : ∀ x ∈ a :: ts, (s2.objs x).cycle < 2 ^ cfg.width :=
      fun x hx => by rw [(hdc2 x).2, (hdc1 x).2]; exact hcyc x hx
    have hroll : (s2.counter.current_tick + 1) % 2 ^ cfg.width = s2.counter.ticks_per_base := by
      rw [hct2, hct1, htpb2, htpb1', htick]
      have : s0.counter.ticks_per_base - 1 + 1 = s0.counter.ticks_per_base := by omega
      rw [this, Nat.mod_eq_of_lt htpb]
    have hcd : s2.counter.current_date = s0.counter.current_date := hcd2.trans hcd1
    have hqr : IsQueue (rollover cfg s2) ([] ++ (a :: ts) ++ []) := by
      have : IsQueue (rollover cfg s2) (a :: ts) :=
        isQueue_congr (s := s2) rfl (fun _ _ => ⟨rfl, rfl⟩) hq2'
      simpa using this
    have hnr : (rollover cfg s2).counter.next_to = some a := hcur2
    have hcr : CursorOK (rollover cfg s2) ([] ++ (a :: ts) ++ []) := by
      unfold CursorOK
      rw [hnr]
      simp
    have hrd : (rollover cfg s2).counter.current_date =
        (s0.counter.current_date + 1) % 2 ^ cfg.width := by
      show (s2.counter.current_date + 1) % 2 ^ cfg.width = _
      rw [hcd]
    obtain ⟨r, hr, hfired⟩ := tickLoop_block cfg ((s0.counter.current_date + 1) % 2 ^ cfg.width)
      (Nat.mod_lt _ (by positivity)) ((a :: ts).length + 1) (a :: ts)
      (rollover cfg s2) [] [] cfg.NO_SPECIAL_CODE ((a :: ts).length + 1) hqr hcr hrd
      (by simp) hdates (by simp) (fun _ => hnr) hcycs (by simp) (by simp)
    refine ⟨s2, r, by simp only [insertAll, hins, Option.some_bind, hall], ?_, hfired, ?_⟩
    · unfold tpl_counter_tick
      simp only [hroll, if_true]
      rw [hrd]
      exact hr
    · intro t ht
      rw [hfired]
      exact List.count_eq_one_of_mem (List.nodup_cons.2 hnd) ht

/-- C10, witness: objects 0, 1, 2 of `sameDate`, all of date 6, with cycles 0,
4 and 253, inserted at `current_date = 5`. -/
theorem c10_simultaneous_fifo_witness :
    sameDate.counter.first_to = none ∧ [0, 1, 2] ≠ [] ∧ [0, 1, 2].Nodup ∧
    1 ≤ sameDate.counter.ticks_per_base ∧ sameDate.counter.ticks_per_base < 2 ^ cfg8.width ∧
    sameDate.counter.current_tick = sameDate.counter.ticks_per_base - 1 ∧
    (∀ t ∈ [0, 1, 2],
      (sameDate.objs t).date = (sameDate.counter.current_date + 1) % 2 ^ cfg8.width) ∧
    (∀ t ∈ [0, 1, 2], (sameDate.objs t).cycle < 2 ^ cfg8.width) ∧
    ∃ s r, insertAll ([0, 1, 2].length + 1) sameDate [0, 1, 2] = some s ∧
      tpl_counter_tick cfg8 ([0, 1, 2].length + 1) s = some r ∧
      r.fired = [0, 1, 2] ∧ ∀ t ∈ [0, 1, 2], r.fired.count t = 1 :=
  ⟨rfl, by decide, by decide, by decide, by decide, rfl, by decide, by decide,
    c10_simultaneous_fifo cfg8 sameDate [0, 1, 2] rfl (by decide) (by decide) (by decide)
      (by decide) rfl (by decide) (by decide)⟩

/-! ## One iteration of the expiry loop, with the exact cursor -/

theorem tick_iter_full (cfg : Config) {s : Kernel} {pre post : List Nat} {t scan : Nat}
    (fuel need : Nat)
    (hq : IsQueue s (pre ++ t :: post)) (hn : s.counter.next_to = some t)
    (hcyc : (s.objs t).cycle < 2 ^ cfg.width) (hd : (s.objs t).date < 2 ^ cfg.width)
    (hs : (pre ++ post).length < scan) :
    ∃ s1 q1,
      tickLoop cfg scan (s.objs t).date (fuel + 1) s need =
        (tickLoop cfg scan (s.objs t).date fuel s1
          (need ||| (cfg.TRAMPOLINE_STATUS_MASK &&& cfg.expire t))).map
          (fun r => { r with fired := t :: r.fired }) ∧
      IterStep cfg s pre t post s1 q1 := by
  obtain ⟨hq1, hcx, -, -, hct, htpb, hcd, hdc, hst, hsl, hfr⟩ := remove_spec hq
  have hcur1 := hcx hn
  have hcok1 : CursorOK (tpl_remove_time_obj s t) (pre ++ post) := cursorOK_of_headOr hcur1
  have htq : t ∉ pre ++ post := not_mem_split hq.nodup
  by_cases hc : (s.objs t).cycle = 0
  · refine ⟨tpl_remove_time_obj s t, pre ++ post, ?_, hq1, hcok1,
      Or.inl ⟨hc, rfl, hsl, (hdc t).1, hcur1⟩, fun i hi => ⟨(hdc i).1, hst i hi⟩,
      fun i => (hdc i).2, hfr, hct, htpb, hcd⟩
    simp only [tickLoop, hn, if_true, (hdc t).2, hc, ne_eq, not_true_eq_false, if_false]
  · have hq2 : IsQueue (rearm cfg (tpl_remove_time_obj s t) t) (pre ++ post) :=
      isQueue_congr (s := tpl_remove_time_obj s t) rfl (fun a _ => by simp [rearm]) hq1
    have hne : pre ++ post ≠ [] →
        ∃ n, (rearm cfg (tpl_remove_time_obj s t) t).counter.next_to = some n := by
      intro h
      obtain ⟨n, hn1, _⟩ := hcok1.exists_of_ne h
      exact ⟨n, hn1⟩
    obtain ⟨s3, hins, hq3, hcur3, hct3, htpb3, hcd3, hdc3, hst3, hstt3, hfr3⟩ :=
      insert_spec hq2 htq hs hne
    have hdate2 : ((rearm cfg (tpl_remove_time_obj s t) t).objs t).date =
        ((s.objs t).date + (s.objs t).cycle) % 2 ^ cfg.width := by
      simp [rearm, (hdc t).1, (hdc t).2]
    have hdateo : ∀ i, i ≠ t → ((rearm cfg (tpl_remove_time_obj s t) t).objs i).date =
        (s.objs i).date := by
      intro i hi
      simp [rearm, hi, (hdc i).1]
    have hq3eq : insertByDate (rearm cfg (tpl_remove_time_obj s t) t).objs t
        ((rearm cfg (tpl_remove_time_obj s t) t).objs t).date (pre ++ post) =
        insertByDate s.objs t (s3.objs t).date (pre ++ post) := by
      rw [(hdc3 t).1]
      exact insertByDate_congr _ _ (fun a ha => hdateo a (fun h => htq (h ▸ ha)))
    rw [hq3eq] at hq3
    have hcok3 : CursorOK s3 (insertByDate s.objs t (s3.objs t).date (pre ++ post)) := by
      unfold CursorOK
      rw [hcur3]
      by_cases he : pre ++ post = []
      · rw [if_pos he]
        exact (mem_insertByDate _ _ _ _ _).2 (Or.inl rfl)
      · rw [if_neg he]
        obtain ⟨n, hn2, hnm⟩ := hcok1.exists_of_ne he
        have hn3 : (rearm cfg (tpl_remove_time_obj s t) t).counter.next_to = some n := hn2
        rw [hn3]
        simp only [Option.map_some']
        rcases insertCursor_mem (rearm cfg (tpl_remove_time_obj s t) t).counter.current_date
          ((rearm cfg (tpl_remove_time_obj s t) t).objs n).date
          ((rearm cfg (tpl_remove_time_obj s t) t).objs t).date n t with h | h
        · rw [h]; exact (mem_insertByDate _ _ _ _ _).2 (Or.inr hnm)
        · rw [h]; exact (mem_insertByDate _ _ _ _ _).2 (Or.inl rfl)
    have hstate : (s3.objs t).state = ALARM_ACTIVE := by
      rw [hstt3]
      have : ((rearm cfg (tpl_remove_time_obj s t) t).objs t).state = ALARM_SLEEP := by
        simp [rearm, hsl]
      rw [this, active_of_sleep]
    have hcursor : s3.counter.next_to =
        if pre ++ post = [] then some t
        else (headOr post (headOr pre none)).map (fun n =>
          insertCursor s.counter.current_date (s.objs n).date (s3.objs t).date n t) := by
      rw [hcur3]
      by_cases he : pre ++ post = []
      · rw [if_pos he, if_pos he]
      · rw [if_neg he, if_neg he]
        obtain ⟨n, hn2, hnm⟩ := hcok1.exists_of_ne he
        have hn3 : (rearm cfg (tpl_remove_time_obj s t) t).counter.next_to = some n := hn2
        have hnt : n ≠ t := fun h => htq (h ▸ hnm)
        have hcd2 : (rearm cfg (tpl_remove_time_obj s t) t).counter.current_date
            = s.counter.current_date := hcd
        rw [hn3, ← hcur1, hn2]
        simp only [Option.map_some']
        rw [hcd2, hdateo n hnt, (hdc3 t).1]
    refine ⟨s3, _, ?_, hq3, hcok3, Or.inr ⟨hc, rfl, hstate, ?_, ?_, hcursor⟩, ?_, ?_, ?_,
      hct3.trans hct, htpb3.trans htpb, hcd3.trans hcd⟩
    · simp only [tickLoop, hn, if_true, (hdc t).2, hc, ne_eq, not_false_eq_true, hins]
    · rw [(hdc3 t).1, hdate2]
    · rw [(hdc3 t).1, hdate2]
      exact rearm_ne hd hc hcyc
    · intro i hi
      refine ⟨by rw [(hdc3 i).1, hdateo i hi], ?_⟩
      rw [hst3 i hi]
      simp [rearm, hst i hi]
    · intro i
      rw [(hdc3 i).2]
      simp [rearm, (hdc i).2]
    · intro i hi
      have hit : i ≠ t := fun h => hi (List.mem_append_right _ (h ▸ List.mem_cons_self _ _))
      have hi2 : i ∉ pre ++ post := fun h => hi (mem_of_mem_split h)
      rw [hfr3 i hi2 hit]
      show set_date _ t _ i = _
      rw [set_date_other _ _ _ _ hit, hfr i hi]

/-- Induction over the expiry loop of a well-formed queue: a property `P` of
(initial state, initial queue, result, final queue) that holds when the loop
stops at once and is carried backwards over one iteration holds for the whole
loop, which returns. -/
theorem tickLoop_induct (cfg : Config) (D : Nat) (hD : D < 2 ^ cfg.width) (scan : Nat)
    (P : Kernel → List Nat → TickResult → List Nat → Prop)
    (hbase : ∀ s q need, IsQueue s q → CursorOK s q →
      (∀ n, s.counter.next_to = some n → (s.objs n).date ≠ D) → P s q ⟨s, need, []⟩ q)
    (hstep : ∀ s pre t post s1 q1 r q2, IsQueue s (pre ++ t :: post) →
      s.counter.next_to = some t → (s.objs t).date = D →
      IterStep cfg s pre t post s1 q1 → P s1 q1 r q2 →
      P s (pre ++ t :: post) { r with fired := t :: r.fired } q2) :
    ∀ (k : Nat) (s : Kernel) (q : List Nat) (need fuel : Nat),
      IsQueue s q → CursorOK s q → (∀ x ∈ q, (s.objs x).cycle < 2 ^ cfg.width) →
      dueCount s.objs D q ≤ k → q.length < scan → k < fuel →
      ∃ r q1, tickLoop cfg scan D fuel s need = some r ∧ P s q r q1 := by
  intro k
  induction k with
  | zero =>
    intro s q need fuel hq hc _ hk _ hf
    obtain ⟨f, rfl⟩ : ∃ f, fuel = f + 1 := ⟨fuel - 1, by omega⟩
    have hno : ∀ n, s.counter.next_to = some n → (s.objs n).date ≠ D := by
      intro n hn h
      obtain ⟨pre, post, rfl⟩ := List.append_of_mem (hc.mem hn)
      rw [dueCount_split _ _ _ _ _ h] at hk
      omega
    refine ⟨⟨s, need, []⟩, q, ?_, hbase s q need hq hc hno⟩
    simp only [tickLoop]
    cases hn : s.counter.next_to with
    | none => rfl
    | some t => simp [hno t hn]
  | succ k ih =>
    intro s q need fuel hq hc hcyc hk hsc hf
    obtain ⟨f, rfl⟩ : ∃ f, fuel = f + 1 := ⟨fuel - 1, by omega⟩
    by_cases hno : ∀ n, s.counter.next_to = some n → (s.objs n).date ≠ D
    · refine ⟨⟨s, need, []⟩, q, ?_, hbase s q need hq hc hno⟩
      simp only [tickLoop]
      cases hn : s.counter.next_to with
      | none => rfl
      | some t => simp [hno t hn]
    · obtain ⟨t, hn, hdt⟩ : ∃ t, s.counter.next_to = some t ∧ (s.objs t).date = D := by
        by_contra hcon
        exact hno (fun n hn h => hcon ⟨n, hn, h⟩)
      have htq : t ∈ q := hc.mem hn
      obtain ⟨pre, post, rfl⟩ := List.append_of_mem htq
      have hlen : (pre ++ post).length < scan := by
        simp only [List.length_append, List.length_cons] at hsc ⊢; omega
      obtain ⟨s1, q1, hloop, hit⟩ :=
        tick_iter_full cfg f need hq hn (hcyc t htq) (hdt ▸ hD) hlen
      rw [hdt] at hloop
      rw [dueCount_split _ _ _ _ _ hdt] at hk
      have htnot := not_mem_split hq.nodup
      have hdates : ∀ a ∈ pre ++ post, (s1.objs a).date = (s.objs a).date :=
        fun a ha => (hit.others a (fun h => htnot (h ▸ ha))).1
      have hsub : ∀ x, x ∈ q1 → x ∈ pre ++ t :: post := by
        intro x hx
        rcases hit.shape with ⟨_, he, _⟩ | ⟨_, he, _⟩
        · rw [he] at hx; exact mem_of_mem_split hx
        · rw [he] at hx
          rcases (mem_insertByDate _ _ _ _ _).1 hx with h | h
          · exact List.mem_append_right _ (h ▸ List.mem_cons_self _ _)
          · exact mem_of_mem_split h
      have hdue : dueCount s1.objs D q1 ≤ k := by
        rcases hit.shape with ⟨_, he, _⟩ | ⟨_, he, _, _, hne, _⟩
        · rw [he, dueCount_congr D hdates]; omega
        · rw [he, dueCount_insert _ _ _ _ _ _ (hdt ▸ hne), dueCount_congr D hdates]; omega
      have hlen1 : q1.length < scan := by
        rcases hit.shape with ⟨_, he, _⟩ | ⟨_, he, _⟩
        · rw [he]; exact hlen
        · rw [he, length_insertByDate]
          simp only [List.length_append, List.length_cons] at hsc ⊢; omega
      have hcyc1 : ∀ x ∈ q1, (s1.objs x).cycle < 2 ^ cfg.width := by
        intro x hx
        rw [hit.cycles x]
        exact hcyc x (hsub x hx)
      obtain ⟨r, q2, hr, hP⟩ :=
        ih s1 q1 (need ||| (cfg.TRAMPOLINE_STATUS_MASK &&& cfg.expire t)) f hit.queue hit.cursor
          hcyc1 hdue hlen1 (by omega)
      exact ⟨{ r with fired := t :: r.fired }, q2, by rw [hloop, hr]; rfl,
        hstep s pre t post s1 q1 r q2 hq hn hdt hit hP⟩

/-! ## Effect of the expiry loop -/

theorem dateSorted_congr {objs objs1 : Nat → tpl_time_obj} {l : List Nat}
    (h : ∀ a ∈ l, (objs1 a).date = (objs a).date) (hs : DateSorted objs l) :
    DateSorted objs1 l := by
  unfold DateSorted at hs ⊢
  refine List.Pairwise.imp_of_mem (fun {a b} ha hb hab => ?_) hs
  rw [h a ha, h b hb]
  exact hab

theorem dateSorted_split {objs : Nat → tpl_time_obj} {pre post : List Nat} {t : Nat}
    (hs : DateSorted objs (pre ++ t :: post)) : DateSorted objs (pre ++ post) := by
  unfold DateSorted at hs ⊢
  exact hs.sublist (List.Sublist.append (List.Sublist.refl pre) (List.sublist_cons_self t post))

theorem filter_insertByDate_of_false (objs : Nat → tpl_time_obj) (t d : Nat) (l : List Nat)
    (p : Nat → Bool) (hp : p t = false) :
    (insertByDate objs t d l).filter p = l.filter p := by
  rw [insertByDate_eq, List.filter_append, List.filter_cons, hp]
  simp only [Bool.false_eq_true, if_false]
  rw [← List.filter_append, List.takeWhile_append_dropWhile]

theorem filter_split_of_false (pre post : List Nat) (t : Nat) (p : Nat → Bool)
    (hp : p t = false) : (pre ++ t :: post).filter p = (pre ++ post).filter p := by
  rw [List.filter_append, List.filter_cons, hp, List.filter_append]
  simp

theorem sublist_pair_insertByDate (objs : Nat → tpl_time_obj) (t d y : Nat) (l : List Nat)
    (hs : DateSorted objs l) (hy : y ∈ l) (hd : (objs y).date ≤ d) :
    List.Sublist [y, t] (insertByDate objs t d l) := by
  induction l with
  | nil => simp at hy
  | cons a l ih =>
    unfold DateSorted at hs
    rw [List.pairwise_cons] at hs
    rw [insertByDate_cons]
    by_cases ha : (objs a).date ≤ d
    · rw [if_pos ha]
      rcases List.mem_cons.1 hy with rfl | hy
      · exact List.Sublist.cons₂ _
          (List.singleton_sublist.2 ((mem_insertByDate _ _ _ _ _).2 (Or.inl rfl)))
      · exact List.Sublist.cons _ (ih hs.2 hy)
    · exfalso
      rcases List.mem_cons.1 hy with rfl | hy
      · exact ha hd
      · have := hs.1 y hy
        omega

theorem tickPost_base (cfg : Config) (D : Nat) (s : Kernel) (q : List Nat) (need : Nat)
    (hq : IsQueue s q) (hc : CursorOK s q) : TickPost cfg D s.objs q ⟨s, need, []⟩ q where
  queue := hq
  cursor := hc
  fired_nodup := List.nodup_nil
  fired_due := fun x hx => by simp at hx
  keep := fun _ _ => ⟨rfl, rfl⟩
  cycle := fun _ => rfl
  oneshot := fun x hx => by simp at hx
  cyclic := fun x hx => by simp at hx
  members := fun x => by simp
  order := rfl
  sorted := fun h => h
  fifo := fun _ x hx => by simp at hx
  frame := fun _ _ => rfl

theorem tickPost_step (cfg : Config) (D : Nat) (s : Kernel) (pre : List Nat) (t : Nat)
    (post : List Nat) (s1 : Kernel) (q1 : List Nat) (r : TickResult) (q2 : List Nat)
    (hq : IsQueue s (pre ++ t :: post)) (hdt : (s.objs t).date = D)
    (hit : IterStep cfg s pre t post s1 q1) (hP : TickPost cfg D s1.objs q1 r q2) :
    TickPost cfg D s.objs (pre ++ t :: post) { r with fired := t :: r.fired } q2 := by
  have htnot : t ∉ pre ++ post := not_mem_split hq.nodup
  have hsub1 : ∀ x, x ∈ q1 → x ∈ pre ++ t :: post := by
    intro x hx
    rcases hit.shape with ⟨_, he, _⟩ | ⟨_, he, _⟩
    · rw [he] at hx; exact mem_of_mem_split hx
    · rw [he] at hx
      rcases (mem_insertByDate _ _ _ _ _).1 hx with h | h
      · exact List.mem_append_right _ (h ▸ List.mem_cons_self _ _)
      · exact mem_of_mem_split h
  have hin1 : ∀ x, x ∈ pre ++ post → x ∈ q1 := by
    intro x hx
    rcases hit.shape with ⟨_, he, _⟩ | ⟨_, he, _⟩
    · rw [he]; exact hx
    · rw [he]; exact (mem_insertByDate _ _ _ _ _).2 (Or.inr hx)
  have ht_nf : t ∉ r.fired := by
    intro h
    obtain ⟨h1, h2⟩ := hP.fired_due t h
    rcases hit.shape with ⟨_, he, _⟩ | ⟨_, _, _, _, hne, _⟩
    · rw [he] at h1; exact htnot h1
    · rw [hdt] at hne; exact hne h2
  have hne_t : ∀ x ∈ r.fired, x ≠ t := fun x hx e => ht_nf (e ▸ hx)
  have hfalse : (fun x => decide (x ∉ t :: r.fired)) t = false := by simp
  have hfilter : ∀ l : List Nat, l.filter (fun x => decide (x ∉ t :: r.fired)) =
      (l.filter (fun x => decide (x ∉ r.fired))).filter (fun x => decide (x ≠ t)) := by
    intro l
    rw [List.filter_filter]
    congr 1
    funext x
    simp only [List.mem_cons, not_or, ne_eq, Bool.decide_and]
  have hsorted1 : DateSorted s.objs (pre ++ t :: post) → DateSorted s1.objs q1 := by
    intro hs
    have h1 : DateSorted s1.objs (pre ++ post) :=
      dateSorted_congr (fun a ha => (hit.others a (fun h => htnot (h ▸ ha))).1)
        (dateSorted_split hs)
    rcases hit.shape with ⟨_, he, _⟩ | ⟨_, he, _⟩
    · rw [he]; exact h1
    · have hcg : insertByDate s1.objs t (s1.objs t).date (pre ++ post) =
          insertByDate s.objs t (s1.objs t).date (pre ++ post) :=
        insertByDate_congr t (s1.objs t).date
          (fun a ha => (hit.others a (fun h => htnot (h ▸ ha))).1)
      rw [he, ← hcg]
      exact insertByDate_sorted s1.objs t (pre ++ post) h1
  refine
    { queue := hP.queue
      cursor := hP.cursor
      fired_nodup := List.nodup_cons.2 ⟨ht_nf, hP.fired_nodup⟩
      fired_due := ?_
      keep := ?_
      cycle := fun i => (hP.cycle i).trans (hit.cycles i)
      oneshot := ?_
      cyclic := ?_
      members := ?_
      order := ?_
      sorted := fun hs => hP.sorted (hsorted1 hs)
      fifo := ?_
      frame := fun i hi => (hP.frame i (fun h => hi (hsub1 i h))).trans (hit.frame i hi) }
  · intro x hx
    rcases List.mem_cons.1 hx with rfl | hx
    · exact ⟨List.mem_append_right _ (List.mem_cons_self _ _), hdt⟩
    · obtain ⟨h1, h2⟩ := hP.fired_due x hx
      exact ⟨hsub1 x h1, by rw [← (hit.others x (hne_t x hx)).1]; exact h2⟩
  · intro i hi
    have hi1 : i ≠ t := fun e => hi (e ▸ List.mem_cons_self _ _)
    have hi2 : i ∉ r.fired := fun h => hi (List.mem_cons_of_mem _ h)
    exact ⟨(hP.keep i hi2).1.trans (hit.others i hi1).1,
      (hP.keep i hi2).2.trans (hit.others i hi1).2⟩
  · intro x hx hc0
    rcases List.mem_cons.1 hx with rfl | hx
    · rcases hit.shape with ⟨_, he, hst, hdate, _⟩ | ⟨hc1, _⟩
      · refine ⟨(hP.keep x ht_nf).2.trans hst, (hP.keep x ht_nf).1.trans (hdate.trans hdt), ?_⟩
        intro h
        have := ((hP.members x).1 h).1
        rw [he] at this
        exact htnot this
      · exact absurd hc0 hc1
    · exact hP.oneshot x hx (by rw [hit.cycles x]; exact hc0)
  · intro x hx hc1
    rcases List.mem_cons.1 hx with rfl | hx
    · rcases hit.shape with ⟨hc0, _⟩ | ⟨_, he, hst, hdate, _, _⟩
      · exact absurd hc0 hc1
      · refine ⟨(hP.keep x ht_nf).2.trans hst, ?_, ?_⟩
        · rw [(hP.keep x ht_nf).1, hdate, hdt]
        · refine (hP.members x).2 ⟨?_, fun h => ht_nf h.1⟩
          rw [he]
          exact (mem_insertByDate _ _ _ _ _).2 (Or.inl rfl)
    · have := hP.cyclic x hx (by rw [hit.cycles x]; exact hc1)
      rw [hit.cycles x] at this
      exact this
  · intro x
    rw [hP.members x]
    constructor
    · rintro ⟨h1, h2⟩
      refine ⟨hsub1 x h1, ?_⟩
      rintro ⟨h3, h4⟩
      rcases List.mem_cons.1 h3 with rfl | h3
      · rcases hit.shape with ⟨_, he, _⟩ | ⟨hc1, _⟩
        · rw [he] at h1; exact htnot h1
        · exact hc1 h4
      · exact h2 ⟨h3, by rw [hit.cycles x]; exact h4⟩
    · rintro ⟨h1, h2⟩
      refine ⟨?_, fun h => h2 ⟨List.mem_cons_of_mem _ h.1, by rw [← hit.cycles x]; exact h.2⟩⟩
      by_cases hxt : x = t
      · subst hxt
        rcases hit.shape with ⟨hc0, _⟩ | ⟨_, he, _⟩
        · exact absurd ⟨List.mem_cons_self _ _, hc0⟩ h2
        · rw [he]; exact (mem_insertByDate _ _ _ _ _).2 (Or.inl rfl)
      · exact hin1 x (mem_split_ne h1 hxt)
  · show q2.filter (fun x => decide (x ∉ t :: r.fired)) = _
    rw [hfilter q2, hP.order, ← hfilter q1, filter_split_of_false _ _ _ _ hfalse]
    rcases hit.shape with ⟨_, he, _⟩ | ⟨_, he, _⟩
    · rw [he]
    · rw [he, filter_insertByDate_of_false _ _ _ _ _ hfalse]
  · intro hs x hx hc1 y hy hyf hle
    have hy1 : y ≠ t := fun e => hyf (e ▸ List.mem_cons_self _ _)
    have hy2 : y ∉ r.fired := fun h => hyf (List.mem_cons_of_mem _ h)
    rcases List.mem_cons.1 hx with rfl | hx
    · rcases hit.shape with ⟨hc0, _⟩ | ⟨_, he, _⟩
      · exact absurd hc0 hc1
      · have hyq1 : y ∈ q1 := ((hP.members y).1 hy).1
        have hyl : y ∈ pre ++ post := by
          rw [he] at hyq1
          rcases (mem_insertByDate _ _ _ _ _).1 hyq1 with h | h
          · exact absurd h hy1
          · exact h
        have hle1 : (s.objs y).date ≤ (s1.objs x).date := by
          rw [← (hit.others y hy1).1, ← (hP.keep y hy2).1, ← (hP.keep x ht_nf).1]
          exact hle
        have hsub : List.Sublist [y, x] q1 := by
          rw [he]
          exact sublist_pair_insertByDate s.objs x _ y _ (dateSorted_split hs) hyl hle1
        have h2 := hsub.filter (fun z => decide (z ∉ r.fired))
        have h3 : [y, x].filter (fun z => decide (z ∉ r.fired)) = [y, x] := by
          simp [hy2, ht_nf]
        rw [h3, ← hP.order] at h2
        exact h2.trans (List.filter_sublist _)
    · exact hP.fifo (hsorted1 hs) x hx (by rw [hit.cycles x]; exact hc1) y hy hy2 hle

theorem tickLoop_post (cfg : Config) (D : Nat) (hD : D < 2 ^ cfg.width) (scan : Nat)
    (s : Kernel) (q : List Nat) (need fuel : Nat)
    (hq : IsQueue s q) (hc : CursorOK s q) (hcyc : ∀ x ∈ q, (s.objs x).cycle < 2 ^ cfg.width)
    (hsc : q.length < scan) (hf : q.length < fuel) :
    ∃ r q1, tickLoop cfg scan D fuel s need = some r ∧ TickPost cfg D s.objs q r q1 :=
  tickLoop_induct cfg D hD scan (fun s q r q1 => TickPost cfg D s.objs q r q1)
    (fun s q need hq hc _ => tickPost_base cfg D s q need hq hc)
    (fun s pre t post s1 q1 r q2 hq _ hdt hit hP =>
      tickPost_step cfg D s pre t post s1 q1 r q2 hq hdt hit hP)
    q.length s q need fuel hq hc hcyc (dueCount_le_length _ _ _) hsc hf

/-! ## tpl_counter_tick: effect on a well-formed queue, counter fields, status -/

theorem tick_post (cfg : Config) {s : Kernel} {q : List Nat} {fuel : Nat}
    (hq : IsQueue s q) (hc : CursorOK s q) (hcyc : ∀ x ∈ q, (s.objs x).cycle < 2 ^ cfg.width)
    (hf : q.length < fuel) :
    ∃ r q1, tpl_counter_tick cfg fuel s = some r ∧
      TickPost cfg ((s.counter.current_date + 1) % 2 ^ cfg.width) s.objs q r q1 ∧
      ((s.counter.current_tick + 1) % 2 ^ cfg.width ≠ s.counter.ticks_per_base →
        r.fired = []) := by
  unfold tpl_counter_tick
  by_cases ht : (s.counter.current_tick + 1) % 2 ^ cfg.width = s.counter.ticks_per_base
  · simp only [ht, if_true]
    obtain ⟨r, q1, hr, hP⟩ := tickLoop_post cfg ((s.counter.current_date + 1) % 2 ^ cfg.width)
      (Nat.mod_lt _ (by positivity)) fuel (rollover cfg s) q cfg.NO_SPECIAL_CODE fuel
      (isQueue_congr (s := s) rfl (fun _ _ => ⟨rfl, rfl⟩) hq) hc hcyc hf hf
    exact ⟨r, q1, hr, hP, fun h => absurd rfl h⟩
  · simp only [ht, if_false]
    refine ⟨_, q, rfl, ?_, fun _ => rfl⟩
    exact tickPost_base cfg _
      { s with counter := { s.counter with
          current_tick := (s.counter.current_tick + 1) % 2 ^ cfg.width } } q cfg.NO_SPECIAL_CODE
      (isQueue_congr (s := s) rfl (fun _ _ => ⟨rfl, rfl⟩) hq) hc

theorem insert_counter {fuel : Nat} {s s1 : Kernel} {t : Nat}
    (h : tpl_insert_time_obj fuel s t = some s1) :
    s1.counter.current_tick = s.counter.current_tick ∧
    s1.counter.ticks_per_base = s.counter.ticks_per_base ∧
    s1.counter.current_date = s.counter.current_date := by
  unfold tpl_insert_time_obj at h
  cases hfirst : s.counter.first_to with
  | none =>
    simp only [hfirst, Option.some.injEq] at h
    rw [← h]
    exact ⟨rfl, rfl, rfl⟩
  | some a =>
    simp only [hfirst] at h
    cases hsc : insertScan s.objs (s.objs t).date fuel (some a) none with
    | none => simp [hsc] at h
    | some c =>
      cases hn : s.counter.next_to with
      | none => simp [hsc, hn] at h
      | some n =>
        simp only [hsc, hn, Option.some.injEq] at h
        rw [← h]
        exact ⟨rfl, rfl, rfl⟩

theorem tickLoop_counter (cfg : Config) (scan D : Nat) :
    ∀ (fuel : Nat) (s : Kernel) (need : Nat) (r : TickResult),
      tickLoop cfg scan D fuel s need = some r →
      r.kernel.counter.current_tick = s.counter.current_tick ∧
      r.kernel.counter.ticks_per_base = s.counter.ticks_per_base ∧
      r.kernel.counter.current_date = s.counter.current_date := by
  intro fuel
  induction fuel with
  | zero => intro s need r h; simp [tickLoop] at h
  | succ f ih =>
    intro s need r h
    simp only [tickLoop] at h
    cases hn : s.counter.next_to with
    | none =>
      simp only [hn, Option.some.injEq] at h
      rw [← h]
      exact ⟨rfl, rfl, rfl⟩
    | some t =>
      simp only [hn] at h
      by_cases hd : (s.objs t).date = D
      · simp only [hd, if_true] at h
        by_cases hc : ((tpl_remove_time_obj s t).objs t).cycle = 0
        · simp only [hc, ne_eq, not_true_eq_false, if_false, Option.map_eq_some'] at h
          obtain ⟨r1, hr1, rfl⟩ := h
          exact ih (tpl_remove_time_obj s t) _ r1 hr1
        · simp only [hc, ne_eq, not_false_eq_true, if_true] at h
          cases hi : tpl_insert_time_obj scan (rearm cfg (tpl_remove_time_obj s t) t) t with
          | none => simp [hi] at h
          | some s3 =>
            simp only [hi, Option.map_eq_some'] at h
            obtain ⟨r1, hr1, rfl⟩ := h
            obtain ⟨h1, h2, h3⟩ := ih s3 _ r1 hr1
            obtain ⟨e1, e2, e3⟩ := insert_counter hi
            exact ⟨h1.trans e1, h2.trans e2, h3.trans e3⟩
      · simp only [hd, if_false, Option.some.injEq] at h
        rw [← h]
        exact ⟨rfl, rfl, rfl⟩

/-- The value `tpl_counter_tick` returns for the `expire` calls `fired`,
starting from the accumulator `need`: the bitwise OR of the masked statuses. -/
theorem tickLoop_status (cfg : Config) (scan D : Nat) :
    ∀ (fuel : Nat) (s : Kernel) (need : Nat) (r : TickResult),
      tickLoop cfg scan D fuel s need = some r →
      r.need_resched =
        r.fired.foldl (fun acc t => acc ||| (cfg.TRAMPOLINE_STATUS_MASK &&& cfg.expire t)) need := by
  intro fuel
  induction fuel with
  | zero => intro s need r h; simp [tickLoop] at h
  | succ f ih =>
    intro s need r h
    simp only [tickLoop] at h
    cases hn : s.counter.next_to with
    | none =>
      simp only [hn, Option.some.injEq] at h
      rw [← h]
      rfl
    | some t =>
      simp only [hn] at h
      by_cases hd : (s.objs t).date = D
      · simp only [hd, if_true] at h
        by_cases hc : ((tpl_remove_time_obj s t).objs t).cycle = 0
        · simp only [hc, ne_eq, not_true_eq_false, if_false, Option.map_eq_some'] at h
          obtain ⟨r1, hr1, rfl⟩ := h
          exact ih _ _ r1 hr1
        · simp only [hc, ne_eq, not_false_eq_true, if_true] at h
          cases hi : tpl_insert_time_obj scan (rearm cfg (tpl_remove_time_obj s t) t) t with
          | none => simp [hi] at h
          | some s3 =>
            simp only [hi, Option.map_eq_some'] at h
            obtain ⟨r1, hr1, rfl⟩ := h
            exact ih _ _ r1 hr1
      · simp only [hd, if_false, Option.some.injEq] at h
        rw [← h]
        rfl

/-! ## C11: state and place of a fired object -/

theorem sublist_pair_of_sorted (objs : Nat → tpl_time_obj) (x y : Nat) (l : List Nat)
    (hs : DateSorted objs l) (hx : x ∈ l) (hy : y ∈ l) (hlt : (objs x).date < (objs y).date) :
    List.Sublist [x, y] l := by
  induction l with
  | nil => simp at hx
  | cons a l ih =>
    unfold DateSorted at hs
    rw [List.pairwise_cons] at hs
    have hxy : x ≠ y := fun e => by rw [e] at hlt; exact lt_irrefl _ hlt
    rcases List.mem_cons.1 hx with hxa | hx1
    · rcases List.mem_cons.1 hy with hya | hy1
      · exact absurd (hxa.trans hya.symm) hxy
      · rw [hxa]
        exact List.Sublist.cons₂ _ (List.singleton_sublist.2 hy1)
    · rcases List.mem_cons.1 hy with hya | hy1
      · have := hs.1 x hx1
        rw [hya] at hlt
        omega
      · exact List.Sublist.cons _ (ih hs.2 hx1 hy1)

theorem twinState_wf : WF cfg8 twinState [0, 1] :=
  ⟨⟨rfl, ⟨rfl, rfl, rfl, rfl, trivial⟩, by decide⟩, by show 0 ∈ [0, 1]; decide, by decide,
    by decide⟩

/-- C11, counterexample.  Objects 0 and 1, both of date 6 and cycle 4, are
inserted in this order at `current_date = 5`; the state is well formed and
sorted.  The tick that rolls to 6 fires 0 and then 1 and rearms both to date
10; the walk is `[0, 1]` afterwards.  So the fired object 0 is not placed
after every member of date at most its own: member 1, of the same date, is
behind it. -/
theorem c11_counterexample :
    WF cfg8 twinState [0, 1] ∧ DateSorted twinState.objs [0, 1] ∧
    tpl_counter_tick cfg8 3 twinState = some twinTick ∧
    twinTick.fired = [0, 1] ∧ (twinState.objs 0).cycle = 4 ∧
    walk twinTick.kernel.objs 3 twinTick.kernel.counter.first_to = some [0, 1] ∧
    (twinTick.kernel.objs 1).date ≤ (twinTick.kernel.objs 0).date ∧
    ¬ List.Sublist [1, 0] [0, 1] :=
  ⟨twinState_wf, by unfold DateSorted; decide, rfl, by decide, by decide, by decide, by decide,
    by decide⟩

/-- C11, amended.  Let the counter state be well formed with queue `q`
(valid doubly linked list, cursor a member, members ACTIVE with cycles of type
`tpl_tick`).  `tpl_counter_tick` returns, and for every object `X` whose
`expire` hook it calls, `D + 1` being the new date:
* if `X.cycle = 0`, then afterwards `X.state` is SLEEP and `X` is not in the
  walk from `first_to`;
* if `X.cycle = c > 0`, then afterwards `X.state` is ACTIVE,
  `X.date = (D + 1 + c) mod 2 ^ width`, `X` is in the walk and, when the queue
  was sorted by date before the call, the walk is sorted by date, `X` comes
  after every member of date at most `X.date` that was not itself fired by
  this call, and before every member of a strictly greater date. -/
theorem c11_fired_object_state (cfg : Config) (s : Kernel) (q : List Nat) (fuel : Nat)
    (hw : WF cfg s q) (hf : q.length < fuel) :
    ∃ r q1, tpl_counter_tick cfg fuel s = some r ∧
      walk r.kernel.objs (q1.length + 1) r.kernel.counter.first_to = some q1 ∧
      ∀ X ∈ r.fired,
        ((s.objs X).cycle = 0 → (r.kernel.objs X).state = ALARM_SLEEP ∧ X ∉ q1) ∧
        ((s.objs X).cycle ≠ 0 →
          (r.kernel.objs X).state = ALARM_ACTIVE ∧
          (r.kernel.objs X).date =
            (s.counter.current_date + 1 + (s.objs X).cycle) % 2 ^ cfg.width ∧
          X ∈ q1 ∧
          (DateSorted s.objs q →
            DateSorted r.kernel.objs q1 ∧
            (∀ y ∈ q1, y ∉ r.fired → (r.kernel.objs y).date ≤ (r.kernel.objs X).date →
              List.Sublist [y, X] q1) ∧
            (∀ y ∈ q1, (r.kernel.objs X).date < (r.kernel.objs y).date →
              List.Sublist [X, y] q1))) := by
  obtain ⟨r, q1, hr, hP, -⟩ := tick_post cfg hw.queue hw.cursor hw.cycles hf
  refine ⟨r, q1, hr, hP.queue.walk_eq (by omega), fun X hX => ⟨fun hc => ?_, fun hc => ?_⟩⟩
  · obtain ⟨h1, -, h3⟩ := hP.oneshot X hX hc
    exact ⟨h1, h3⟩
  · obtain ⟨h1, h2, h3⟩ := hP.cyclic X hX hc
    refine ⟨h1, by rw [h2, Nat.mod_add_mod], h3, fun hs => ⟨hP.sorted hs, ?_, ?_⟩⟩
    · intro y hy hyf hle
      exact hP.fifo hs X hX hc y hy hyf hle
    · intro y hy hlt
      exact sublist_pair_of_sorted _ X y q1 (hP.sorted hs) h3 hy hlt

/-- C11, witness: the twin scenario (queue `[0, 1]`, both objects cyclic). -/
theorem c11_fired_object_state_witness :
    WF cfg8 twinState [0, 1] ∧ [0, 1].length < 3 ∧
    ∃ r q1, tpl_counter_tick cfg8 3 twinState = some r ∧
      walk r.kernel.objs (q1.length + 1) r.kernel.counter.first_to = some q1 ∧
      ∀ X ∈ r.fired,
        ((twinState.objs X).cycle = 0 → (r.kernel.objs X).state = ALARM_SLEEP ∧ X ∉ q1) ∧
        ((twinState.objs X).cycle ≠ 0 →
          (r.kernel.objs X).state = ALARM_ACTIVE ∧
          (r.kernel.objs X).date =
            (twinState.counter.current_date + 1 + (twinState.objs X).cycle) % 2 ^ cfg8.width ∧
          X ∈ q1 ∧
          (DateSorted twinState.objs [0, 1] →
            DateSorted r.kernel.objs q1 ∧
            (∀ y ∈ q1, y ∉ r.fired → (r.kernel.objs y).date ≤ (r.kernel.objs X).date →
              List.Sublist [y, X] q1) ∧
            (∀ y ∈ q1, (r.kernel.objs X).date < (r.kernel.objs y).date →
              List.Sublist [X, y] q1))) :=
  ⟨twinState_wf, by decide, c11_fired_object_state cfg8 twinState [0, 1] 3 twinState_wf (by decide)⟩

/-! ## C12: ticks between two rollovers -/

theorem tick_no_rollover (cfg : Config) (fuel : Nat) (s : Kernel)
    (h : (s.counter.current_tick + 1) % 2 ^ cfg.width ≠ s.counter.ticks_per_base) :
    tpl_counter_tick cfg fuel s =
      some ⟨withTick s ((s.counter.current_tick + 1) % 2 ^ cfg.width), cfg.NO_SPECIAL_CODE, []⟩ := by
  unfold tpl_counter_tick
  simp only [h, if_false]
  rfl

theorem tick_rollover (cfg : Config) (fuel : Nat) (s : Kernel)
    (h : (s.counter.current_tick + 1) % 2 ^ cfg.width = s.counter.ticks_per_base) :
    tpl_counter_tick cfg fuel s =
      tickLoop cfg fuel ((s.counter.current_date + 1) % 2 ^ cfg.width) fuel (rollover cfg s)
        cfg.NO_SPECIAL_CODE := by
  unfold tpl_counter_tick
  simp only [h, if_true]
  rfl

theorem tick_rollover_counter (cfg : Config) (fuel : Nat) (s : Kernel) (r : TickResult)
    (h : (s.counter.current_tick + 1) % 2 ^ cfg.width = s.counter.ticks_per_base)
    (hr : tpl_counter_tick cfg fuel s = some r) :
    r.kernel.counter.current_tick = 0 ∧
    r.kernel.counter.ticks_per_base = s.counter.ticks_per_base ∧
    r.kernel.counter.current_date = (s.counter.current_date + 1) % 2 ^ cfg.width := by
  rw [tick_rollover cfg fuel s h] at hr
  exact tickLoop_counter cfg _ _ _ _ _ _ hr

theorem withTick_self (s : Kernel) (h : s.counter.current_tick = 0) : withTick s 0 = s := by
  cases s with
  | mk c o =>
    cases c with
    | mk ct tpb cd f n =>
      simp only at h
      subst h
      rfl

/-- C12.  For a counter with `ticks_per_base = T`, `1 <= T` (of type
`tpl_tick`) and `current_tick = 0`:
* the call number `i + 1`, for `i + 1 < T`, made in the state reached after
  `i` calls, returns `NO_SPECIAL_CODE`, calls no `expire` hook and changes
  nothing but `current_tick`, which becomes `i + 1`;
* so after `i < T` calls the state is the initial one with `current_tick = i`;
* the call number `T`, once it returns, has advanced `current_date` by exactly
  1 modulo `2 ^ width` and set `current_tick` back to 0;
* that call returns when the queue is well formed. -/
theorem c12_tick_conservation (cfg : Config) (s : Kernel) (fuel : Nat)
    (hT1 : 1 ≤ s.counter.ticks_per_base) (hT : s.counter.ticks_per_base < 2 ^ cfg.width)
    (h0 : s.counter.current_tick = 0) :
    (∀ i, i + 1 < s.counter.ticks_per_base →
      tpl_counter_tick cfg fuel (withTick s i) =
        some ⟨withTick s (i + 1), cfg.NO_SPECIAL_CODE, []⟩) ∧
    (∀ i, i < s.counter.ticks_per_base → tickN cfg fuel i s = some (withTick s i, [])) ∧
    (∀ r, tpl_counter_tick cfg fuel (withTick s (s.counter.ticks_per_base - 1)) = some r →
      r.kernel.counter.current_date = (s.counter.current_date + 1) % 2 ^ cfg.width ∧
      r.kernel.counter.current_tick = 0 ∧
      tickN cfg fuel s.counter.ticks_per_base s = some (r.kernel, r.fired)) ∧
    (∀ q, IsQueue s q → CursorOK s q → (∀ x ∈ q, (s.objs x).cycle < 2 ^ cfg.width) →
      q.length < fuel →
      ∃ r, tpl_counter_tick cfg fuel (withTick s (s.counter.ticks_per_base - 1)) = some r) := by
  have hstep : ∀ i, i + 1 < s.counter.ticks_per_base →
      tpl_counter_tick cfg fuel (withTick s i) =
        some ⟨withTick s (i + 1), cfg.NO_SPECIAL_CODE, []⟩ := by
    intro i hi
    have hmod : (i + 1) % 2 ^ cfg.width = i + 1 := Nat.mod_eq_of_lt (by omega)
    have hne : ((withTick s i).counter.current_tick + 1) % 2 ^ cfg.width ≠
        (withTick s i).counter.ticks_per_base := by
      show (i + 1) % 2 ^ cfg.width ≠ s.counter.ticks_per_base
      rw [hmod]; omega
    rw [tick_no_rollover cfg fuel _ hne]
    show some (⟨withTick (withTick s i) ((i + 1) % 2 ^ cfg.width), _, _⟩ : TickResult) = _
    rw [hmod]
    rfl
  have hN : ∀ i, i < s.counter.ticks_per_base → tickN cfg fuel i s = some (withTick s i, []) := by
    intro i
    induction i with
    | zero => intro _; rw [withTick_self s h0]; rfl
    | succ i ih =>
      intro hi
      simp only [tickN, ih (by omega), Option.some_bind, hstep i hi, Option.map_some']
      rfl
  refine ⟨hstep, hN, fun r hr => ?_, fun q hq hc hcyc hf => ?_⟩
  · have hroll : ((withTick s (s.counter.ticks_per_base - 1)).counter.current_tick + 1)
        % 2 ^ cfg.width = (withTick s (s.counter.ticks_per_base - 1)).counter.ticks_per_base := by
      show (s.counter.ticks_per_base - 1 + 1) % 2 ^ cfg.width = s.counter.ticks_per_base
      rw [Nat.sub_add_cancel hT1, Nat.mod_eq_of_lt hT]
    obtain ⟨h1, -, h3⟩ := tick_rollover_counter cfg fuel _ r hroll hr
    refine ⟨h3, h1, ?_⟩
    obtain ⟨n, hn⟩ : ∃ n, s.counter.ticks_per_base = n + 1 := ⟨s.counter.ticks_per_base - 1, by omega⟩
    rw [hn] at hr ⊢
    simp only [Nat.add_sub_cancel] at hr
    simp only [tickN, hN n (by omega), Option.some_bind, hr, Option.map_some', List.nil_append]
  · obtain ⟨r, q1, hr, -⟩ := tick_total cfg (s := withTick s (s.counter.ticks_per_base - 1))
      (isQueue_congr (s := s) rfl (fun _ _ => ⟨rfl, rfl⟩) hq) hc hcyc hf
    exact ⟨r, hr⟩

/-- C12, witness: `quadBase`, with `ticks_per_base = 4`. -/
theorem c12_tick_conservation_witness :
    1 ≤ quadBase.counter.ticks_per_base ∧ quadBase.counter.ticks_per_base < 2 ^ cfg8.width ∧
    quadBase.counter.current_tick = 0 ∧
    (∀ i, i + 1 < quadBase.counter.ticks_per_base →
      tpl_counter_tick cfg8 3 (withTick quadBase i) =
        some ⟨withTick quadBase (i + 1), cfg8.NO_SPECIAL_CODE, []⟩) ∧
    (∀ i, i < quadBase.counter.ticks_per_base →
      tickN cfg8 3 i quadBase = some (withTick quadBase i, [])) ∧
    (∀ r, tpl_counter_tick cfg8 3 (withTick quadBase (quadBase.counter.ticks_per_base - 1))
        = some r →
      r.kernel.counter.current_date = (quadBase.counter.current_date + 1) % 2 ^ cfg8.width ∧
      r.kernel.counter.current_tick = 0 ∧
      tickN cfg8 3 quadBase.counter.ticks_per_base quadBase = some (r.kernel, r.fired)) ∧
    (∀ q, IsQueue quadBase q → CursorOK quadBase q →
      (∀ x ∈ q, (quadBase.objs x).cycle < 2 ^ cfg8.width) → q.length < 3 →
      ∃ r, tpl_counter_tick cfg8 3 (withTick quadBase (quadBase.counter.ticks_per_base - 1))
        = some r) :=
  ⟨by decide, by decide, rfl, c12_tick_conservation cfg8 quadBase 3 (by decide) (by decide) rfl⟩

/-! ## C13: a single one-shot alarm -/

theorem withClock_self (s : Kernel) (h0 : s.counter.current_tick = 0)
    (h1 : s.counter.current_date = 0) : withClock s 0 0 = s := by
  cases s with
  | mk c o =>
    cases c with
    | mk ct tpb cd f n =>
      simp only at h0 h1
      subst h0 h1
      rfl

/-- Clock arithmetic: the call after `n = T * k + m` calls. -/
theorem clock_succ {T n : Nat} (hT : 0 < T) :
    (n % T + 1 < T → (n + 1) / T = n / T ∧ (n + 1) % T = n % T + 1) ∧
    (n % T + 1 = T → (n + 1) / T = n / T + 1 ∧ (n + 1) % T = 0) := by
  have hdm := Nat.div_add_mod n T
  constructor
  · intro h
    exact (Nat.div_mod_unique hT).2 ⟨by omega, h⟩
  · intro h
    refine (Nat.div_mod_unique hT).2 ⟨?_, hT⟩
    rw [Nat.mul_add, Nat.mul_one]
    omega

theorem one_shot_ticks (cfg : Config) (s : Kernel) (X d T fuel : Nat)
    (hq : IsQueue s [X]) (hn : s.counter.next_to = some X) (hT : s.counter.ticks_per_base = T)
    (hdX : (s.objs X).date = d) (hcX : (s.objs X).cycle = 0)
    (hTw : T < 2 ^ cfg.width) (hd : d < 2 ^ cfg.width) (hf : 2 ≤ fuel)
    (k m : Nat) (hm : m < T) (hk : k < d) :
    (m + 1 < T → tpl_counter_tick cfg fuel (withClock s k m) =
      some ⟨withClock s k (m + 1), cfg.NO_SPECIAL_CODE, []⟩) ∧
    (m + 1 = T → k + 1 < d → tpl_counter_tick cfg fuel (withClock s k m) =
      some ⟨withClock s (k + 1) 0, cfg.NO_SPECIAL_CODE, []⟩) ∧
    (m + 1 = T → k + 1 = d → ∃ r, tpl_counter_tick cfg fuel (withClock s k m) = some r ∧
      r.fired = [X] ∧ (r.kernel.objs X).state = ALARM_SLEEP ∧
      r.kernel.counter.first_to = none ∧ r.kernel.counter.next_to = none ∧
      r.kernel.counter.current_date = d) := by
  have hmod : (m + 1) % 2 ^ cfg.width = m + 1 := Nat.mod_eq_of_lt (by omega)
  have hkmod : (k + 1) % 2 ^ cfg.width = k + 1 := Nat.mod_eq_of_lt (by omega)
  obtain ⟨f, rfl⟩ : ∃ f, fuel = f + 1 := ⟨fuel - 1, by omega⟩
  obtain ⟨g, rfl⟩ : ∃ g, f = g + 1 := ⟨f - 1, by omega⟩
  refine ⟨fun h => ?_, fun h hk1 => ?_, fun h hk1 => ?_⟩
  · have hne : ((withClock s k m).counter.current_tick + 1) % 2 ^ cfg.width ≠
        (withClock s k m).counter.ticks_per_base := by
      show (m + 1) % 2 ^ cfg.width ≠ s.counter.ticks_per_base
      rw [hmod, hT]; omega
    rw [tick_no_rollover cfg _ _ hne]
    show some (⟨withTick (withClock s k m) ((m + 1) % 2 ^ cfg.width), _, _⟩ : TickResult) = _
    rw [hmod]
    rfl
  · have hroll : ((withClock s k m).counter.current_tick + 1) % 2 ^ cfg.width =
        (withClock s k m).counter.ticks_per_base := by
      show (m + 1) % 2 ^ cfg.width = s.counter.ticks_per_base
      rw [hmod, hT]; exact h
    rw [tick_rollover cfg _ _ hroll]
    have hcd : ((withClock s k m).counter.current_date + 1) % 2 ^ cfg.width = k + 1 := hkmod
    have hn1 : (rollover cfg (withClock s k m)).counter.next_to = some X := hn
    have hd1 : ((rollover cfg (withClock s k m)).objs X).date = d := hdX
    have hne : d ≠ k + 1 := by omega
    rw [hcd]
    simp only [tickLoop, hn1, hd1, hne, if_false]
    show some (⟨rollover cfg (withClock s k m), _, _⟩ : TickResult) = _
    have : rollover cfg (withClock s k m) = withClock s ((k + 1) % 2 ^ cfg.width) 0 := rfl
    rw [this, hkmod]
  · have hroll : ((withClock s k m).counter.current_tick + 1) % 2 ^ cfg.width =
        (withClock s k m).counter.ticks_per_base := by
      show (m + 1) % 2 ^ cfg.width = s.counter.ticks_per_base
      rw [hmod, hT]; exact h
    rw [tick_rollover cfg _ _ hroll]
    have hcd : ((withClock s k m).counter.current_date + 1) % 2 ^ cfg.width = d := by
      show (k + 1) % 2 ^ cfg.width = d
      rw [hkmod]; exact hk1
    have hn1 : (rollover cfg (withClock s k m)).counter.next_to = some X := hn
    have hd1 : ((rollover cfg (withClock s k m)).objs X).date = d := hdX
    have hq1 : IsQueue (rollover cfg (withClock s k m)) ([] ++ X :: []) :=
      isQueue_congr (s := s) rfl (fun _ _ => ⟨rfl, rfl⟩) hq
    have hlen : (([] : List Nat) ++ []).length < g + 1 + 1 := by simp
    have hcyc1 : ((rollover cfg (withClock s k m)).objs X).cycle < 2 ^ cfg.width := by
      show (s.objs X).cycle < _
      rw [hcX]; positivity
    have hdate1 : ((rollover cfg (withClock s k m)).objs X).date < 2 ^ cfg.width := by
      rw [hd1]; exact hd
    obtain ⟨s1, q1, hloop, hit⟩ := tick_iter_full cfg (g + 1) cfg.NO_SPECIAL_CODE hq1 hn1 hcyc1
      hdate1 hlen
    rw [hd1] at hloop
    rw [hcd, hloop]
    rcases hit.shape with ⟨-, he, hst, -, hnx⟩ | ⟨hc1, _⟩
    · have hfirst : s1.counter.first_to = none := by
        have := hit.queue.first
        rw [he] at this
        exact this
      have hnext : s1.counter.next_to = none := hnx
      have hl : tickLoop cfg (g + 1 + 1) d (g + 1) s1
          (cfg.NO_SPECIAL_CODE ||| cfg.TRAMPOLINE_STATUS_MASK &&& cfg.expire X) =
          some ⟨s1, cfg.NO_SPECIAL_CODE ||| cfg.TRAMPOLINE_STATUS_MASK &&& cfg.expire X, []⟩ := by
        simp only [tickLoop, hnext]
      rw [hl]
      refine ⟨⟨s1, _, [X]⟩, rfl, rfl, hst, hfirst, hnext, ?_⟩
      show s1.counter.current_date = d
      rw [hit.date]
      exact hcd
    · exact absurd hcX hc1

/-- C13.  Let the counter have an empty queue, `current_date = 0`,
`current_tick = 0` and `ticks_per_base = T` with `1 <= T` (of type
`tpl_tick`), and let `1 <= d < 2 ^ width`.  After the insertion of one object
`X` with date `d` and cycle 0:
* for `k < d`, after `k * T` calls of `tpl_counter_tick` the state is the one
  after the insertion with `current_date = k` (and `current_tick = 0`), no
  `expire` hook having been called;
* the same holds after `d * T - 1` calls (`current_date = d - 1`,
  `current_tick = T - 1`): no `expire` call so far;
* the call number `d * T` returns, calls the `expire` hook of `X` and of no
  other object, and leaves `current_date = d`, `X.state = ALARM_SLEEP` and
  `first_to = next_to = NULL`. -/
theorem c13_one_shot_alarm (cfg : Config) (s0 : Kernel) (X d T fuel : Nat)
    (hempty : s0.counter.first_to = none) (hdate0 : s0.counter.current_date = 0)
    (htick0 : s0.counter.current_tick = 0) (hT : s0.counter.ticks_per_base = T)
    (hT1 : 1 ≤ T) (hTw : T < 2 ^ cfg.width) (hd1 : 1 ≤ d) (hd : d < 2 ^ cfg.width)
    (hf : 2 ≤ fuel) :
    ∃ s, activate fuel s0 X d 0 = some s ∧
      (∀ k, k < d → tickN cfg fuel (k * T) s = some (withClock s k 0, []) ∧
        (withClock s k 0).counter.current_date = k) ∧
      tickN cfg fuel (d * T - 1) s = some (withClock s (d - 1) (T - 1), []) ∧
      ∃ r, tpl_counter_tick cfg fuel (withClock s (d - 1) (T - 1)) = some r ∧
        tickN cfg fuel (d * T) s = some (r.kernel, [X]) ∧
        r.fired = [X] ∧ r.kernel.counter.current_date = d ∧
        (r.kernel.objs X).state = ALARM_SLEEP ∧
        r.kernel.counter.first_to = none ∧ r.kernel.counter.next_to = none := by
  have hq0 : IsQueue { s0 with objs := set_cycle (set_date s0.objs X d) X 0 } [] :=
    ⟨hempty, trivial, List.nodup_nil⟩
  have hX0 : X ∉ ([] : List Nat) := by simp
  have hlt0 : ([] : List Nat).length < fuel := by simp only [List.length_nil]; omega
  obtain ⟨s, hins, hq, hcur, hct, htpb, hcd, hdc, -⟩ :=
    insert_spec hq0 hX0 hlt0 (fun h => absurd rfl h)
  rw [if_pos rfl] at hcur
  have hqX : IsQueue s [X] := hq
  have hdX : (s.objs X).date = d := by rw [(hdc X).1]; simp
  have hcX : (s.objs X).cycle = 0 := by rw [(hdc X).2]; simp
  have hTs : s.counter.ticks_per_base = T := htpb.trans hT
  have hts : s.counter.current_tick = 0 := hct.trans htick0
  have hds : s.counter.current_date = 0 := hcd.trans hdate0
  have hTpos : 0 < T := hT1
  have hwait : ∀ n, n < d * T → tickN cfg fuel n s = some (withClock s (n / T) (n % T), []) := by
    intro n
    induction n with
    | zero =>
      intro _
      rw [Nat.zero_div, Nat.zero_mod, withClock_self s hts hds]
      rfl
    | succ n ih =>
      intro hn
      have hm : n % T < T := Nat.mod_lt _ hTpos
      have hk : n / T < d := by
        have := Nat.div_add_mod n T
        by_contra hcon
        have h1 : d ≤ n / T := by omega
        have h2 : d * T ≤ T * (n / T) := by
          rw [Nat.mul_comm d T]; exact Nat.mul_le_mul_left T h1
        omega
      obtain ⟨h1, h2, -⟩ := one_shot_ticks cfg s X d T fuel hqX hcur hTs hdX hcX hTw hd hf
        (n / T) (n % T) hm hk
      obtain ⟨c1, c2⟩ := clock_succ (n := n) hTpos
      simp only [tickN, ih (by omega), Option.some_bind]
      by_cases hlt : n % T + 1 < T
      · rw [h1 hlt, (c1 hlt).1, (c1 hlt).2]
        rfl
      · have heq : n % T + 1 = T := by omega
        have hk1 : n / T + 1 < d := by
          have := Nat.div_add_mod n T
          by_contra hcon
          have h3 : d ≤ n / T + 1 := by omega
          have h4 : d * T ≤ T * (n / T + 1) := by
            rw [Nat.mul_comm d T]; exact Nat.mul_le_mul_left T h3
          rw [Nat.mul_add, Nat.mul_one] at h4
          omega
        rw [h2 heq hk1, (c2 heq).1, (c2 heq).2]
        rfl
  have hlast : (d * T - 1) / T = d - 1 ∧ (d * T - 1) % T = T - 1 := by
    refine (Nat.div_mod_unique hTpos).2 ⟨?_, by omega⟩
    obtain ⟨e, rfl⟩ : ∃ e, d = e + 1 := ⟨d - 1, by omega⟩
    rw [Nat.add_sub_cancel, Nat.add_mul, Nat.one_mul, Nat.mul_comm T e]
    omega
  have hpos : 0 < d * T := Nat.mul_pos hd1 hT1
  have hpre : tickN cfg fuel (d * T - 1) s = some (withClock s (d - 1) (T - 1), []) := by
    rw [hwait (d * T - 1) (by omega), hlast.1, hlast.2]
  have hm1 : T - 1 < T := Nat.sub_lt hTpos Nat.one_pos
  have hk1 : d - 1 < d := Nat.sub_lt hd1 Nat.one_pos
  have h3 := (one_shot_ticks cfg s X d T fuel hqX hcur hTs hdX hcX hTw hd hf
    (d - 1) (T - 1) hm1 hk1).2.2 (Nat.sub_add_cancel hT1) (Nat.sub_add_cancel hd1)
  obtain ⟨r, hr, hfired, hst, hfirst, hnext, hdate⟩ := h3
  refine ⟨s, hins, fun k hk => ⟨?_, rfl⟩, hpre, r, hr, ?_, hfired, hdate, hst, hfirst, hnext⟩
  · have hkT : k * T < d * T := Nat.mul_lt_mul_of_pos_right hk hTpos
    rw [hwait (k * T) hkT, Nat.mul_div_cancel k hTpos, Nat.mul_mod_left]
  · obtain ⟨n, hn⟩ : ∃ n, d * T = n + 1 := ⟨d * T - 1, by omega⟩
    rw [hn] at hpre ⊢
    simp only [Nat.add_sub_cancel] at hpre
    simp only [tickN, hpre, Option.some_bind, hr, Option.map_some', List.nil_append, hfired]

/-- C13, witness: `ticks_per_base = 4`, object 0 with date 2, 8 calls. -/
theorem c13_one_shot_alarm_witness :
    quadBase.counter.first_to = none ∧ quadBase.counter.current_date = 0 ∧
    quadBase.counter.current_tick = 0 ∧ quadBase.counter.ticks_per_base = 4 ∧
    1 ≤ 4 ∧ 4 < 2 ^ cfg8.width ∧ 1 ≤ 2 ∧ 2 < 2 ^ cfg8.width ∧ 2 ≤ 2 ∧
    ∃ s, activate 2 quadBase 0 2 0 = some s ∧
      (∀ k, k < 2 → tickN cfg8 2 (k * 4) s = some (withClock s k 0, []) ∧
        (withClock s k 0).counter.current_date = k) ∧
      tickN cfg8 2 (2 * 4 - 1) s = some (withClock s (2 - 1) (4 - 1), []) ∧
      ∃ r, tpl_counter_tick cfg8 2 (withClock s (2 - 1) (4 - 1)) = some r ∧
        tickN cfg8 2 (2 * 4) s = some (r.kernel, [0]) ∧
        r.fired = [0] ∧ r.kernel.counter.current_date = 2 ∧
        (r.kernel.objs 0).state = ALARM_SLEEP ∧
        r.kernel.counter.first_to = none ∧ r.kernel.counter.next_to = none :=
  ⟨rfl, rfl, rfl, rfl, by decide, by decide, by decide, by decide, by decide,
    c13_one_shot_alarm cfg8 quadBase 0 2 4 2 rfl rfl rfl rfl (by decide) (by decide) (by decide)
      (by decide) (by decide)⟩

/-! ## C14: the returned status -/

theorem or_and_mask (a b m : Nat) (ha : a &&& m = a) : (a ||| (m &&& b)) &&& m = a ||| (m &&& b) := by
  apply Nat.eq_of_testBit_eq
  intro i
  have h := congrArg (fun x => x.testBit i) ha
  simp only [Nat.testBit_and] at h
  simp only [Nat.testBit_and, Nat.testBit_or]
  cases h1 : a.testBit i <;> cases h2 : m.testBit i <;> cases h3 : b.testBit i <;> simp_all

theorem foldl_status_mask (m : Nat) (f : Nat → Nat) (l : List Nat) :
    ∀ init, init &&& m = init →
      (l.foldl (fun acc t => acc ||| (m &&& f t)) init) &&& m =
        l.foldl (fun acc t => acc ||| (m &&& f t)) init := by
  induction l with
  | nil => intro init h; exact h
  | cons a l ih =>
    intro init h
    rw [List.foldl_cons]
    exact ih _ (or_and_mask init (f a) m h)

/-- C14.  Whenever `tpl_counter_tick` returns, the returned status is the
bitwise OR, starting from `NO_SPECIAL_CODE` and taken over the objects whose
`expire` hook was called during the call, in call order, of
`TRAMPOLINE_STATUS_MASK & expire(object)`.  It is `NO_SPECIAL_CODE` when no
object is fired, in particular when the call causes no rollover, and it has no
bit outside `TRAMPOLINE_STATUS_MASK` (`NO_SPECIAL_CODE` having none).  The
call returns on every well-formed queue. -/
theorem c14_status_aggregation (cfg : Config) (s : Kernel) (fuel : Nat) :
    (∀ r, tpl_counter_tick cfg fuel s = some r →
      r.need_resched =
        r.fired.foldl (fun acc t => acc ||| (cfg.TRAMPOLINE_STATUS_MASK &&& cfg.expire t))
          cfg.NO_SPECIAL_CODE ∧
      (r.fired = [] → r.need_resched = cfg.NO_SPECIAL_CODE) ∧
      ((s.counter.current_tick + 1) % 2 ^ cfg.width ≠ s.counter.ticks_per_base →
        r.fired = [] ∧ r.need_resched = cfg.NO_SPECIAL_CODE) ∧
      (cfg.NO_SPECIAL_CODE &&& cfg.TRAMPOLINE_STATUS_MASK = cfg.NO_SPECIAL_CODE →
        r.need_resched &&& cfg.TRAMPOLINE_STATUS_MASK = r.need_resched)) ∧
    (∀ q, IsQueue s q → CursorOK s q → (∀ x ∈ q, (s.objs x).cycle < 2 ^ cfg.width) →
      q.length < fuel → ∃ r, tpl_counter_tick cfg fuel s = some r) := by
  refine ⟨fun r hr => ?_, fun q hq hc hcyc hf => ?_⟩
  · have hfold : r.need_resched =
        r.fired.foldl (fun acc t => acc ||| (cfg.TRAMPOLINE_STATUS_MASK &&& cfg.expire t))
          cfg.NO_SPECIAL_CODE := by
      by_cases ht : (s.counter.current_tick + 1) % 2 ^ cfg.width = s.counter.ticks_per_base
      · rw [tick_rollover cfg fuel s ht] at hr
        exact tickLoop_status cfg _ _ _ _ _ _ hr
      · rw [tick_no_rollover cfg fuel s ht] at hr
        rw [← Option.some.inj hr]
        rfl
    refine ⟨hfold, fun h => by rw [hfold, h]; rfl, fun ht => ?_, fun h0 => ?_⟩
    · rw [tick_no_rollover cfg fuel s ht] at hr
      rw [← Option.some.inj hr]
      exact ⟨rfl, rfl⟩
    · rw [hfold]
      exact foldl_status_mask _ _ _ _ h0
  · obtain ⟨r, q1, hr, -⟩ := tick_total cfg hq hc hcyc hf
    exact ⟨r, hr⟩

/-- C14, witness: the twin scenario (objects 0 and 1 fired), with an `expire`
hook returning 33 for object 0 and 65 for object 1. -/
theorem c14_status_aggregation_witness :
    ∃ r, tpl_counter_tick cfgStatus 3 twinState = some r ∧
      r.need_resched =
        r.fired.foldl (fun acc t => acc ||| (cfgStatus.TRAMPOLINE_STATUS_MASK &&& cfgStatus.expire t))
          cfgStatus.NO_SPECIAL_CODE ∧
      r.need_resched &&& cfgStatus.TRAMPOLINE_STATUS_MASK = r.need_resched := by
  obtain ⟨r, hr⟩ := (c14_status_aggregation cfgStatus twinState 3).2 [0, 1] twinState_wf.queue
    twinState_wf.cursor (by decide) (by decide)
  obtain ⟨h1, -, -, h4⟩ := (c14_status_aggregation cfgStatus twinState 3).1 r hr
  exact ⟨r, hr, h1, h4 (by decide)⟩

/-! ## C15: the members of the queue are the ACTIVE objects -/

theorem wf_of_tickPost (cfg : Config) {D : Nat} {s : Kernel} {q : List Nat} {r : TickResult}
    {q1 : List Nat} (hw : WF cfg s q) (hP : TickPost cfg D s.objs q r q1) :
    WF cfg r.kernel q1 := by
  refine ⟨hP.queue, hP.cursor, fun x hx => ?_, fun x hx => ?_⟩
  · obtain ⟨hxq, hnot⟩ := (hP.members x).1 hx
    by_cases hf : x ∈ r.fired
    · exact (hP.cyclic x hf (fun hc => hnot ⟨hf, hc⟩)).1
    · rw [(hP.keep x hf).2]
      exact hw.active x hxq
  · rw [hP.cycle x]
    exact hw.cycles x ((hP.members x).1 hx).1

theorem insert_state_other {fuel : Nat} {s s1 : Kernel} {t : Nat}
    (h : tpl_insert_time_obj fuel s t = some s1) (i : Nat) (hi : i ≠ t) :
    (s1.objs i).state = (s.objs i).state := by
  unfold tpl_insert_time_obj at h
  cases hfirst : s.counter.first_to with
  | none =>
    simp only [hfirst, Option.some.injEq] at h
    rw [← h]
    simp [hi]
  | some a =>
    simp only [hfirst] at h
    cases hsc : insertScan s.objs (s.objs t).date fuel (some a) none with
    | none => simp [hsc] at h
    | some c =>
      cases hn : s.counter.next_to with
      | none => simp [hsc, hn] at h
      | some n =>
        simp only [hsc, hn, Option.some.injEq] at h
        rw [← h]
        simp [hi]

theorem remove_state_other (s : Kernel) (x i : Nat) (hi : i ≠ x) :
    ((tpl_remove_time_obj s x).objs i).state = (s.objs i).state := by
  simp [tpl_remove_time_obj, hi]

theorem reachableAsleep_inv (cfg : Config) {s : Kernel} (h : ReachableAsleep cfg s) :
    ∃ q, WF cfg s q ∧ ∀ i, i ∉ q → (s.objs i).state = ALARM_SLEEP := by
  induction h with
  | init s h1 h2 h3 =>
    refine ⟨[], ⟨⟨h1, trivial, List.nodup_nil⟩, ?_, by simp, by simp⟩, fun i _ => h3 i⟩
    unfold CursorOK
    rw [h2]
  | insert s s1 t date cycle fuel _ hst _ hcy hi ih =>
    obtain ⟨q, hw, hsl⟩ := ih
    obtain ⟨hw1, -⟩ := wf_insert cfg hw hst hcy hi
    refine ⟨_, hw1, fun i hi1 => ?_⟩
    have hit : i ≠ t := fun e => hi1 ((mem_insertByDate _ _ _ _ _).2 (Or.inl e))
    have hiq : i ∉ q := fun hm => hi1 ((mem_insertByDate _ _ _ _ _).2 (Or.inr hm))
    rw [insert_state_other hi i hit]
    simpa using hsl i hiq
  | remove s t fuel q1 _ hwalk ht ih =>
    obtain ⟨q, hw, hsl⟩ := ih
    have := hw.queue.walk_unique hwalk
    subst this
    obtain ⟨pre, post, rfl⟩ := List.append_of_mem ht
    refine ⟨_, wf_remove cfg hw, fun i hi => ?_⟩
    by_cases hit : i = t
    · rw [hit]
      exact (remove_spec hw.queue).2.2.2.2.2.2.2.2.2.1
    · rw [remove_state_other s t i hit]
      exact hsl i (fun hm => hi (mem_split_ne hm hit))
  | tick s r fuel _ ht ih =>
    obtain ⟨q, hw, hsl⟩ := ih
    have hlt : q.length < max fuel (q.length + 1) := by omega
    have hle : fuel ≤ max fuel (q.length + 1) := by omega
    obtain ⟨r1, q1, hr, hP, -⟩ := tick_post cfg hw.queue hw.cursor hw.cycles hlt
    have heq : r1 = r := by
      have := tpl_counter_tick_mono cfg ht hle
      rw [hr] at this
      exact Option.some.inj this
    subst heq
    refine ⟨q1, wf_of_tickPost cfg hw hP, fun i hi => ?_⟩
    by_cases hiq : i ∈ q
    · have hfc : i ∈ r1.fired ∧ (s.objs i).cycle = 0 := by
        by_contra hcon
        exact hi ((hP.members i).2 ⟨hiq, hcon⟩)
      exact (hP.oneshot i hfc.1 hfc.2).1
    · rw [hP.frame i hiq]
      exact hsl i hiq

/-- C15.  Starting from a counter with an empty queue and all objects in state
SLEEP, after any sequence of `tpl_insert_time_obj` (of SLEEP objects),
`tpl_remove_time_obj` (of queue members) and `tpl_counter_tick` calls, the walk
from `first_to` ends, an object is in the walk if and only if its state is
ACTIVE, and every other object has state SLEEP. -/
theorem c15_active_iff_member (cfg : Config) (s : Kernel) (h : ReachableAsleep cfg s) :
    ∃ q, walk s.objs (q.length + 1) s.counter.first_to = some q ∧
      (∀ i, i ∈ q ↔ (s.objs i).state = ALARM_ACTIVE) ∧
      (∀ i, i ∉ q → (s.objs i).state = ALARM_SLEEP) := by
  obtain ⟨q, hw, hsl⟩ := reachableAsleep_inv cfg h
  refine ⟨q, hw.queue.walk_eq (by omega), fun i => ⟨fun hi => hw.active i hi, fun hi => ?_⟩, hsl⟩
  by_contra hcon
  have := hsl i hcon
  rw [hi] at this
  exact sleep_ne_active this.symm

theorem staleD_reachableAsleep : ReachableAsleep cfg8 staleD := by
  have hA : activate 8 (emptyAt 5) 0 1 0 = some staleA := rfl
  have hB : activate 8 staleA 1 2 0 = some staleB := rfl
  have hD : activate 8 staleC 2 1 0 = some staleD := rfl
  have rA : ReachableAsleep cfg8 staleA :=
    ReachableAsleep.insert (emptyAt 5) staleA 0 1 0 8
      (ReachableAsleep.init _ rfl rfl (fun _ => rfl)) rfl (by decide) (by decide) hA
  have rB : ReachableAsleep cfg8 staleB :=
    ReachableAsleep.insert staleA staleB 1 2 0 8 rA (by decide) (by decide) (by decide) hB
  have rC : ReachableAsleep cfg8 staleC :=
    ReachableAsleep.remove staleB 0 8 [0, 1] rB (by decide) (by decide)
  exact ReachableAsleep.insert staleC staleD 2 1 0 8 rC (by decide) (by decide) (by decide) hD

/-- C15, witness: the state `staleD` (insert 0, insert 1, remove 0, insert 2;
queue `[2, 1]`). -/
theorem c15_active_iff_member_witness :
    ReachableAsleep cfg8 staleD ∧
    ∃ q, walk staleD.objs (q.length + 1) staleD.counter.first_to = some q ∧
      (∀ i, i ∈ q ↔ (staleD.objs i).state = ALARM_ACTIVE) ∧
      (∀ i, i ∉ q → (staleD.objs i).state = ALARM_SLEEP) :=
  ⟨staleD_reachableAsleep, c15_active_iff_member cfg8 staleD staleD_reachableAsleep⟩

/-! ## C16: range of the tick accumulator -/

/-- C16.  For a counter with `1 ≤ ticks_per_base` and
`current_tick < ticks_per_base` (the fields being of type `tpl_tick`), every
result of `tpl_counter_tick` has `current_tick < ticks_per_base`, an unchanged
`ticks_per_base`, and a `current_date` that is the old one plus 1 modulo the tick
width if `current_tick` was `ticks_per_base - 1` before the call, and the old one
otherwise (the two differ); on a well-formed queue the call returns. -/
theorem c16_tick_accumulator_range (cfg : Config) (s : Kernel) (fuel : Nat)
    (hT1 : 1 ≤ s.counter.ticks_per_base) (hlt : s.counter.current_tick < s.counter.ticks_per_base)
    (hT : s.counter.ticks_per_base < 2 ^ cfg.width)
    (hD : s.counter.current_date < 2 ^ cfg.width) :
    (∀ r, tpl_counter_tick cfg fuel s = some r →
      r.kernel.counter.current_tick < r.kernel.counter.ticks_per_base ∧
      r.kernel.counter.ticks_per_base = s.counter.ticks_per_base ∧
      (r.kernel.counter.current_date = (s.counter.current_date + 1) % 2 ^ cfg.width ↔
        s.counter.current_tick = s.counter.ticks_per_base - 1) ∧
      (r.kernel.counter.current_date = s.counter.current_date ↔
        s.counter.current_tick ≠ s.counter.ticks_per_base - 1)) ∧
    (∀ q, IsQueue s q → CursorOK s q → (∀ x ∈ q, (s.objs x).cycle < 2 ^ cfg.width) →
      q.length < fuel → ∃ r, tpl_counter_tick cfg fuel s = some r) := by
  have hmod : (s.counter.current_tick + 1) % 2 ^ cfg.width = s.counter.current_tick + 1 :=
    Nat.mod_eq_of_lt (by omega)
  have h2 : 2 ≤ 2 ^ cfg.width := by omega
  have hne : (s.counter.current_date + 1) % 2 ^ cfg.width ≠ s.counter.current_date := by
    by_cases hlast : s.counter.current_date + 1 < 2 ^ cfg.width
    · rw [Nat.mod_eq_of_lt hlast]; omega
    · have : s.counter.current_date + 1 = 2 ^ cfg.width := by omega
      rw [this, Nat.mod_self]; omega
  refine ⟨fun r hr => ?_, fun q hq hc hcyc hf => ?_⟩
  · by_cases hroll : (s.counter.current_tick + 1) % 2 ^ cfg.width = s.counter.ticks_per_base
    · obtain ⟨h1, h2, h3⟩ := tick_rollover_counter cfg fuel s r hroll hr
      have hct : s.counter.current_tick = s.counter.ticks_per_base - 1 := by omega
      rw [h1, h2, h3]
      exact ⟨by omega, rfl, ⟨fun _ => hct, fun _ => rfl⟩,
        ⟨fun e => absurd e hne, fun e => absurd hct e⟩⟩
    · rw [tick_no_rollover cfg fuel s hroll] at hr
      have hr1 := (Option.some.inj hr).symm
      subst hr1
      have hct : s.counter.current_tick ≠ s.counter.ticks_per_base - 1 := by omega
      show (s.counter.current_tick + 1) % 2 ^ cfg.width < s.counter.ticks_per_base ∧
        s.counter.ticks_per_base = s.counter.ticks_per_base ∧
        (s.counter.current_date = (s.counter.current_date + 1) % 2 ^ cfg.width ↔ _) ∧
        (s.counter.current_date = s.counter.current_date ↔ _)
      rw [hmod]
      exact ⟨by omega, rfl, ⟨fun e => absurd e.symm hne, fun e => absurd e hct⟩,
        ⟨fun _ => hct, fun _ => rfl⟩⟩
  · obtain ⟨r, q1, hr, -⟩ := tick_total cfg hq hc hcyc hf
    exact ⟨r, hr⟩

/-- C16, witness: `quadBase` at `current_tick = 3` (`ticks_per_base = 4`). -/
theorem c16_tick_accumulator_range_witness :
    ∃ r, tpl_counter_tick cfg8 3 (withTick quadBase 3) = some r ∧
      r.kernel.counter.current_tick < r.kernel.counter.ticks_per_base ∧
      r.kernel.counter.current_date = 1 := by
  have h := c16_tick_accumulator_range cfg8 (withTick quadBase 3) 3 (by decide) (by decide)
    (by decide) (by decide)
  obtain ⟨r, hr⟩ := h.2 [] ⟨rfl, trivial, List.nodup_nil⟩ (show CursorOK (withTick quadBase 3) [] from rfl)
    (by simp) (by decide)
  obtain ⟨h1, -, h3, -⟩ := h.1 r hr
  exact ⟨r, hr, h1, h3.2 rfl⟩

/-! ## C17: the expiry loop terminates and fires no object twice -/

/-- C17.  On a counter whose queue is a valid doubly linked list `q`, with
`next_to` NULL or a member of `q` (cycles of type `tpl_tick`, `expire` hooks that
leave the counter and its objects alone), `tpl_counter_tick` returns; the list of
objects whose `expire` hook was called has no duplicate, its length (the number of
iterations of the loop) is at most the number of members of `q` whose date is the
new `current_date`, and a rearmed object has a new date different from the new
`current_date`. -/
theorem c17_expiry_loop_terminates (cfg : Config) (s : Kernel) (q : List Nat) (fuel : Nat)
    (hq : IsQueue s q)
    (hn : s.counter.next_to = none ∨ ∃ n ∈ q, s.counter.next_to = some n)
    (hcyc : ∀ x ∈ q, (s.objs x).cycle < 2 ^ cfg.width) (hf : q.length < fuel) :
    ∃ r, tpl_counter_tick cfg fuel s = some r ∧ r.fired.Nodup ∧
      r.fired.length ≤ dueCount s.objs ((s.counter.current_date + 1) % 2 ^ cfg.width) q ∧
      (∀ x ∈ r.fired, (s.objs x).cycle ≠ 0 →
        (r.kernel.objs x).date ≠ (s.counter.current_date + 1) % 2 ^ cfg.width) := by
  have hD : (s.counter.current_date + 1) % 2 ^ cfg.width < 2 ^ cfg.width :=
    Nat.mod_lt _ (Nat.two_pow_pos _)
  by_cases hnone : s.counter.next_to = none
  · by_cases hroll : (s.counter.current_tick + 1) % 2 ^ cfg.width = s.counter.ticks_per_base
    · obtain ⟨k, hk⟩ : ∃ k, fuel = k + 1 := ⟨fuel - 1, by omega⟩
      have hl : tickLoop cfg fuel ((s.counter.current_date + 1) % 2 ^ cfg.width) fuel
          (rollover cfg s) cfg.NO_SPECIAL_CODE = some ⟨rollover cfg s, cfg.NO_SPECIAL_CODE, []⟩ := by
        have hn1 : (rollover cfg s).counter.next_to = none := hnone
        rw [hk]
        simp only [tickLoop, hn1]
      rw [tick_rollover cfg fuel s hroll, hl]
      exact ⟨_, rfl, List.nodup_nil, Nat.zero_le _, fun x hx => absurd hx (List.not_mem_nil x)⟩
    · rw [tick_no_rollover cfg fuel s hroll]
      exact ⟨_, rfl, List.nodup_nil, Nat.zero_le _, fun x hx => absurd hx (List.not_mem_nil x)⟩
  · have hc : CursorOK s q := by
      rcases hn with h | ⟨n, hnq, h⟩
      · exact absurd h hnone
      · unfold CursorOK
        rw [h]
        exact hnq
    obtain ⟨r, q1, hr, hP, -⟩ := tick_post cfg hq hc hcyc hf
    refine ⟨r, hr, hP.fired_nodup, ?_, fun x hx hcx => ?_⟩
    · have hsub : r.fired ⊆ q.filter
          (fun a => decide ((s.objs a).date = (s.counter.current_date + 1) % 2 ^ cfg.width)) := by
        intro x hx
        obtain ⟨h1, h2⟩ := hP.fired_due x hx
        exact List.mem_filter.2 ⟨h1, by simpa using h2⟩
      have hle := (List.subperm_of_subset hP.fired_nodup hsub).length_le
      unfold dueCount
      rw [List.countP_eq_length_filter]
      exact hle
    · rw [(hP.cyclic x hx hcx).2.1]
      exact rearm_ne hD hcx (hcyc x (hP.fired_due x hx).1)

/-- C17, witness: the twin scenario, two cyclic objects due at the same date. -/
theorem c17_expiry_loop_terminates_witness :
    ∃ r, tpl_counter_tick cfg8 3 twinState = some r ∧ r.fired.Nodup ∧
      r.fired.length ≤ dueCount twinState.objs ((twinState.counter.current_date + 1) % 2 ^ cfg8.width) [0, 1] ∧
      (∀ x ∈ r.fired, (twinState.objs x).cycle ≠ 0 →
        (r.kernel.objs x).date ≠ (twinState.counter.current_date + 1) % 2 ^ cfg8.width) :=
  c17_expiry_loop_terminates cfg8 twinState [0, 1] 3 twinState_wf.queue
    (Or.inr ⟨0, by decide, by decide⟩) (by decide) (by decide)

/-! ## C20: a tick touches only what it fires -/

/-- C20.  On a counter whose queue is the valid doubly linked list `q` with the
cursor a member (cycles of type `tpl_tick`), `tpl_counter_tick` returns; the walk
from `first_to` afterwards is a list `q1`; every object whose `expire` hook was
not called keeps its date, cycle and state; the members of `q1` are the members
of `q` except the fired objects with cycle 0; and the non-fired members occur in
`q1` in the same order as in `q`. -/
theorem c20_tick_frame (cfg : Config) (s : Kernel) (q : List Nat) (fuel : Nat)
    (hq : IsQueue s q) (hc : CursorOK s q)
    (hcyc : ∀ x ∈ q, (s.objs x).cycle < 2 ^ cfg.width) (hf : q.length < fuel) :
    ∃ r q1, tpl_counter_tick cfg fuel s = some r ∧
      walk r.kernel.objs (q1.length + 1) r.kernel.counter.first_to = some q1 ∧
      (∀ i, i ∉ r.fired → (r.kernel.objs i).date = (s.objs i).date ∧
        (r.kernel.objs i).cycle = (s.objs i).cycle ∧
        (r.kernel.objs i).state = (s.objs i).state) ∧
      (∀ x, x ∈ q1 ↔ x ∈ q ∧ ¬ (x ∈ r.fired ∧ (s.objs x).cycle = 0)) ∧
      q1.filter (fun x => decide (x ∉ r.fired)) = q.filter (fun x => decide (x ∉ r.fired)) := by
  obtain ⟨r, q1, hr, hP, -⟩ := tick_post cfg hq hc hcyc hf
  exact ⟨r, q1, hr, hP.queue.walk_eq (by omega),
    fun i hi => ⟨(hP.keep i hi).1, hP.cycle i, (hP.keep i hi).2⟩, hP.members, hP.order⟩

/-- C20, witness: the queue `[0, 1]` of `wrapQueue`; the tick fires object 0
only. -/
theorem c20_tick_frame_witness :
    ∃ r q1, tpl_counter_tick cfg8 3 wrapQueue = some r ∧
      walk r.kernel.objs (q1.length + 1) r.kernel.counter.first_to = some q1 ∧
      (∀ i, i ∉ r.fired → (r.kernel.objs i).date = (wrapQueue.objs i).date ∧
        (r.kernel.objs i).cycle = (wrapQueue.objs i).cycle ∧
        (r.kernel.objs i).state = (wrapQueue.objs i).state) ∧
      (∀ x, x ∈ q1 ↔ x ∈ [0, 1] ∧ ¬ (x ∈ r.fired ∧ (wrapQueue.objs x).cycle = 0)) ∧
      q1.filter (fun x => decide (x ∉ r.fired)) =
        [0, 1].filter (fun x => decide (x ∉ r.fired)) :=
  c20_tick_frame cfg8 wrapQueue [0, 1] 3 ⟨rfl, ⟨rfl, rfl, rfl, rfl, trivial⟩, by decide⟩
    (show 0 ∈ [0, 1] by decide) (by decide) (by decide)

/-! ## C19: sortedness survives removal and rearming -/

/-- C19.  On a counter whose queue is the valid doubly linked list `q`, with
non-decreasing dates along `q`: after `tpl_remove_time_obj` of any member the walk
from `first_to` is `q` without that member and has non-decreasing dates; and (the
cursor being a member, cycles of type `tpl_tick`) `tpl_counter_tick` returns, the
walk from `first_to` afterwards has non-decreasing dates, and it contains every
rearmed object at its new date `(date + cycle) mod 2^w`, whether or not the sum
wrapped. -/
theorem c19_sorted_preserved (cfg : Config) (s : Kernel) (q : List Nat) (fuel : Nat)
    (hq : IsQueue s q) (hs : DateSorted s.objs q) :
    (∀ x ∈ q,
      walk (tpl_remove_time_obj s x).objs (q.length + 1)
        (tpl_remove_time_obj s x).counter.first_to = some (q.erase x) ∧
      DateSorted (tpl_remove_time_obj s x).objs (q.erase x)) ∧
    (CursorOK s q → (∀ x ∈ q, (s.objs x).cycle < 2 ^ cfg.width) → q.length < fuel →
      ∃ r q1, tpl_counter_tick cfg fuel s = some r ∧
        walk r.kernel.objs (q1.length + 1) r.kernel.counter.first_to = some q1 ∧
        DateSorted r.kernel.objs q1 ∧
        (∀ x ∈ r.fired, (s.objs x).cycle ≠ 0 → x ∈ q1 ∧
          (r.kernel.objs x).date =
            ((s.counter.current_date + 1) % 2 ^ cfg.width + (s.objs x).cycle) % 2 ^ cfg.width)) := by
  refine ⟨fun x hx => ?_, fun hc hcyc hf => ?_⟩
  · obtain ⟨pre, post, rfl⟩ := List.append_of_mem hx
    have hsp := remove_spec hq
    rw [erase_split hq.nodup]
    refine ⟨hsp.1.walk_eq (by simp only [List.length_append, List.length_cons]; omega), ?_⟩
    exact dateSorted_congr (fun a _ => (hsp.2.2.2.2.2.2.2.1 a).1) (dateSorted_split hs)
  · obtain ⟨r, q1, hr, hP, -⟩ := tick_post cfg hq hc hcyc hf
    exact ⟨r, q1, hr, hP.queue.walk_eq (by omega), hP.sorted hs,
      fun x hx hcx => ⟨(hP.cyclic x hx hcx).2.2, (hP.cyclic x hx hcx).2.1⟩⟩

/-- C19, witness: the queue `[0, 1]` of `wrapQueue` (dates 6 and 9) at
`current_date = 5`; the tick fires object 0, whose new date `6 + 253` wraps to 3,
below the new `current_date = 6`. -/
theorem c19_sorted_preserved_witness :
    IsQueue wrapQueue [0, 1] ∧ DateSorted wrapQueue.objs [0, 1] ∧
    DateSorted (tpl_remove_time_obj wrapQueue 0).objs ([0, 1].erase 0) ∧
    ∃ r q1, tpl_counter_tick cfg8 3 wrapQueue = some r ∧
      walk r.kernel.objs (q1.length + 1) r.kernel.counter.first_to = some q1 ∧
      DateSorted r.kernel.objs q1 ∧ r.fired = [0] ∧ 0 ∈ q1 ∧
      (r.kernel.objs 0).date = 3 ∧ r.kernel.counter.current_date = 6 := by
  have hq : IsQueue wrapQueue [0, 1] := ⟨rfl, ⟨rfl, rfl, rfl, rfl, trivial⟩, by decide⟩
  have hs : DateSorted wrapQueue.objs [0, 1] := by
    show List.Pairwise _ _
    decide
  have hc : CursorOK wrapQueue [0, 1] := by
    show 0 ∈ [0, 1]
    decide
  have h := c19_sorted_preserved cfg8 wrapQueue [0, 1] 3 hq hs
  obtain ⟨r, q1, hr, hw, hsort, hre⟩ := h.2 hc (by decide) (by decide)
  have e1 : (tpl_counter_tick cfg8 3 wrapQueue).map (fun r => r.fired) = some [0] := by decide
  have e2 : (tpl_counter_tick cfg8 3 wrapQueue).map (fun r => (r.kernel.objs 0).date)
      = some 3 := by decide
  have e3 : (tpl_counter_tick cfg8 3 wrapQueue).map (fun r => r.kernel.counter.current_date)
      = some 6 := by decide
  rw [hr] at e1 e2 e3
  simp only [Option.map_some', Option.some.injEq] at e1 e2 e3
  refine ⟨hq, hs, (h.1 0 (by decide)).2, r, q1, hr, hw, hsort, e1, ?_, e2, e3⟩
  exact (hre 0 (by rw [e1]; decide) (by decide)).1

/-! ## C18: the cursor as the first member after the current date -/

theorem find_found (p : Nat → Bool) (l1 l2 : List Nat) (n : Nat)
    (h1 : ∀ a ∈ l1, p a = false) (hn : p n = true) :
    (l1 ++ n :: l2).find? p = some n := by
  induction l1 with
  | nil => simp [List.find?, hn]
  | cons a l ih =>
    have ha : p a = false := h1 a (List.mem_cons_self _ _)
    rw [List.cons_append, List.find?_cons_of_neg _ (by simp [ha])]
    exact ih (fun b hb => h1 b (List.mem_cons_of_mem _ hb))

theorem find_none (p : Nat → Bool) (l : List Nat) (h : ∀ a ∈ l, p a = false) :
    l.find? p = none := by
  induction l with
  | nil => rfl
  | cons a l ih =>
    rw [List.find?_cons_of_neg _ (by simp [h a (List.mem_cons_self _ _)])]
    exact ih (fun b hb => h b (List.mem_cons_of_mem _ hb))

theorem find_split (p : Nat → Bool) (l : List Nat) (n : Nat) (h : l.find? p = some n) :
    ∃ l1 l2, l = l1 ++ n :: l2 ∧ (∀ a ∈ l1, p a = false) ∧ p n = true := by
  induction l with
  | nil => simp at h
  | cons a l ih =>
    by_cases ha : p a = true
    · rw [List.find?_cons_of_pos _ ha] at h
      have := Option.some.inj h
      subst this
      exact ⟨[], l, rfl, fun b hb => absurd hb (List.not_mem_nil b), ha⟩
    · rw [List.find?_cons_of_neg _ ha] at h
      obtain ⟨l1, l2, he, h1, h2⟩ := ih h
      refine ⟨a :: l1, l2, by rw [he]; rfl, fun b hb => ?_, h2⟩
      rcases List.mem_cons.1 hb with rfl | hb
      · simpa using ha
      · exact h1 b hb

theorem find_all_false (p : Nat → Bool) (l : List Nat) (h : l.find? p = none) :
    ∀ a ∈ l, p a = false := by
  induction l with
  | nil => intro a ha; exact absurd ha (List.not_mem_nil a)
  | cons a l ih =>
    by_cases ha : p a = true
    · rw [List.find?_cons_of_pos _ ha] at h
      simp at h
    · rw [List.find?_cons_of_neg _ ha] at h
      intro b hb
      rcases List.mem_cons.1 hb with rfl | hb
      · simpa using ha
      · exact ih h b hb

theorem firstWith_found (p : Nat → Bool) (l1 l2 : List Nat) (n : Nat)
    (h1 : ∀ a ∈ l1, p a = false) (hn : p n = true) :
    firstWith p (l1 ++ n :: l2) = some n := by
  unfold firstWith
  rw [find_found p l1 l2 n h1 hn]

theorem firstWith_none (p : Nat → Bool) (l : List Nat) (h : ∀ a ∈ l, p a = false) :
    firstWith p l = headOr l none := by
  unfold firstWith
  rw [find_none p l h]

theorem firstWith_cases (p : Nat → Bool) (q : List Nat) (n : Nat) (h : firstWith p q = some n) :
    (∃ l1 l2, q = l1 ++ n :: l2 ∧ (∀ a ∈ l1, p a = false) ∧ p n = true) ∨
    ((∀ a ∈ q, p a = false) ∧ ∃ l, q = n :: l) := by
  unfold firstWith at h
  cases hf : q.find? p with
  | some a =>
    rw [hf] at h
    have := Option.some.inj h
    subst this
    exact Or.inl (find_split p q a hf)
  | none =>
    rw [hf] at h
    refine Or.inr ⟨find_all_false p q hf, ?_⟩
    cases q with
    | nil => simp [headOr] at h
    | cons a l =>
      have : a = n := by simpa [headOr] using h
      exact ⟨l, by rw [this]⟩

theorem firstWith_congr (p p1 : Nat → Bool) (q : List Nat) (h : ∀ a ∈ q, p1 a = p a) :
    firstWith p1 q = firstWith p q := by
  unfold firstWith
  have : q.find? p1 = q.find? p := by
    induction q with
    | nil => rfl
    | cons a l ih =>
      simp only [List.find?, h a (List.mem_cons_self _ _)]
      rw [ih (fun b hb => h b (List.mem_cons_of_mem _ hb))]
  rw [this]

theorem firstWith_nil_iff (p : Nat → Bool) (q : List Nat) : firstWith p q = none ↔ q = [] := by
  constructor
  · intro h
    unfold firstWith at h
    cases hf : q.find? p with
    | some a => rw [hf] at h; simp at h
    | none =>
      rw [hf] at h
      cases q with
      | nil => rfl
      | cons a l => simp [headOr] at h
  · intro h
    rw [h]
    rfl

theorem split_unique {pre post l1 l2 : List Nat} {x : Nat} (hnd : (pre ++ x :: post).Nodup)
    (h : pre ++ x :: post = l1 ++ x :: l2) : pre = l1 ∧ post = l2 := by
  induction pre generalizing l1 with
  | nil =>
    cases l1 with
    | nil => exact ⟨rfl, by simpa using h⟩
    | cons b l =>
      simp only [List.nil_append, List.cons_append, List.cons.injEq] at h
      have hx : x ∈ post := by rw [h.2]; simp
      exact absurd hx (List.nodup_cons.1 hnd).1
  | cons a pre ih =>
    cases l1 with
    | nil =>
      simp only [List.nil_append, List.cons_append, List.cons.injEq] at h
      have hx : a ∈ pre ++ x :: post := by rw [h.1]; simp
      exact absurd hx (List.nodup_cons.1 hnd).1
    | cons b l =>
      simp only [List.cons_append, List.cons.injEq] at h
      obtain ⟨h1, h2⟩ := ih (List.nodup_cons.1 hnd).2 h.2
      exact ⟨by rw [h.1, h1], h2⟩

theorem firstWith_remove_self (p : Nat → Bool) (pre post : List Nat) (x : Nat)
    (hnd : (pre ++ x :: post).Nodup)
    (hmono : (pre ++ x :: post).Pairwise (fun a b => p a = true → p b = true))
    (h : firstWith p (pre ++ x :: post) = some x) :
    firstWith p (pre ++ post) = headOr post (headOr pre none) := by
  rcases firstWith_cases p _ x h with ⟨l1, l2, he, hl1, hx⟩ | ⟨hall, l, he⟩
  · obtain ⟨h1, -⟩ := split_unique hnd he
    subst h1
    have hpost : ∀ b ∈ post, p b = true := fun b hb =>
      (List.pairwise_cons.1 (List.pairwise_append.1 hmono).2.1).1 b hb hx
    cases post with
    | nil =>
      rw [List.append_nil, firstWith_none p pre hl1]
      rfl
    | cons b post =>
      rw [firstWith_found p pre post b hl1 (hpost b (List.mem_cons_self _ _))]
      rfl
  · have hpre : pre = [] := by
      cases pre with
      | nil => rfl
      | cons a pre =>
        simp only [List.cons_append, List.cons.injEq] at he
        have hx : a ∈ pre ++ x :: post := by rw [he.1]; simp
        exact absurd hx (List.nodup_cons.1 hnd).1
    subst hpre
    rw [List.nil_append, firstWith_none p post
      (fun a ha => hall a (List.mem_cons_of_mem _ ha))]
    rfl

theorem firstWith_remove_other (p : Nat → Bool) (pre post : List Nat) (x n : Nat)
    (h : firstWith p (pre ++ x :: post) = some n) (hn : n ≠ x) :
    firstWith p (pre ++ post) = some n := by
  rcases firstWith_cases p _ n h with ⟨l1, l2, he, hl1, hpn⟩ | ⟨hall, l, he⟩
  · have hmem : n ∈ pre ++ post := mem_split_ne (by rw [he]; simp) hn
    by_cases hpx : p x = true
    · have hxl1 : x ∉ l1 := fun hm => by
        have := hl1 x hm
        rw [hpx] at this
        exact Bool.noConfusion this
      have hf : (pre ++ x :: post).find? p = some n := by rw [he]; exact find_found p l1 l2 n hl1 hpn
      rw [List.find?_append] at hf
      unfold firstWith
      rw [List.find?_append]
      cases hpre : pre.find? p with
      | some a =>
        rw [hpre] at hf
        simp only [Option.or_some] at hf ⊢
        rw [hf]
      | none =>
        rw [hpre] at hf
        simp only [Option.none_or, List.find?_cons_of_pos _ hpx, Option.some.injEq] at hf
        exact absurd hf.symm hn
    · have hf : (pre ++ x :: post).find? p = some n := by rw [he]; exact find_found p l1 l2 n hl1 hpn
      rw [List.find?_append, List.find?_cons_of_neg _ hpx] at hf
      unfold firstWith
      rw [List.find?_append, hf]
  · have hall1 : ∀ a ∈ pre ++ post, p a = false := fun a ha => hall a (mem_of_mem_split ha)
    rw [firstWith_none p _ hall1]
    cases pre with
    | nil =>
      simp only [List.nil_append, List.cons.injEq] at he
      exact absurd he.1.symm hn
    | cons a pre =>
      simp only [List.cons_append, List.cons.injEq] at he
      rw [he.1]
      rfl

theorem insertByDate_before_gt (objs : Nat → tpl_time_obj) (t d a : Nat) (l1 l2 : List Nat)
    (h : d < (objs a).date) :
    insertByDate objs t d (l1 ++ a :: l2) = insertByDate objs t d l1 ++ a :: l2 := by
  induction l1 with
  | nil =>
    rw [List.nil_append, insertByDate_cons, if_neg (by omega)]
    rfl
  | cons b l ih =>
    rw [List.cons_append, insertByDate_cons, insertByDate_cons]
    by_cases hb : (objs b).date ≤ d
    · rw [if_pos hb, if_pos hb, ih]
      rfl
    · rw [if_neg hb, if_neg hb]
      rfl

theorem firstWith_insert (objs : Nat → tpl_time_obj) (D d t : Nat) (q : List Nat)
    (p1 : Nat → Bool) (hd : d ≠ D)
    (hp : ∀ a ∈ q, p1 a = decide (D ≤ (objs a).date)) (hpt : p1 t = decide (D ≤ d)) (n : Nat)
    (hn : firstWith (fun a => decide (D ≤ (objs a).date)) q = some n) :
    firstWith p1 (insertByDate objs t d q) = some (insertCursor D (objs n).date d n t) := by
  rcases firstWith_cases _ q n hn with ⟨l1, l2, he, hl1, hpn⟩ | ⟨hall, l, he⟩
  · subst he
    have hnD : D ≤ (objs n).date := by simpa using hpn
    have hlo : ∀ a ∈ l1, (objs a).date < D := fun a ha => by
      have := hl1 a ha
      simpa using this
    have hp1lo : ∀ a ∈ l1, p1 a = false := fun a ha => by
      rw [hp a (List.mem_append_left _ ha)]
      exact hl1 a ha
    have hp1n : p1 n = true := by
      rw [hp n (List.mem_append_right _ (List.mem_cons_self _ _))]
      exact hpn
    by_cases hmove : d > D ∧ d < (objs n).date
    · have hc : insertCursor D (objs n).date d n t = t := by
        unfold insertCursor
        rw [if_neg (by omega), if_pos hmove]
      rw [hc, insertByDate_append_le objs t d l1 _ (fun a ha => by have := hlo a ha; omega),
        insertByDate_cons, if_neg (by omega)]
      exact firstWith_found p1 l1 _ t hp1lo (by rw [hpt]; simp; omega)
    · have hc : insertCursor D (objs n).date d n t = n := by
        unfold insertCursor
        rw [if_neg (by omega), if_neg hmove]
      rw [hc]
      by_cases hlt : d < D
      · rw [insertByDate_before_gt objs t d n l1 l2 (by omega)]
        refine firstWith_found p1 _ l2 n (fun a ha => ?_) hp1n
        rcases (mem_insertByDate _ _ _ _ _).1 ha with rfl | ha
        · rw [hpt]; simp; omega
        · exact hp1lo a ha
      · have hge : (objs n).date ≤ d := by omega
        rw [insertByDate_append_le objs t d l1 _ (fun a ha => by have := hlo a ha; omega),
          insertByDate_cons, if_pos hge]
        exact firstWith_found p1 l1 _ n hp1lo hp1n
  · subst he
    have hlo : ∀ a ∈ n :: l, (objs a).date < D := fun a ha => by
      have := hall a ha
      simpa using this
    have hp1lo : ∀ a ∈ n :: l, p1 a = false := fun a ha => by
      rw [hp a ha]
      exact hall a ha
    have hnlt : (objs n).date < D := hlo n (List.mem_cons_self _ _)
    by_cases hgt : d > D
    · have hc : insertCursor D (objs n).date d n t = t := by
        unfold insertCursor
        rw [if_pos hnlt, if_pos (Or.inl hgt)]
      rw [hc, insertByDate_all_le objs t d _ (fun a ha => by have := hlo a ha; omega)]
      exact firstWith_found p1 _ [] t hp1lo (by rw [hpt]; simp; omega)
    · have hdlt : d < D := by omega
      have hp1t : p1 t = false := by rw [hpt]; simp; omega
      by_cases hdn : d < (objs n).date
      · have hc : insertCursor D (objs n).date d n t = t := by
          unfold insertCursor
          rw [if_pos hnlt, if_pos (Or.inr hdn)]
        rw [hc, insertByDate_cons, if_neg (by omega), firstWith_none]
        · rfl
        · intro a ha
          rcases List.mem_cons.1 ha with rfl | ha
          · exact hp1t
          · exact hp1lo a ha
      · have hc : insertCursor D (objs n).date d n t = n := by
          unfold insertCursor
          rw [if_pos hnlt, if_neg (by omega)]
        rw [hc, insertByDate_cons, if_pos (by omega), firstWith_none]
        · rfl
        · intro a ha
          rcases List.mem_cons.1 ha with rfl | ha
          · exact hp1lo a (List.mem_cons_self _ _)
          · rcases (mem_insertByDate _ _ _ _ _).1 ha with rfl | ha
            · exact hp1t
            · exact hp1lo a (List.mem_cons_of_mem _ ha)

theorem firstWith_singleton (p : Nat → Bool) (t : Nat) : firstWith p [t] = some t := by
  unfold firstWith
  by_cases h : p t = true
  · rw [List.find?_cons_of_pos _ h]
  · rw [List.find?_cons_of_neg _ h]
    rfl

theorem isQueue_unique {s : Kernel} {q q1 : List Nat} (hq : IsQueue s q) (hq1 : IsQueue s q1) :
    q1 = q :=
  hq.walk_unique (hq1.walk_eq (Nat.lt_succ_self _))

theorem dateSorted_mono {objs : Nat → tpl_time_obj} {q : List Nat} (D : Nat)
    (hs : DateSorted objs q) :
    q.Pairwise (fun a b => (fun a => decide (D ≤ (objs a).date)) a = true →
      (fun a => decide (D ≤ (objs a).date)) b = true) := by
  unfold DateSorted at hs
  refine hs.imp (fun {a b} hab h => ?_)
  simp only [decide_eq_true_eq] at h ⊢
  omega

theorem no_due_of_exit (objs : Nat → tpl_time_obj) (D : Nat) (q : List Nat) (c : Option Nat)
    (hs : DateSorted objs q)
    (hc : c = firstWith (fun a => decide (D ≤ (objs a).date)) q)
    (hex : ∀ n, c = some n → (objs n).date ≠ D) : ∀ x ∈ q, (objs x).date ≠ D := by
  intro x hx hxd
  cases hcn : c with
  | none =>
    rw [hcn] at hc
    have := (firstWith_nil_iff _ q).1 hc.symm
    rw [this] at hx
    exact absurd hx (List.not_mem_nil x)
  | some n =>
    have hn := hex n hcn
    rw [hcn] at hc
    rcases firstWith_cases _ q n hc.symm with ⟨l1, l2, he, hl1, hpn⟩ | ⟨hall, l, he⟩
    · subst he
      have hnD : D ≤ (objs n).date := by simpa using hpn
      rcases List.mem_append.1 hx with h | h
      · have := hl1 x h
        simp only [decide_eq_false_iff_not] at this
        omega
      · rcases List.mem_cons.1 h with h | h
        · rw [h] at hxd; exact hn hxd
        · unfold DateSorted at hs
          have := (List.pairwise_cons.1 (List.pairwise_append.1 hs).2.1).1 x h
          omega
    · have := hall x hx
      simp only [decide_eq_false_iff_not] at this
      omega

theorem firstAfter_eq (objs : Nat → tpl_time_obj) (D : Nat) (q : List Nat)
    (h : ∀ x ∈ q, (objs x).date ≠ D) :
    firstAfter objs D q = firstWith (fun a => decide (D ≤ (objs a).date)) q := by
  unfold firstAfter
  refine firstWith_congr _ _ q (fun a ha => ?_)
  have := h a ha
  by_cases hlt : D < (objs a).date
  · simp [hlt, Nat.le_of_lt hlt]
  · have : ¬ D ≤ (objs a).date := by omega
    simp [hlt, this]

theorem activate_spec {s s1 : Kernel} {q : List Nat} {t date cycle fuel : Nat}
    (hq : IsQueue s q) (htq : t ∉ q) (hc : CursorOK s q)
    (hi : activate fuel s t date cycle = some s1) :
    s1.counter.next_to =
      (if q = [] then some t
       else s.counter.next_to.map (fun n =>
         insertCursor s.counter.current_date (s.objs n).date date n t)) ∧
    s1.counter.current_date = s.counter.current_date ∧
    (s1.objs t).date = date ∧ (∀ i, i ≠ t → (s1.objs i).date = (s.objs i).date) := by
  have hq2 : IsQueue { s with objs := set_cycle (set_date s.objs t date) t cycle } q :=
    isQueue_congr (s := s) rfl (fun a _ => by simp) hq
  have hne : q ≠ [] → ∃ n,
      ({ s with objs := set_cycle (set_date s.objs t date) t cycle } : Kernel).counter.next_to
        = some n := by
    intro h
    obtain ⟨n, hn, _⟩ := hc.exists_of_ne h
    exact ⟨n, hn⟩
  have hlt : q.length < max fuel (q.length + 1) := by omega
  have hle : fuel ≤ max fuel (q.length + 1) := by omega
  obtain ⟨s2, hins, -, hcur, -, -, hcd, hdc, -⟩ := insert_spec hq2 htq hlt hne
  have heq : s2 = s1 := by
    have := tpl_insert_time_obj_mono hi hle
    rw [hins] at this
    exact Option.some.inj this
  subst heq
  refine ⟨?_, hcd, by rw [(hdc t).1]; simp, fun i hi => by rw [(hdc i).1]; simp [hi]⟩
  rw [hcur]
  by_cases he : q = []
  · rw [if_pos he, if_pos he]
  · rw [if_neg he, if_neg he]
    obtain ⟨n, hn, hnq⟩ := hc.exists_of_ne he
    have hn2 : ({ s with objs := set_cycle (set_date s.objs t date) t cycle } :
        Kernel).counter.next_to = some n := hn
    have hnt : n ≠ t := fun h => htq (h ▸ hnq)
    rw [hn2]
    simp [hnt]

theorem offDate_insert (cfg : Config) {s s1 : Kernel} {q : List Nat} {t date cycle fuel : Nat}
    (hJ : OffDate cfg s q) (hst : (s.objs t).state = ALARM_SLEEP)
    (hne : date ≠ s.counter.current_date) (hdt : date < 2 ^ cfg.width)
    (hcy : cycle < 2 ^ cfg.width) (hi : activate fuel s t date cycle = some s1) :
    OffDate cfg s1 (insertByDate s.objs t date q) := by
  obtain ⟨hw1, htq⟩ := wf_insert cfg hJ.wf hst hcy hi
  obtain ⟨hcur, hcd, hdate, hoth⟩ := activate_spec hJ.wf.queue htq hJ.wf.cursor hi
  have hmem : ∀ a ∈ q, (s1.objs a).date = (s.objs a).date := fun a ha =>
    hoth a (fun h => htq (h ▸ ha))
  have hoff1 : ∀ x ∈ insertByDate s.objs t date q,
      (s1.objs x).date ≠ s1.counter.current_date := by
    intro x hx
    rw [hcd]
    rcases (mem_insertByDate _ _ _ _ _).1 hx with rfl | hx
    · rw [hdate]; exact hne
    · rw [hmem x hx]; exact hJ.off x hx
  refine ⟨hw1, ?_, by rw [hcd]; exact hJ.now, fun x hx => ?_, hoff1, ?_⟩
  · have h1 : DateSorted s1.objs q := dateSorted_congr hmem hJ.sorted
    have h2 := insertByDate_sorted s1.objs t q h1
    rw [hdate, insertByDate_congr t date hmem] at h2
    exact h2
  · rcases (mem_insertByDate _ _ _ _ _).1 hx with rfl | hx
    · rw [hdate]; exact hdt
    · rw [hmem x hx]; exact hJ.dates x hx
  · rw [firstAfter_eq _ _ _ hoff1, hcur, hcd]
    by_cases he : q = []
    · rw [if_pos he, he]
      exact (firstWith_singleton _ t).symm
    · rw [if_neg he]
      obtain ⟨n, hn, hnq⟩ := hJ.wf.cursor.exists_of_ne he
      have hold := hJ.cursor
      rw [firstAfter_eq _ _ _ hJ.off, hn] at hold
      rw [hn]
      simp only [Option.map_some']
      exact (firstWith_insert s.objs s.counter.current_date date t q _ hne
        (fun a ha => by rw [hmem a ha]) (by rw [hdate]) n hold.symm).symm

theorem offDate_remove (cfg : Config) {s : Kernel} {pre post : List Nat} {x : Nat}
    (hJ : OffDate cfg s (pre ++ x :: post)) :
    OffDate cfg (tpl_remove_time_obj s x) (pre ++ post) := by
  obtain ⟨-, hself, -, hother, -, -, hcd, hdc, -⟩ := remove_spec hJ.wf.queue
  have hoff1 : ∀ a ∈ pre ++ post,
      ((tpl_remove_time_obj s x).objs a).date ≠ (tpl_remove_time_obj s x).counter.current_date := by
    intro a ha
    rw [hcd, (hdc a).1]
    exact hJ.off a (mem_of_mem_split ha)
  refine ⟨wf_remove cfg hJ.wf, dateSorted_congr (fun a _ => (hdc a).1) (dateSorted_split hJ.sorted),
    by rw [hcd]; exact hJ.now, fun a ha => by rw [(hdc a).1]; exact hJ.dates a (mem_of_mem_split ha),
    hoff1, ?_⟩
  rw [firstAfter_eq _ _ _ hoff1, hcd,
    firstWith_congr (fun a => decide (s.counter.current_date ≤ (s.objs a).date)) _ _
      (fun a _ => by rw [(hdc a).1])]
  obtain ⟨n, hn, hnq⟩ := hJ.wf.cursor.exists_of_ne (by simp)
  have hold := hJ.cursor
  rw [firstAfter_eq _ _ _ hJ.off, hn] at hold
  by_cases hnx : n = x
  · subst hnx
    rw [hself hn]
    exact (firstWith_remove_self _ pre post n hJ.wf.queue.nodup
      (dateSorted_mono _ hJ.sorted) hold.symm).symm
  · rw [hother n hnx hn]
    exact (firstWith_remove_other _ pre post x n hold.symm hnx).symm

theorem tickLoop_offDate (cfg : Config) (D : Nat) (hD : D < 2 ^ cfg.width) (scan : Nat)
    (s : Kernel) (q : List Nat) (need fuel : Nat)
    (hq : IsQueue s q) (hc : CursorOK s q) (hcyc : ∀ x ∈ q, (s.objs x).cycle < 2 ^ cfg.width)
    (hsc : q.length < scan) (hf : q.length < fuel)
    (hs : DateSorted s.objs q) (hcd : s.counter.current_date = D)
    (hcur : s.counter.next_to = firstWith (fun a => decide (D ≤ (s.objs a).date)) q) :
    ∃ r q1, tickLoop cfg scan D fuel s need = some r ∧ TickPost cfg D s.objs q r q1 ∧
      (∀ x ∈ q1, (r.kernel.objs x).date ≠ D) ∧
      r.kernel.counter.next_to = firstAfter r.kernel.objs D q1 := by
  obtain ⟨r, q1, hr, hP, hL⟩ := tickLoop_induct cfg D hD scan
    (fun s q r q1 => TickPost cfg D s.objs q r q1 ∧
      (DateSorted s.objs q → s.counter.current_date = D →
        s.counter.next_to = firstWith (fun a => decide (D ≤ (s.objs a).date)) q →
        (∀ x ∈ q1, (r.kernel.objs x).date ≠ D) ∧
        r.kernel.counter.next_to = firstAfter r.kernel.objs D q1))
    (fun s q need hq hc hex => ⟨tickPost_base cfg D s q need hq hc, fun hs _ hcur => by
      have hoff := no_due_of_exit s.objs D q s.counter.next_to hs hcur hex
      refine ⟨hoff, ?_⟩
      show s.counter.next_to = firstAfter s.objs D q
      rw [firstAfter_eq _ _ _ hoff]
      exact hcur⟩)
    (fun s pre t post s1 q1 r q2 hq hnext hdt hit hP1 =>
      ⟨tickPost_step cfg D s pre t post s1 q1 r q2 hq hdt hit hP1.1, fun hs hcd hcur => by
        have htnot : t ∉ pre ++ post := not_mem_split hq.nodup
        have hmem : ∀ a ∈ pre ++ post, (s1.objs a).date = (s.objs a).date := fun a ha =>
          (hit.others a (fun h => htnot (h ▸ ha))).1
        have h1 : DateSorted s1.objs (pre ++ post) :=
          dateSorted_congr hmem (dateSorted_split hs)
        rw [hnext] at hcur
        have hrem := firstWith_remove_self _ pre post t hq.nodup (dateSorted_mono D hs) hcur.symm
        have hcongr : firstWith (fun a => decide (D ≤ (s1.objs a).date)) (pre ++ post) =
            firstWith (fun a => decide (D ≤ (s.objs a).date)) (pre ++ post) :=
          firstWith_congr _ _ _ (fun a ha => by rw [hmem a ha])
        refine hP1.2 ?_ (hit.date.trans hcd) ?_
        · rcases hit.shape with ⟨_, he, _⟩ | ⟨_, he, _⟩
          · rw [he]; exact h1
          · have hcg : insertByDate s1.objs t (s1.objs t).date (pre ++ post) =
                insertByDate s.objs t (s1.objs t).date (pre ++ post) :=
              insertByDate_congr t (s1.objs t).date hmem
            rw [he, ← hcg]
            exact insertByDate_sorted s1.objs t (pre ++ post) h1
        · rcases hit.shape with ⟨_, he, _, _, hn1⟩ | ⟨_, he, _, _, hne, hn1⟩
          · rw [he, hn1, hcongr, hrem]
          · rw [he, hn1]
            by_cases hemp : pre ++ post = []
            · rw [if_pos hemp, hemp]
              exact (firstWith_singleton _ t).symm
            · rw [if_neg hemp]
              obtain ⟨n, hn⟩ : ∃ n, headOr post (headOr pre none) = some n := by
                cases hh : headOr post (headOr pre none) with
                | some n => exact ⟨n, rfl⟩
                | none =>
                  rw [hh] at hrem
                  exact absurd ((firstWith_nil_iff _ _).1 hrem) hemp
              rw [hn] at hrem ⊢
              simp only [Option.map_some']
              rw [hcd]
              rw [hdt] at hne
              exact (firstWith_insert s.objs D (s1.objs t).date t (pre ++ post) _ hne
                (fun a ha => by rw [hmem a ha]) rfl n hrem).symm⟩)
    q.length s q need fuel hq hc hcyc (dueCount_le_length _ _ _) hsc hf
  exact ⟨r, q1, hr, hP, hL hs hcd hcur⟩

theorem cursor_roll (cfg : Config) {s : Kernel} {q : List Nat} (hJ : OffDate cfg s q) :
    firstAfter s.objs s.counter.current_date q =
      firstWith (fun a => decide ((s.counter.current_date + 1) % 2 ^ cfg.width ≤ (s.objs a).date)) q := by
  by_cases hlast : s.counter.current_date + 1 < 2 ^ cfg.width
  · rw [Nat.mod_eq_of_lt hlast]
    unfold firstAfter
    exact firstWith_congr _ _ q (fun a _ => by
      by_cases hlt : s.counter.current_date < (s.objs a).date
      · have : s.counter.current_date + 1 ≤ (s.objs a).date := hlt
        simp [hlt, this]
      · have : ¬ s.counter.current_date + 1 ≤ (s.objs a).date := by omega
        simp [hlt, this])
  · have hcur : s.counter.current_date + 1 = 2 ^ cfg.width := by have := hJ.now; omega
    rw [hcur, Nat.mod_self]
    unfold firstAfter
    rw [firstWith_none _ q (fun a ha => by
      have h1 := hJ.dates a ha
      have h2 := hJ.off a ha
      have : ¬ s.counter.current_date < (s.objs a).date := by omega
      simp [this])]
    cases q with
    | nil => rfl
    | cons a l => exact (firstWith_found _ [] l a (fun b hb => absurd hb (List.not_mem_nil b))
        (by simp)).symm

theorem offDate_tick (cfg : Config) {s : Kernel} {q : List Nat} {fuel : Nat}
    (hJ : OffDate cfg s q) (hf : q.length < fuel) :
    ∃ r q1, tpl_counter_tick cfg fuel s = some r ∧
      TickPost cfg ((s.counter.current_date + 1) % 2 ^ cfg.width) s.objs q r q1 ∧
      OffDate cfg r.kernel q1 := by
  have hD : (s.counter.current_date + 1) % 2 ^ cfg.width < 2 ^ cfg.width :=
    Nat.mod_lt _ (Nat.two_pow_pos _)
  by_cases hroll : (s.counter.current_tick + 1) % 2 ^ cfg.width = s.counter.ticks_per_base
  · have hq1 : IsQueue (rollover cfg s) q :=
      ⟨hJ.wf.queue.first, hJ.wf.queue.links, hJ.wf.queue.nodup⟩
    have hc1 : CursorOK (rollover cfg s) q := hJ.wf.cursor
    have hcur1 : (rollover cfg s).counter.next_to = firstWith (fun a =>
        decide ((s.counter.current_date + 1) % 2 ^ cfg.width ≤ ((rollover cfg s).objs a).date)) q := by
      show s.counter.next_to = firstWith (fun a =>
        decide ((s.counter.current_date + 1) % 2 ^ cfg.width ≤ (s.objs a).date)) q
      rw [← cursor_roll cfg hJ]
      exact hJ.cursor
    obtain ⟨r, q1, hr, hP, hoff, hcur⟩ := tickLoop_offDate cfg _ hD fuel (rollover cfg s) q
      cfg.NO_SPECIAL_CODE fuel hq1 hc1 hJ.wf.cycles hf hf hJ.sorted rfl hcur1
    have hP1 : TickPost cfg ((s.counter.current_date + 1) % 2 ^ cfg.width) s.objs q r q1 := hP
    have hdate : r.kernel.counter.current_date = (s.counter.current_date + 1) % 2 ^ cfg.width :=
      (tickLoop_counter cfg fuel _ fuel (rollover cfg s) _ r hr).2.2
    refine ⟨r, q1, by rw [tick_rollover cfg fuel s hroll]; exact hr, hP1,
      wf_of_tickPost cfg hJ.wf hP1, hP1.sorted hJ.sorted, by rw [hdate]; exact hD,
      fun x hx => ?_, by rw [hdate]; exact hoff, by rw [hdate]; exact hcur⟩
    obtain ⟨hxq, hnot⟩ := (hP1.members x).1 hx
    by_cases hxf : x ∈ r.fired
    · rw [(hP1.cyclic x hxf (fun hc => hnot ⟨hxf, hc⟩)).2.1]
      exact Nat.mod_lt _ (Nat.two_pow_pos _)
    · rw [(hP1.keep x hxf).1]
      exact hJ.dates x hxq
  · refine ⟨_, q, tick_no_rollover cfg fuel s hroll, ?_, ?_⟩
    · exact tickPost_base cfg ((s.counter.current_date + 1) % 2 ^ cfg.width)
        (withTick s ((s.counter.current_tick + 1) % 2 ^ cfg.width)) q cfg.NO_SPECIAL_CODE
        ⟨hJ.wf.queue.first, hJ.wf.queue.links, hJ.wf.queue.nodup⟩ hJ.wf.cursor
    · exact ⟨⟨⟨hJ.wf.queue.first, hJ.wf.queue.links, hJ.wf.queue.nodup⟩, hJ.wf.cursor,
        hJ.wf.active, hJ.wf.cycles⟩, hJ.sorted, hJ.now, hJ.dates, hJ.off, hJ.cursor⟩

theorem reachableOffDate_inv (cfg : Config) {s : Kernel} (h : ReachableOffDate cfg s) :
    ∃ q, OffDate cfg s q := by
  induction h with
  | init s h1 h2 h3 =>
    refine ⟨[], ⟨⟨h1, trivial, List.nodup_nil⟩, ?_, by simp, by simp⟩, List.Pairwise.nil, h3,
      by simp, by simp, ?_⟩
    · unfold CursorOK
      rw [h2]
    · rw [h2]
      rfl
  | insert s s1 t date cycle fuel _ hst hne hdt hcy hi ih =>
    obtain ⟨q, hJ⟩ := ih
    exact ⟨_, offDate_insert cfg hJ hst hne hdt hcy hi⟩
  | remove s t fuel q1 _ hwalk ht ih =>
    obtain ⟨q, hJ⟩ := ih
    have := hJ.wf.queue.walk_unique hwalk
    subst this
    obtain ⟨pre, post, rfl⟩ := List.append_of_mem ht
    exact ⟨_, offDate_remove cfg hJ⟩
  | tick s r fuel _ ht ih =>
    obtain ⟨q, hJ⟩ := ih
    have hlt : q.length < max fuel (q.length + 1) := by omega
    have hle : fuel ≤ max fuel (q.length + 1) := by omega
    obtain ⟨r1, q1, hr, -, hJ1⟩ := offDate_tick cfg hJ hlt
    have heq : r1 = r := by
      have := tpl_counter_tick_mono cfg ht hle
      rw [hr] at this
      exact Option.some.inj this
    subst heq
    exact ⟨q1, hJ1⟩

/-- C18.  Starting from an empty queue, after any sequence of
`tpl_insert_time_obj` calls (each of a SLEEP object whose date differs from
`current_date` at the time of the call), `tpl_remove_time_obj` calls (of queue
members) and `tpl_counter_tick` calls: the walk from `first_to` ends; no member
has `date = current_date`; if the queue is non-empty, `next_to` is the first
member in list order with `date > current_date`, or `first_to` if there is none;
and the next `tpl_counter_tick` returns, calls no `expire` hook twice, and calls
the hook of every member whose date equals the `current_date` after the call. -/
theorem c18_no_alarm_missed (cfg : Config) (s : Kernel) (h : ReachableOffDate cfg s) :
    ∃ q, walk s.objs (q.length + 1) s.counter.first_to = some q ∧
      (∀ x ∈ q, (s.objs x).date ≠ s.counter.current_date) ∧
      (q ≠ [] → s.counter.next_to = firstAfter s.objs s.counter.current_date q) ∧
      (∀ fuel, q.length < fuel →
        ∃ r, tpl_counter_tick cfg fuel s = some r ∧ r.fired.Nodup ∧
          ∀ x ∈ q, (s.objs x).date = r.kernel.counter.current_date → x ∈ r.fired) := by
  obtain ⟨q, hJ⟩ := reachableOffDate_inv cfg h
  refine ⟨q, hJ.wf.queue.walk_eq (by omega), hJ.off, fun _ => hJ.cursor, fun fuel hf => ?_⟩
  obtain ⟨r, q1, hr, hP, hJ1⟩ := offDate_tick cfg hJ hf
  refine ⟨r, hr, hP.fired_nodup, fun x hx hxd => ?_⟩
  by_contra hnf
  have hx1 : x ∈ q1 := (hP.members x).2 ⟨hx, fun hh => hnf hh.1⟩
  have := hJ1.off x hx1
  rw [(hP.keep x hnf).1] at this
  exact this hxd

theorem dueB_reachable : ReachableOffDate cfg8 dueB := by
  have hA : activate 8 (emptyAt 5) 0 6 0 = some dueA := rfl
  have hB : activate 8 dueA 1 6 4 = some dueB := rfl
  have rA : ReachableOffDate cfg8 dueA :=
    ReachableOffDate.insert (emptyAt 5) dueA 0 6 0 8
      (ReachableOffDate.init _ rfl rfl (by decide)) rfl (by decide) (by decide) (by decide) hA
  exact ReachableOffDate.insert dueA dueB 1 6 4 8 rA (by decide) (by decide) (by decide)
    (by decide) hB

/-- C18, witness: the state `dueB` (at `current_date = 5`, objects 0 and 1
inserted with date 6); the next tick fires both. -/
theorem c18_no_alarm_missed_witness :
    ReachableOffDate cfg8 dueB ∧
    (tpl_counter_tick cfg8 3 dueB).map (fun r => r.fired) = some [0, 1] ∧
    ∃ q, walk dueB.objs (q.length + 1) dueB.counter.first_to = some q ∧
      (∀ x ∈ q, (dueB.objs x).date ≠ dueB.counter.current_date) ∧
      (q ≠ [] → dueB.counter.next_to = firstAfter dueB.objs dueB.counter.current_date q) ∧
      (∀ fuel, q.length < fuel →
        ∃ r, tpl_counter_tick cfg8 fuel dueB = some r ∧ r.fired.Nodup ∧
          ∀ x ∈ q, (dueB.objs x).date = r.kernel.counter.current_date → x ∈ r.fired) :=
  ⟨dueB_reachable, by decide, c18_no_alarm_missed cfg8 dueB dueB_reachable⟩

end Trampoline
